import Mathlib

/-!
# Verification of `treefs.py` (marcelodevops/treefs)

Shallow embedding of the build/export core of `src/treefs.py`:

* Python strings are Lean `String`s; the string helpers of the source
  (`rstrip`, `lower`, `startswith`, `endswith`, `strip_tree_chars`) are
  modelled on the underlying character lists.
* The filesystem is a finite rose tree: a directory is an ordered list of
  (name, node) children, where the list order models the arbitrary order
  in which the OS reports entries.  Paths are lists of name segments,
  relative to an ambient root directory; `pathlib` joining (`root / s`)
  is modelled by `pyJoin`, which splits on `/`, collapses empty and `.`
  segments, and lets a leading `/` escape the base, as `pathlib` does.
  (`..` is kept as a literal segment; theorems that would be sensitive to
  OS-level `..` resolution carry hypotheses excluding it.)
* `Path.mkdir(parents=True, exist_ok=True)`, `Path.write_text`,
  `Path.exists` and `shutil.copy2` become `mkdirp`, `writeText`,
  `pathExists` and `writeText` on that tree; a failing operation
  (`FileExistsError`, `NotADirectoryError`, `IsADirectoryError`) returns
  `none` and, as in CPython, performs no mutation.
* Each build function returns a state `St` carrying the filesystem, the
  `created` report list of the source, and a sticky error flag modelling
  an uncaught exception aborting the remainder of the run.
-/

/-- Python `str.isspace` for the characters Python strips by default. -/
def pyIsSpace (c : Char) : Bool :=
  c = ' ' || c = '\t' || c = '\n' || c = '\x0b' || c = '\x0c' || c = '\r'

/-- Python `str.rstrip()` (strip trailing whitespace). -/
def pyRstrip (s : String) : String :=
  ⟨(s.data.reverse.dropWhile pyIsSpace).reverse⟩

/-- Python `str.strip()` (strip whitespace at both ends). -/
def pyStrip (s : String) : String :=
  ⟨((s.data.dropWhile pyIsSpace).reverse.dropWhile pyIsSpace).reverse⟩

/-- Python `str.lower()` (the inputs of interest are ASCII). -/
def pyLower (s : String) : String :=
  ⟨s.data.map Char.toLower⟩

/-- Python `str.startswith`. -/
def pyStartsWith (s pre : String) : Bool :=
  pre.data.isPrefixOf s.data

/-- Python `str.endswith`. -/
def pyEndsWith (s suf : String) : Bool :=
  suf.data.isSuffixOf s.data

/-- The glyphs stripped by `strip_tree_chars` (`TREE_CHARS` in the source). -/
def TREE_CHARS : List Char := ['│', '├', '└', '─']

/-- `strip_tree_chars`: replace every tree glyph by nothing, then `strip()`. -/
def strip_tree_chars (line : String) : String :=
  pyStrip ⟨line.data.filter (fun c => !(TREE_CHARS.contains c))⟩

/-- Split a character list at `/` (helper for `pathlib` path splitting). -/
def splitSlash : List Char → List (List Char)
  | [] => [[]]
  | c :: rest =>
    match splitSlash rest with
    | [] => [[]]
    | s :: ss => if c = '/' then [] :: s :: ss else (c :: s) :: ss

/-- The name segments of a path string, as `pathlib` normalizes them:
empty segments (repeated or trailing `/`) and `.` segments are dropped. -/
def toSegs (s : String) : List String :=
  ((splitSlash s.data).map (fun l => (⟨l⟩ : String))).filter
    (fun seg => seg ≠ "" && seg ≠ ".")

/-- `pathlib` joining `base / s`: a leading `/` makes `s` absolute and
discards `base`. -/
def pyJoin (base : List String) (s : String) : List String :=
  if pyStartsWith s "/" then toSegs s else base ++ toSegs s

/-- `str(path)` for report lines (segments joined by `/`). -/
def pathStr (p : List String) : String :=
  String.intercalate "/" p

mutual
/-- A filesystem node: a text file with its content, or a directory. -/
inductive FNode where
  | file (content : String)
  | dir (children : FDir)
/-- Directory contents: an ordered association list of child name/node
pairs.  The order models the order in which the OS reports entries. -/
inductive FDir where
  | nil
  | cons (name : String) (node : FNode) (rest : FDir)
end

deriving instance DecidableEq for FNode, FDir
deriving instance Repr for FNode, FDir

mutual
/-- Structural size of a node (used as recursion fuel for exports). -/
def FNode.sizeN : FNode → Nat
  | .file _ => 1
  | .dir d => d.sizeD + 1
/-- Structural size of a directory listing. -/
def FDir.sizeD : FDir → Nat
  | .nil => 1
  | .cons _ nd rest => nd.sizeN + rest.sizeD
end

/-- Look up a directory entry by name (first match). -/
def FDir.lookupName : FDir → String → Option FNode
  | .nil, _ => none
  | .cons m nd rest, n => if m = n then some nd else rest.lookupName n

/-- Set / insert a directory entry: replace the first entry of that name,
or append a new entry at the end (a newly created entry is reported last
by the OS model). -/
def FDir.setName : FDir → String → FNode → FDir
  | .nil, n, x => .cons n x .nil
  | .cons m nd rest, n, x =>
    if m = n then .cons m x rest else .cons m nd (rest.setName n x)

/-- The children of a directory as a list of pairs (`Path.iterdir`). -/
def FDir.childList : FDir → List (String × FNode)
  | .nil => []
  | .cons n nd rest => (n, nd) :: rest.childList

/-- The child names of a directory, in OS-reported order. -/
def FDir.namesOf (d : FDir) : List String :=
  d.childList.map Prod.fst

/-- Resolve a path relative to a node, as the OS would: descending into a
file, or a missing name, yields `none`. -/
def FNode.lookupPath : FNode → List String → Option FNode
  | nd, [] => some nd
  | .file _, _ :: _ => none
  | .dir d, n :: rest =>
    match d.lookupName n with
    | none => none
    | some nd => nd.lookupPath rest

/-- Resolve a path relative to the ambient root directory. -/
def FDir.pathLookup (d : FDir) (p : List String) : Option FNode :=
  FNode.lookupPath (.dir d) p

/-- Python `Path.exists()`. -/
def FDir.pathExists (d : FDir) (p : List String) : Bool :=
  (d.pathLookup p).isSome

/-- Python `Path.is_dir()`. -/
def FDir.isDirAt (d : FDir) (p : List String) : Bool :=
  match d.pathLookup p with
  | some (.dir _) => true
  | _ => false

/-- `Path.mkdir(parents=True, exist_ok=True)` on a node: create every
missing directory along the path; an existing directory is fine
(`exist_ok`), an existing file anywhere along the path raises
(`FileExistsError` / `NotADirectoryError`), modelled as `none`.  As in
CPython, a failing call performs no mutation (the conflicting entry is
hit before anything is created). -/
def FNode.mkdirp : FNode → List String → Option FNode
  | nd, [] =>
    match nd with
    | .dir _ => some nd
    | .file _ => none
  | .file _, _ :: _ => none
  | .dir d, n :: rest =>
    match d.lookupName n with
    | some nd =>
      match nd.mkdirp rest with
      | some nd2 => some (.dir (d.setName n nd2))
      | none => none
    | none =>
      match (FNode.dir .nil).mkdirp rest with
      | some nd2 => some (.dir (d.setName n nd2))
      | none => none

/-- `mkdir -p` relative to the ambient root directory. -/
def FDir.mkdirp (d : FDir) (p : List String) : Option FDir :=
  match (FNode.dir d).mkdirp p with
  | some (.dir d2) => some d2
  | _ => none

/-- `Path.write_text(content)` on a node: create or truncate the file at
the path.  Writing to a directory (`IsADirectoryError`), through a file
(`NotADirectoryError`), into a missing parent (`FileNotFoundError`) or at
the root itself raises, modelled as `none`; a failing call performs no
mutation. -/
def FNode.writeText : FNode → List String → String → Option FNode
  | _, [], _ => none
  | .file _, _ :: _, _ => none
  | .dir d, n :: rest, c =>
    match rest with
    | [] =>
      match d.lookupName n with
      | some (.dir _) => none
      | _ => some (.dir (d.setName n (.file c)))
    | _ :: _ =>
      match d.lookupName n with
      | some nd =>
        match nd.writeText rest c with
        | some nd2 => some (.dir (d.setName n nd2))
        | none => none
      | none => none

/-- `write_text` relative to the ambient root directory. -/
def FDir.writeText (d : FDir) (p : List String) (c : String) : Option FDir :=
  match (FNode.dir d).writeText p c with
  | some (.dir d2) => some d2
  | _ => none

/-- `ensure_parent` (treefs.py:58-60): create the parent directories of
`path` when the parent does not exist. -/
def FDir.ensureParent (d : FDir) (p : List String) : Option FDir :=
  if d.pathExists p.dropLast then some d else d.mkdirp p.dropLast

/-- The state threaded through a build: the filesystem, the `created`
report list, and a sticky flag modelling an uncaught exception having
aborted the rest of the run. -/
structure St where
  fs : FDir
  rep : List String
  err : Bool
  deriving DecidableEq, Repr

mutual
/-- A value of the nested mapping a config file parses to: a string, a
`None`-like scalar, or a nested mapping (treefs.py builds from
YAML/JSON/TOML documents of this shape). -/
inductive SVal where
  | str (s : String)
  | noneV
  | map (m : SMap)
/-- A nested mapping in document order (Python dicts preserve insertion
order). -/
inductive SMap where
  | nil
  | cons (key : String) (val : SVal) (rest : SMap)
end

deriving instance DecidableEq for SVal, SMap
deriving instance Repr for SVal, SMap

/-- The file-target branch shared verbatim by `build_from_tree`
(treefs.py:84-92) and `build_from_dict` (treefs.py:152-161):
`ensure_parent(path)`, then keep an existing target unless `force`,
otherwise report a dry-run creation or write the content. -/
def fileTargetStep (force dry : Bool) (path : List String) (content : String)
    (st : St) : St :=
  match st.fs.ensureParent path with
  | none => { st with err := true }
  | some fs1 =>
    if (fs1.pathLookup path).isSome && !force then
      { st with fs := fs1, rep := st.rep ++ [pathStr path ++ " (exists, kept)"] }
    else if dry then
      { st with fs := fs1, rep := st.rep ++ [pathStr path ++ " (would create file)"] }
    else
      match fs1.writeText path content with
      | some fs2 => { st with fs := fs2, rep := st.rep ++ [pathStr path] }
      | none => { st with fs := fs1, err := true }

/-- One iteration of the line loop of `build_from_tree` (treefs.py:68-92). -/
def treeLineStep (root : List String) (force dry : Bool) (st : St)
    (raw : String) : St :=
  if st.err then st else
  let line := pyRstrip raw
  if line = "" || pyStartsWith (pyLower line) "project" then st
  else
    let clean := strip_tree_chars line
    if clean = "" then st
    else
      let fs_path := pyJoin root clean
      if pyEndsWith clean "/" then
        if dry then
          { st with rep := st.rep ++ [pathStr fs_path ++ "/ (would create)"] }
        else
          match st.fs.mkdirp fs_path with
          | some fs1 =>
            { st with fs := fs1, rep := st.rep ++ [pathStr fs_path ++ "/"] }
          | none => { st with err := true }
      else
        fileTargetStep force dry fs_path "" st

/-- `Path.rglob("*")` on a directory snapshot, with the fuel making the
recursion structural: all descendants as (relative path, node) pairs,
each directory's children listed before the recursive listings of its
subdirectories, ancestors always before descendants. -/
def rglobF : Nat → FDir → List (List String × FNode)
  | 0, _ => []
  | fuel + 1, d =>
    (d.childList.map (fun e => ([e.1], e.2))) ++
      d.childList.flatMap (fun e =>
        match e.2 with
        | .dir sub => (rglobF fuel sub).map (fun pr => (e.1 :: pr.1, pr.2))
        | .file _ => [])

/-- `Path.rglob("*")` with enough fuel for the whole subtree. -/
def FDir.rglob (d : FDir) : List (List String × FNode) :=
  rglobF d.sizeD d

/-- One iteration of the template copy loop of `build_from_tree`
(treefs.py:95-109): `dest = root / rel`; directories are `mkdir -p`ed,
files are kept when existing (unless `force`) and `shutil.copy2`ed
otherwise. -/
def tmplStepTree (root : List String) (force dry : Bool) (st : St)
    (item : List String × FNode) : St :=
  if st.err then st else
  let dest := root ++ item.1
  match item.2 with
  | .dir _ =>
    if dry then { st with rep := st.rep ++ [pathStr dest ++ "/"] }
    else
      match st.fs.mkdirp dest with
      | some fs1 => { st with fs := fs1, rep := st.rep ++ [pathStr dest ++ "/"] }
      | none => { st with err := true }
  | .file c =>
    match st.fs.ensureParent dest with
    | none => { st with err := true }
    | some fs1 =>
      if (fs1.pathLookup dest).isSome && !force then
        { st with fs := fs1
                , rep := st.rep ++ [pathStr dest ++ " (template exists, kept)"] }
      else
        if dry then { st with fs := fs1, rep := st.rep ++ [pathStr dest] }
        else
          match fs1.writeText dest c with
          | some fs2 => { st with fs := fs2, rep := st.rep ++ [pathStr dest] }
          | none => { st with fs := fs1, err := true }

/-- One iteration of the template copy loop of `build_from_dict`
(treefs.py:124-138); identical to the tree variant except that the
destination base is the current recursion base and the kept-file report
says `(exists, kept)`. -/
def tmplStepDict (base : List String) (force dry : Bool) (st : St)
    (item : List String × FNode) : St :=
  if st.err then st else
  let dest := base ++ item.1
  match item.2 with
  | .dir _ =>
    if dry then { st with rep := st.rep ++ [pathStr dest ++ "/"] }
    else
      match st.fs.mkdirp dest with
      | some fs1 => { st with fs := fs1, rep := st.rep ++ [pathStr dest ++ "/"] }
      | none => { st with err := true }
  | .file c =>
    match st.fs.ensureParent dest with
    | none => { st with err := true }
    | some fs1 =>
      if (fs1.pathLookup dest).isSome && !force then
        { st with fs := fs1
                , rep := st.rep ++ [pathStr dest ++ " (exists, kept)"] }
      else
        if dry then { st with fs := fs1, rep := st.rep ++ [pathStr dest] }
        else
          match fs1.writeText dest c with
          | some fs2 => { st with fs := fs2, rep := st.rep ++ [pathStr dest] }
          | none => { st with fs := fs1, err := true }

/-- The line-processing phase of `build_from_tree` (treefs.py:68-92). -/
def buildTreeLines (lines : List String) (root : List String)
    (force dry : Bool) (st : St) : St :=
  lines.foldl (treeLineStep root force dry) st

/-- `build_from_tree` (treefs.py:63-110): process the lines, then, when a
templates directory was supplied and exists, copy everything under it
into the root.  `rglob` on a non-directory yields nothing. -/
def build_from_tree (lines : List String) (root : List String)
    (force dry : Bool) (templates : Option (List String)) (st : St) : St :=
  let st1 := buildTreeLines lines root force dry st
  match templates with
  | none => st1
  | some tdir =>
    if st1.err then st1 else
    match st1.fs.pathLookup tdir with
    | some (.dir tsub) => tsub.rglob.foldl (tmplStepTree root force dry) st1
    | _ => st1

mutual
/-- One entry of the `recurse` loop of `build_from_dict`
(treefs.py:117-161): the `__template__` splice, the nested-dict
directory branch, or the shared file-target branch. -/
def dictStepVal (tdir : Option (List String)) (force dry : Bool)
    (base : List String) (name : String) (v : SVal) (st : St) : St :=
  if st.err then st else
  match v with
  | .str s =>
    if name = "__template__" then
      match tdir with
      | none => st
      | some t =>
        let src := pyJoin t s
        match st.fs.pathLookup src with
        | some (.dir tsub) => tsub.rglob.foldl (tmplStepDict base force dry) st
        | _ => st
    else
      fileTargetStep force dry (pyJoin base name) s st
  | .noneV => fileTargetStep force dry (pyJoin base name) "" st
  | .map mm =>
    let path := pyJoin base name
    if dry then
      dictRecurse tdir force dry path mm
        { st with rep := st.rep ++ [pathStr path ++ "/ (would create)"] }
    else
      match st.fs.mkdirp path with
      | some fs1 =>
        dictRecurse tdir force dry path mm
          { st with fs := fs1, rep := st.rep ++ [pathStr path ++ "/"] }
      | none => { st with err := true }
/-- The `recurse` loop of `build_from_dict` over the entries of a mapping
in document order (treefs.py:116-161). -/
def dictRecurse (tdir : Option (List String)) (force dry : Bool)
    (base : List String) (m : SMap) (st : St) : St :=
  match m with
  | .nil => st
  | .cons n v rest =>
    dictRecurse tdir force dry base rest (dictStepVal tdir force dry base n v st)
end

/-- `build_from_dict` (treefs.py:113-165); `struct` is the `structure`
argument of the source (a Lean keyword). -/
def build_from_dict (root : List String) (struct : SMap)
    (force dry : Bool) (templates : Option (List String)) (st : St) : St :=
  dictRecurse templates force dry root struct st


/-- `load_config` (treefs.py:258-274): format selection by lowercased
extension; the actual parse result is abstracted as `doc`, and the two
optional libraries as availability flags (`yaml is None` / `toml is
None`).  YAML/TOML without the library, or an unknown extension, raise
`RuntimeError`, modelled as `Except.error` with the source's message. -/
def load_config (suffix : String) (yamlAvail tomlAvail : Bool)
    (doc : SMap) : Except String SMap :=
  let ext := pyLower suffix
  if ext = ".yaml" || ext = ".yml" then
    if yamlAvail then .ok doc
    else .error "PyYAML required for YAML support. pip install pyyaml"
  else if ext = ".json" then .ok doc
  else if ext = ".toml" then
    if tomlAvail then .ok doc
    else .error "toml required for TOML support. pip install toml"
  else .error ("Unsupported config format: " ++ ext)

/-- The `build` subcommand of `main` (treefs.py:323-344): `root.mkdir`
runs first, then the extension decides between `load_config` +
`build_from_dict` and `build_from_tree`; an exception anywhere aborts
with the state reached so far (the git/bundle steps are out of scope).
`doc` abstracts what parsing the input file would yield and `treeLines`
its raw lines when read as tree text. -/
def mainBuild (suffix : String) (doc : SMap) (treeLines : List String)
    (rootArg : String) (templatesArg : Option String) (force dryRun : Bool)
    (yamlAvail tomlAvail : Bool) (fs0 : FDir) : St :=
  let root := toSegs rootArg
  match fs0.mkdirp root with
  | none => ⟨fs0, [], true⟩
  | some fs1 =>
    let templates_dir := templatesArg.map toSegs
    let ext := pyLower suffix
    if ext = ".yaml" || ext = ".yml" || ext = ".json" || ext = ".toml" then
      match load_config suffix yamlAvail tomlAvail doc with
      | .error _ => ⟨fs1, [], true⟩
      | .ok s => build_from_dict root s force dryRun templates_dir ⟨fs1, [], false⟩
    else
      build_from_tree treeLines root force dryRun templates_dir ⟨fs1, [], false⟩

/-- Code-point lexicographic comparison of character lists (how Python
compares strings). -/
def strLeB : List Char → List Char → Bool
  | [], _ => true
  | _ :: _, [] => false
  | a :: as, b :: bs =>
    if a.toNat < b.toNat then true
    else if b.toNat < a.toNat then false
    else strLeB as bs

/-- Python string comparison `a <= b` (code-point lexicographic). -/
def pyStrLe (a b : String) : Bool :=
  strLeB a.data b.data

/-- Python `sorted` on strings (code-point lexicographic order). -/
def pySorted (l : List String) : List String :=
  List.insertionSort (fun a b => pyStrLe a b = true) l

/-- Python `sorted(..., key=lambda x: x.name)` on directory entries (a
stable sort by name). -/
def pySortedByName (l : List (String × FNode)) : List (String × FNode) :=
  List.insertionSort (fun a b => pyStrLe a.1 b.1 = true) l

/-- Rebuild a directory listing from a list of (name, node) pairs. -/
def listToFDir : List (String × FNode) → FDir
  | [] => .nil
  | e :: rest => .cons e.1 e.2 (listToFDir rest)

/-- Rebuild a mapping from a list of (key, value) pairs in order. -/
def listToSMap : List (String × SVal) → SMap
  | [] => .nil
  | e :: rest => .cons e.1 e.2 (listToSMap rest)

/-- The recursive `tree` helper of `export_tree` (treefs.py:170-179),
with fuel making the recursion into subdirectories structural: list the
sorted child names, emit `prefix + connector + name` for each, and
recurse into directories with the extended prefix.  `export_tree` always
supplies enough fuel for the whole subtree. -/
def exportTreeF : Nat → FDir → String → List String
  | 0, _, _ => []
  | fuel + 1, d, pre =>
    let entries := pySorted d.namesOf
    let last_idx := entries.length - 1
    entries.enum.flatMap (fun e =>
      let connector := if e.1 = last_idx then "└── " else "├── "
      let sub :=
        match d.lookupName e.2 with
        | some (.dir s) =>
          exportTreeF fuel s (pre ++ (if e.1 = last_idx then "    " else "│   "))
        | _ => []
      (pre ++ connector ++ e.2) :: sub)

/-- `export_tree` (treefs.py:168-182): the produced lines (writing them
to the output file is abstracted away; the first line is the root name
with a trailing separator). -/
def export_tree (rootName : String) (d : FDir) : List String :=
  (rootName ++ "/") :: exportTreeF d.sizeD d ""

/-- The recursive helper of `export_dict` (treefs.py:185-195), with fuel
making the recursion structural: children sorted by name; directories
recurse, files contribute their text content (reading is infallible in
the model, matching the source's fallback to a string).  `export_dict`
always supplies enough fuel for the whole subtree. -/
def exportDictF : Nat → FDir → SMap
  | 0, _ => .nil
  | fuel + 1, d =>
    listToSMap ((pySortedByName d.childList).map (fun e =>
      (e.1,
        match e.2 with
        | .dir sub => SVal.map (exportDictF fuel sub)
        | .file c => SVal.str c)))

/-- `export_dict` (treefs.py:184-196): `{root.name: recurse(root)}`. -/
def export_dict (rootName : String) (d : FDir) : SMap :=
  .cons rootName (.map (exportDictF d.sizeD d)) .nil

/-- A plain filesystem entry name: nonempty, not a dot entry, and free of
the path separator. -/
def validNameB (n : String) : Bool :=
  n ≠ "" && n ≠ "." && n ≠ ".." && !(n.data.contains '/')

mutual
/-- All names in the subtree of a node are plain entry names. -/
def FNode.validN : FNode → Bool
  | .file _ => true
  | .dir d => d.validD
/-- All names in a directory listing and its subtrees are plain names. -/
def FDir.validD : FDir → Bool
  | .nil => true
  | .cons n nd rest => validNameB n && nd.validN && rest.validD
end

mutual
/-- Sibling names are pairwise distinct throughout the subtree of a node. -/
def FNode.nodupN : FNode → Bool
  | .file _ => true
  | .dir d => d.nodupD
/-- Sibling names are pairwise distinct throughout a directory listing. -/
def FDir.nodupD : FDir → Bool
  | .nil => true
  | .cons n nd rest => !(rest.namesOf.contains n) && nd.nodupN && rest.nodupD
end

mutual
/-- No file in the subtree of a node is named `__template__` (a directory
of that name is fine — only a string-valued `__template__` key is special
to `build_from_dict`). -/
def FNode.noTmplN : FNode → Bool
  | .file _ => true
  | .dir d => d.noTmplD
/-- No file in a directory listing or its subtrees is named
`__template__`. -/
def FDir.noTmplD : FDir → Bool
  | .nil => true
  | .cons n nd rest =>
    (match nd with
     | .file _ => decide (n ≠ "__template__")
     | .dir _ => true) && nd.noTmplN && rest.noTmplD
end

/-- The observable shape of a resolved path: absent, a file with its
content, or a directory (ignoring child order). -/
def nodeShape : Option FNode → Option (Option String)
  | none => none
  | some (.file c) => some (some c)
  | some (.dir _) => some none

/-- The canonical (recursively name-sorted) copy of a directory listing,
with fuel making the recursion structural. -/
def canonF : Nat → FDir → FDir
  | 0, d => d
  | fuel + 1, d =>
    listToFDir ((pySorted d.namesOf).map (fun n =>
      (n,
        match d.lookupName n with
        | some (.dir s) => FNode.dir (canonF fuel s)
        | some x => x
        | none => .file "")))

/-- The canonical copy of a directory listing (enough fuel for the whole
subtree). -/
def canonFs (d : FDir) : FDir :=
  canonF d.sizeD d

mutual
/-- Keys of every mapping reachable from a value are in ascending
lexicographic order. -/
def SVal.keysSorted : SVal → Bool
  | .map m => m.keysSorted
  | _ => true
/-- Keys of a mapping (and of all nested mappings) are in ascending
lexicographic order. -/
def SMap.keysSorted : SMap → Bool
  | .nil => true
  | .cons k v rest =>
    (match rest with
     | .nil => true
     | .cons k2 _ _ => pyStrLe k k2) && v.keysSorted && rest.keysSorted
end

/-- Classify a report line of the builders: directory reports end with a
separator, kept-file reports with one of the two `kept` suffixes. -/
def repIsDirOrKept (s : String) : Bool :=
  pyEndsWith s "/" || pyEndsWith s " (exists, kept)" ||
    pyEndsWith s " (template exists, kept)"

/-- Two paths are disjoint when neither is a prefix of the other (used
for the separation between the target root and the template source). -/
def pathsDisjoint (a b : List String) : Bool :=
  !(List.isPrefixOf a b) && !(List.isPrefixOf b a)

/-- Separation of two `rglob` items: the later item's path is never a
prefix of the earlier one's (ancestors are listed first and paths are
distinct), and a file's path is never a prefix of any other item's path
(files have no descendants). -/
def rglobSep (a b : (List String × FNode)) : Prop :=
  ¬ (b.1 <+: a.1) ∧ ∀ c, a.2 = FNode.file c → ¬ (a.1 <+: b.1)

mutual
/-- A mapping value has been materialized under `base` in `fs`: a
string/None value's file target exists (unless it is a `__template__`
directive), a nested mapping's directory exists and its entries are
materialized in turn. -/
def SVal.establishedAt : SVal → String → List String → FDir → Prop
  | .str _, n, base, fs =>
    n = "__template__" ∨ (fs.pathLookup (pyJoin base n)).isSome = true
  | .noneV, n, base, fs => (fs.pathLookup (pyJoin base n)).isSome = true
  | .map mm, n, base, fs =>
    (∃ y, fs.pathLookup (pyJoin base n) = some (.dir y)) ∧
      SMap.establishedAt mm (pyJoin base n) fs
/-- Every entry of a mapping has been materialized under `base` in `fs`. -/
def SMap.establishedAt : SMap → List String → FDir → Prop
  | .nil, _, _ => True
  | .cons n v rest, base, fs =>
    SVal.establishedAt v n base fs ∧ SMap.establishedAt rest base fs
end

/-- A tree-text line has been materialized under `root` in `fs`: skipped
lines demand nothing, a directory line's target is a directory, a file
line's target exists. -/
def lineEstablished (root : List String) (raw : String) (fs : FDir) : Prop :=
  let line := pyRstrip raw
  if line = "" ∨ pyStartsWith (pyLower line) "project" = true then True
  else
    let clean := strip_tree_chars line
    if clean = "" then True
    else if pyEndsWith clean "/" = true then
      ∃ y, fs.pathLookup (pyJoin root clean) = some (.dir y)
    else (fs.pathLookup (pyJoin root clean)).isSome = true

theorem lookupName_setName_self (d : FDir) (n : String) (x : FNode) :
    (d.setName n x).lookupName n = some x := by
  match d with
  | .nil => simp [FDir.setName, FDir.lookupName]
  | .cons m nd rest =>
    by_cases h : m = n <;>
      simp [FDir.setName, FDir.lookupName, h, lookupName_setName_self rest n x]

theorem lookupName_setName_ne (d : FDir) {m n : String} (x : FNode)
    (h : m ≠ n) : (d.setName n x).lookupName m = d.lookupName m := by
  match d with
  | .nil => simp [FDir.setName, FDir.lookupName, Ne.symm h]
  | .cons k nd rest =>
    by_cases hk : k = n
    · subst hk
      simp [FDir.setName, FDir.lookupName, Ne.symm h]
    · simp [FDir.setName, FDir.lookupName, hk, lookupName_setName_ne rest x h]

theorem setName_self {d : FDir} {n : String} {x : FNode}
    (h : d.lookupName n = some x) : d.setName n x = d := by
  match d with
  | .nil => simp [FDir.lookupName] at h
  | .cons m nd rest =>
    by_cases hm : m = n
    · subst hm
      simp [FDir.lookupName] at h
      simp [FDir.setName, h]
    · simp [FDir.lookupName, hm] at h
      simp [FDir.setName, hm, setName_self h]

theorem lookupPath_dropLast {p : List String} {nd : FNode}
    (h : (nd.lookupPath p).isSome) : (nd.lookupPath p.dropLast).isSome := by
  induction p generalizing nd with
  | nil => simp [FNode.lookupPath]
  | cons n rest ih =>
    cases nd with
    | file c => simp [FNode.lookupPath] at h
    | dir d =>
      rw [FNode.lookupPath] at h
      cases hl : d.lookupName n with
      | none => rw [hl] at h; simp at h
      | some sub =>
        rw [hl] at h
        cases rest with
        | nil => simp [FNode.lookupPath]
        | cons r rs =>
          have := ih h
          simp only [List.dropLast_cons₂]
          simpa [FNode.lookupPath, hl] using this

theorem writeText_lookupPath_self {p : List String} {c : String}
    {nd nd2 : FNode} (h : nd.writeText p c = some nd2) :
    nd2.lookupPath p = some (.file c) := by
  match p, nd with
  | [], _ => simp [FNode.writeText] at h
  | n :: rest, .file c0 => simp [FNode.writeText] at h
  | n :: [], .dir d =>
    cases hl : d.lookupName n with
    | none =>
      simp [FNode.writeText, hl] at h
      subst h
      simp [FNode.lookupPath, lookupName_setName_self]
    | some sub =>
      cases sub with
      | file c1 =>
        simp [FNode.writeText, hl] at h
        subst h
        simp [FNode.lookupPath, lookupName_setName_self]
      | dir sd => simp [FNode.writeText, hl] at h
  | n :: r :: rs, .dir d =>
    cases hl : d.lookupName n with
    | none => simp [FNode.writeText, hl] at h
    | some sub =>
      cases hw : sub.writeText (r :: rs) c with
      | none => simp [FNode.writeText, hl, hw] at h
      | some w =>
        simp [FNode.writeText, hl, hw] at h
        subst h
        simp [FNode.lookupPath, lookupName_setName_self]
        exact writeText_lookupPath_self hw

theorem writeText_lookupPath_other {p q : List String} {c : String}
    {nd nd2 : FNode} (h : nd.writeText p c = some nd2) (hq : ¬ q <+: p) :
    nd2.lookupPath q = nd.lookupPath q := by
  match p, nd with
  | [], _ => simp [FNode.writeText] at h
  | n :: rest, .file c0 => simp [FNode.writeText] at h
  | n :: rest, .dir d =>
    match q with
    | [] => exact absurd List.nil_prefix hq
    | m :: qrest =>
      by_cases hmn : m = n
      · subst hmn
        have hqr : ¬ qrest <+: rest := by
          intro hh
          exact hq (List.cons_prefix_cons.mpr ⟨rfl, hh⟩)
        match rest with
        | [] =>
          have hqr0 : qrest ≠ [] := by
            intro hh; subst hh; exact hqr List.nil_prefix
          match qrest with
          | [] => exact absurd rfl hqr0
          | a :: b =>
            cases hl : d.lookupName m with
            | none =>
              simp [FNode.writeText, hl] at h
              subst h
              simp [FNode.lookupPath, lookupName_setName_self, hl]
            | some sub =>
              cases sub with
              | file c1 =>
                simp [FNode.writeText, hl] at h
                subst h
                simp [FNode.lookupPath, lookupName_setName_self, hl]
              | dir sd => simp [FNode.writeText, hl] at h
        | r :: rs =>
          cases hl : d.lookupName m with
          | none => simp [FNode.writeText, hl] at h
          | some sub =>
            cases hw : sub.writeText (r :: rs) c with
            | none => simp [FNode.writeText, hl, hw] at h
            | some w =>
              simp [FNode.writeText, hl, hw] at h
              subst h
              simp [FNode.lookupPath, lookupName_setName_self, hl]
              exact writeText_lookupPath_other hw hqr
      · match rest with
        | [] =>
          cases hl : d.lookupName n with
          | none =>
            simp [FNode.writeText, hl] at h
            subst h
            simp [FNode.lookupPath, lookupName_setName_ne _ _ hmn]
          | some sub =>
            cases sub with
            | file c1 =>
              simp [FNode.writeText, hl] at h
              subst h
              simp [FNode.lookupPath, lookupName_setName_ne _ _ hmn]
            | dir sd => simp [FNode.writeText, hl] at h
        | r :: rs =>
          cases hl : d.lookupName n with
          | none => simp [FNode.writeText, hl] at h
          | some sub =>
            cases hw : sub.writeText (r :: rs) c with
            | none => simp [FNode.writeText, hl, hw] at h
            | some w =>
              simp [FNode.writeText, hl, hw] at h
              subst h
              simp [FNode.lookupPath, lookupName_setName_ne _ _ hmn]


theorem mkdirp_noop {p : List String} {nd : FNode} {x : FDir}
    (h : nd.lookupPath p = some (.dir x)) : nd.mkdirp p = some nd := by
  match p, nd with
  | [], _ =>
    simp [FNode.lookupPath] at h
    subst h
    simp [FNode.mkdirp]
  | n :: rest, .file c => simp [FNode.lookupPath] at h
  | n :: rest, .dir d =>
    rw [FNode.lookupPath] at h
    cases hl : d.lookupName n with
    | none => rw [hl] at h; simp at h
    | some sub =>
      rw [hl] at h
      simp only [] at h
      simp [FNode.mkdirp, hl, mkdirp_noop h, setName_self hl]

theorem mkdirp_prefix_dir {p q : List String} {nd nd2 : FNode}
    (h : nd.mkdirp p = some nd2) (hq : q <+: p) :
    ∃ d2, nd2.lookupPath q = some (.dir d2) := by
  match p, nd with
  | [], nd =>
    match nd with
    | .file c => simp [FNode.mkdirp] at h
    | .dir d =>
      simp [FNode.mkdirp] at h
      subst h
      rw [List.prefix_nil.mp hq]
      exact ⟨d, rfl⟩
  | n :: rest, .file c => simp [FNode.mkdirp] at h
  | n :: rest, .dir d =>
    match q with
    | [] =>
      cases hl : d.lookupName n with
      | some sub =>
        cases hm : sub.mkdirp rest with
        | none => simp [FNode.mkdirp, hl, hm] at h
        | some w =>
          simp [FNode.mkdirp, hl, hm] at h
          subst h
          exact ⟨_, rfl⟩
      | none =>
        cases hm : (FNode.dir .nil).mkdirp rest with
        | none => simp [FNode.mkdirp, hl, hm] at h
        | some w =>
          simp [FNode.mkdirp, hl, hm] at h
          subst h
          exact ⟨_, rfl⟩
    | m :: qrest =>
      obtain ⟨hmn, hqr⟩ := List.cons_prefix_cons.mp hq
      subst hmn
      cases hl : d.lookupName m with
      | some sub =>
        cases hm : sub.mkdirp rest with
        | none => simp [FNode.mkdirp, hl, hm] at h
        | some w =>
          simp [FNode.mkdirp, hl, hm] at h
          subst h
          obtain ⟨d2, hd2⟩ := mkdirp_prefix_dir hm hqr
          exact ⟨d2, by simp [FNode.lookupPath, lookupName_setName_self, hd2]⟩
      | none =>
        cases hm : (FNode.dir .nil).mkdirp rest with
        | none => simp [FNode.mkdirp, hl, hm] at h
        | some w =>
          simp [FNode.mkdirp, hl, hm] at h
          subst h
          obtain ⟨d2, hd2⟩ := mkdirp_prefix_dir hm hqr
          exact ⟨d2, by simp [FNode.lookupPath, lookupName_setName_self, hd2]⟩

theorem mkdirp_lookupPath_other {p q : List String} {nd nd2 : FNode}
    (h : nd.mkdirp p = some nd2) (hq : ¬ q <+: p) :
    nd2.lookupPath q = nd.lookupPath q := by
  match p, nd with
  | [], nd =>
    match nd with
    | .file c => simp [FNode.mkdirp] at h
    | .dir d =>
      simp [FNode.mkdirp] at h
      subst h
      rfl
  | n :: rest, .file c => simp [FNode.mkdirp] at h
  | n :: rest, .dir d =>
    match q with
    | [] => exact absurd List.nil_prefix hq
    | m :: qrest =>
      by_cases hmn : m = n
      · subst hmn
        have hqr : ¬ qrest <+: rest := by
          intro hh
          exact hq (List.cons_prefix_cons.mpr ⟨rfl, hh⟩)
        cases hl : d.lookupName m with
        | some sub =>
          cases hm : sub.mkdirp rest with
          | none => simp [FNode.mkdirp, hl, hm] at h
          | some w =>
            simp [FNode.mkdirp, hl, hm] at h
            subst h
            simp [FNode.lookupPath, lookupName_setName_self, hl]
            exact mkdirp_lookupPath_other hm hqr
        | none =>
          cases hm : (FNode.dir .nil).mkdirp rest with
          | none => simp [FNode.mkdirp, hl, hm] at h
          | some w =>
            simp [FNode.mkdirp, hl, hm] at h
            subst h
            have hqr0 : qrest ≠ [] := by
              intro hh; subst hh; exact hqr List.nil_prefix
            have hw := mkdirp_lookupPath_other hm hqr
            simp [FNode.lookupPath, lookupName_setName_self, hl, hw]
            match qrest, hqr0 with
            | a :: b, _ => simp [FNode.lookupPath, FDir.lookupName]
      · cases hl : d.lookupName n with
        | some sub =>
          cases hm : sub.mkdirp rest with
          | none => simp [FNode.mkdirp, hl, hm] at h
          | some w =>
            simp [FNode.mkdirp, hl, hm] at h
            subst h
            simp [FNode.lookupPath, lookupName_setName_ne _ _ hmn]
        | none =>
          cases hm : (FNode.dir .nil).mkdirp rest with
          | none => simp [FNode.mkdirp, hl, hm] at h
          | some w =>
            simp [FNode.mkdirp, hl, hm] at h
            subst h
            simp [FNode.lookupPath, lookupName_setName_ne _ _ hmn]

theorem mkdirp_mono_exists {p q : List String} {nd nd2 : FNode}
    (h : nd.mkdirp p = some nd2) (hq : (nd.lookupPath q).isSome) :
    (nd2.lookupPath q).isSome := by
  by_cases hpre : q <+: p
  · obtain ⟨d2, hd2⟩ := mkdirp_prefix_dir h hpre
    simp [hd2]
  · rw [mkdirp_lookupPath_other h hpre]
    exact hq

theorem mkdirp_mono_dir {p q : List String} {nd nd2 : FNode} {x : FDir}
    (h : nd.mkdirp p = some nd2) (hq : nd.lookupPath q = some (.dir x)) :
    ∃ y, nd2.lookupPath q = some (.dir y) := by
  by_cases hpre : q <+: p
  · exact mkdirp_prefix_dir h hpre
  · rw [mkdirp_lookupPath_other h hpre]
    exact ⟨x, hq⟩

theorem mkdirp_dir_shape {p : List String} {d : FDir} {nd2 : FNode}
    (h : (FNode.dir d).mkdirp p = some nd2) : ∃ d2, nd2 = .dir d2 := by
  match p with
  | [] =>
    simp [FNode.mkdirp] at h
    exact ⟨d, h.symm⟩
  | n :: rest =>
    cases hl : d.lookupName n with
    | some sub =>
      cases hm : sub.mkdirp rest with
      | none => simp [FNode.mkdirp, hl, hm] at h
      | some w =>
        simp [FNode.mkdirp, hl, hm] at h
        exact ⟨_, h.symm⟩
    | none =>
      cases hm : (FNode.dir .nil).mkdirp rest with
      | none => simp [FNode.mkdirp, hl, hm] at h
      | some w =>
        simp [FNode.mkdirp, hl, hm] at h
        exact ⟨_, h.symm⟩

theorem writeText_dir_shape {p : List String} {c : String} {d : FDir}
    {nd2 : FNode} (h : (FNode.dir d).writeText p c = some nd2) :
    ∃ d2, nd2 = .dir d2 := by
  match p with
  | [] => simp [FNode.writeText] at h
  | n :: [] =>
    cases hl : d.lookupName n with
    | none =>
      simp [FNode.writeText, hl] at h
      exact ⟨_, h.symm⟩
    | some sub =>
      cases sub with
      | file c1 =>
        simp [FNode.writeText, hl] at h
        exact ⟨_, h.symm⟩
      | dir sd => simp [FNode.writeText, hl] at h
  | n :: r :: rs =>
    cases hl : d.lookupName n with
    | none => simp [FNode.writeText, hl] at h
    | some sub =>
      cases hw : sub.writeText (r :: rs) c with
      | none => simp [FNode.writeText, hl, hw] at h
      | some w =>
        simp [FNode.writeText, hl, hw] at h
        exact ⟨_, h.symm⟩

theorem writeText_target_not_dir {p : List String} {c : String}
    {nd nd2 : FNode} {x : FDir} (h : nd.writeText p c = some nd2) :
    nd.lookupPath p ≠ some (.dir x) := by
  match p, nd with
  | [], _ => simp [FNode.writeText] at h
  | n :: rest, .file c0 => simp [FNode.writeText] at h
  | n :: [], .dir d =>
    cases hl : d.lookupName n with
    | none => simp [FNode.lookupPath, hl]
    | some sub =>
      cases sub with
      | file c1 => simp [FNode.lookupPath, hl]
      | dir sd => simp [FNode.writeText, hl] at h
  | n :: r :: rs, .dir d =>
    cases hl : d.lookupName n with
    | none => simp [FNode.writeText, hl] at h
    | some sub =>
      cases hw : sub.writeText (r :: rs) c with
      | none => simp [FNode.writeText, hl, hw] at h
      | some w =>
        simp [FNode.lookupPath, hl]
        exact writeText_target_not_dir hw

theorem writeText_prefix_dir {p q : List String} {c : String}
    {nd nd2 : FNode} (h : nd.writeText p c = some nd2) (hq : q <+: p)
    (hne : q ≠ p) : ∃ d2, nd2.lookupPath q = some (.dir d2) := by
  match p, nd with
  | [], _ => simp [FNode.writeText] at h
  | n :: rest, .file c0 => simp [FNode.writeText] at h
  | n :: rest, .dir d =>
    match q with
    | [] =>
      obtain ⟨d2, hd2⟩ := writeText_dir_shape h
      subst hd2
      exact ⟨d2, rfl⟩
    | m :: qrest =>
      obtain ⟨hmn, hqr⟩ := List.cons_prefix_cons.mp hq
      subst hmn
      have hner : qrest ≠ rest := by
        intro hh; exact hne (by rw [hh])
      match rest with
      | [] => rw [List.prefix_nil.mp hqr] at hner; exact absurd rfl hner
      | r :: rs =>
        cases hl : d.lookupName m with
        | none => simp [FNode.writeText, hl] at h
        | some sub =>
          cases hw : sub.writeText (r :: rs) c with
          | none => simp [FNode.writeText, hl, hw] at h
          | some w =>
            simp [FNode.writeText, hl, hw] at h
            subst h
            obtain ⟨d2, hd2⟩ := writeText_prefix_dir hw hqr hner
            exact ⟨d2, by simp [FNode.lookupPath, lookupName_setName_self, hd2]⟩

theorem writeText_mono_exists {p q : List String} {c : String}
    {nd nd2 : FNode} (h : nd.writeText p c = some nd2)
    (hq : (nd.lookupPath q).isSome) : (nd2.lookupPath q).isSome := by
  by_cases hpre : q <+: p
  · by_cases hqp : q = p
    · subst hqp
      simp [writeText_lookupPath_self h]
    · obtain ⟨d2, hd2⟩ := writeText_prefix_dir h hpre hqp
      simp [hd2]
  · rw [writeText_lookupPath_other h hpre]
    exact hq

theorem writeText_mono_dir {p q : List String} {c : String}
    {nd nd2 : FNode} {x : FDir} (h : nd.writeText p c = some nd2)
    (hq : nd.lookupPath q = some (.dir x)) :
    ∃ y, nd2.lookupPath q = some (.dir y) := by
  by_cases hpre : q <+: p
  · by_cases hqp : q = p
    · subst hqp
      exact absurd hq (writeText_target_not_dir h)
    · exact writeText_prefix_dir h hpre hqp
  · rw [writeText_lookupPath_other h hpre]
    exact ⟨x, hq⟩

theorem mkdirp_fresh {q : List String} {nd nd2 : FNode} {n : String}
    (hne : nd.lookupPath q = none) (h : nd.mkdirp q = some nd2) :
    nd2.lookupPath (q ++ [n]) = none := by
  match q, nd with
  | [], _ => simp [FNode.lookupPath] at hne
  | m :: qrest, .file c => simp [FNode.mkdirp] at h
  | m :: qrest, .dir d =>
    cases hl : d.lookupName m with
    | some sub =>
      rw [FNode.lookupPath, hl] at hne
      simp only [] at hne
      cases hm : sub.mkdirp qrest with
      | none => simp [FNode.mkdirp, hl, hm] at h
      | some w =>
        simp [FNode.mkdirp, hl, hm] at h
        subst h
        simp [FNode.lookupPath, lookupName_setName_self]
        exact mkdirp_fresh hne hm
    | none =>
      cases hm : (FNode.dir .nil).mkdirp qrest with
      | none => simp [FNode.mkdirp, hl, hm] at h
      | some w =>
        simp [FNode.mkdirp, hl, hm] at h
        subst h
        simp [FNode.lookupPath, lookupName_setName_self]
        match qrest with
        | [] =>
          simp [FNode.mkdirp] at hm
          subst hm
          simp [FNode.lookupPath, FDir.lookupName]
        | a :: b =>
          have hnil : (FNode.dir FDir.nil).lookupPath (a :: b) = none := by
            simp [FNode.lookupPath, FDir.lookupName]
          exact mkdirp_fresh hnil hm

theorem writeText_total {p : List String} {nd : FNode} {pd : FDir}
    (hpar : nd.lookupPath p.dropLast = some (.dir pd))
    (htgt : ∀ x : FDir, nd.lookupPath p ≠ some (.dir x)) (c : String)
    (hp : p ≠ []) : ∃ nd2, nd.writeText p c = some nd2 := by
  match p, nd with
  | [], _ => exact absurd rfl hp
  | n :: [], nd =>
    simp [FNode.lookupPath] at hpar
    subst hpar
    cases hl : pd.lookupName n with
    | none =>
      refine ⟨FNode.dir (pd.setName n (FNode.file c)), ?_⟩
      simp [FNode.writeText, hl]
    | some sub =>
      cases sub with
      | file c1 =>
        refine ⟨FNode.dir (pd.setName n (FNode.file c)), ?_⟩
        simp [FNode.writeText, hl]
      | dir sd =>
        have := htgt sd
        rw [FNode.lookupPath, hl] at this
        simp [FNode.lookupPath] at this
  | n :: r :: rs, nd =>
    rw [show (n :: r :: rs).dropLast = n :: (r :: rs).dropLast from rfl] at hpar
    cases nd with
    | file c0 => simp [FNode.lookupPath] at hpar
    | dir d =>
      rw [FNode.lookupPath] at hpar
      cases hl : d.lookupName n with
      | none => rw [hl] at hpar; simp at hpar
      | some sub =>
        rw [hl] at hpar
        simp only [] at hpar
        have htgt2 : ∀ x : FDir, sub.lookupPath (r :: rs) ≠ some (.dir x) := by
          intro x hx
          have := htgt x
          rw [FNode.lookupPath, hl] at this
          exact this hx
        obtain ⟨w, hw⟩ := writeText_total hpar htgt2 c (by simp)
        refine ⟨FNode.dir (d.setName n w), ?_⟩
        simp [FNode.writeText, hl, hw]

theorem FDir.mkdirp_some_iff {d d2 : FDir} {p : List String} :
    d.mkdirp p = some d2 ↔ (FNode.dir d).mkdirp p = some (.dir d2) := by
  constructor
  · intro h
    rw [FDir.mkdirp] at h
    cases hn : (FNode.dir d).mkdirp p with
    | none => rw [hn] at h; simp at h
    | some w =>
      obtain ⟨w2, hw2⟩ := mkdirp_dir_shape hn
      subst hw2
      rw [hn] at h
      simp at h
      rw [h]
  · intro h
    rw [FDir.mkdirp, h]

theorem FDir.mkdirp_none_iff {d : FDir} {p : List String} :
    d.mkdirp p = none ↔ (FNode.dir d).mkdirp p = none := by
  constructor
  · intro h
    cases hn : (FNode.dir d).mkdirp p with
    | none => rfl
    | some w =>
      obtain ⟨w2, hw2⟩ := mkdirp_dir_shape hn
      subst hw2
      rw [FDir.mkdirp, hn] at h
      simp at h
  · intro h
    rw [FDir.mkdirp, h]

theorem FDir.writeText_some_iff {d d2 : FDir} {p : List String} {c : String} :
    d.writeText p c = some d2 ↔ (FNode.dir d).writeText p c = some (.dir d2) := by
  constructor
  · intro h
    rw [FDir.writeText] at h
    cases hn : (FNode.dir d).writeText p c with
    | none => rw [hn] at h; simp at h
    | some w =>
      obtain ⟨w2, hw2⟩ := writeText_dir_shape hn
      subst hw2
      rw [hn] at h
      simp at h
      rw [h]
  · intro h
    rw [FDir.writeText, h]

theorem FDir.writeText_none_iff {d : FDir} {p : List String} {c : String} :
    d.writeText p c = none ↔ (FNode.dir d).writeText p c = none := by
  constructor
  · intro h
    cases hn : (FNode.dir d).writeText p c with
    | none => rfl
    | some w =>
      obtain ⟨w2, hw2⟩ := writeText_dir_shape hn
      subst hw2
      rw [FDir.writeText, hn] at h
      simp at h
  · intro h
    rw [FDir.writeText, h]

theorem pathExists_nil (d : FDir) : d.pathExists [] = true := by
  simp [FDir.pathExists, FDir.pathLookup, FNode.lookupPath]

theorem ensureParent_of_target_exists {d : FDir} {p : List String}
    (h : (d.pathLookup p).isSome) : d.ensureParent p = some d := by
  have hpar : (d.pathLookup p.dropLast).isSome := lookupPath_dropLast h
  rw [FDir.ensureParent, if_pos (by simpa [FDir.pathExists] using hpar)]

theorem ensureParent_cases {d d2 : FDir} {p : List String}
    (h : d.ensureParent p = some d2) :
    d2 = d ∨ (p ≠ [] ∧ d.pathLookup p.dropLast = none ∧
      d.mkdirp p.dropLast = some d2) := by
  rw [FDir.ensureParent] at h
  by_cases hex : d.pathExists p.dropLast
  · rw [if_pos hex] at h
    simp at h
    exact Or.inl h.symm
  · rw [if_neg hex] at h
    right
    have hnil : p ≠ [] := by
      intro hh
      subst hh
      exact hex (pathExists_nil d)
    refine ⟨hnil, ?_, h⟩
    rw [FDir.pathExists] at hex
    cases hlk : d.pathLookup p.dropLast with
    | none => rfl
    | some w => rw [hlk] at hex; simp at hex

theorem fileTargetStep_kept {force dry : Bool} {path : List String}
    {content : String} {st : St} (h : (st.fs.pathLookup path).isSome)
    (hf : force = false) :
    fileTargetStep force dry path content st =
      { st with rep := st.rep ++ [pathStr path ++ " (exists, kept)"] } := by
  rw [fileTargetStep, ensureParent_of_target_exists h]
  simp [h, hf]

theorem fileTargetStep_err_frozen {force dry : Bool} {path : List String}
    {content : String} {st : St}
    (h : (fileTargetStep force dry path content st).err = true)
    (h0 : st.err = false) :
    (fileTargetStep force dry path content st).fs = st.fs ∧
      (fileTargetStep force dry path content st).rep = st.rep := by
  cases hep : st.fs.ensureParent path with
  | none => simp [fileTargetStep, hep]
  | some fs1 =>
    by_cases hkept : ((fs1.pathLookup path).isSome && !force) = true
    · simp [fileTargetStep, hep, hkept, h0] at h
    · by_cases hdry : dry = true
      · simp [fileTargetStep, hep, hkept, hdry, h0] at h
      · cases hw : fs1.writeText path content with
        | some fs2 => simp [fileTargetStep, hep, hkept, hdry, hw, h0] at h
        | none =>
          rcases ensureParent_cases hep with he | ⟨hnil, hmiss, hmk⟩
          · subst he
            simp [fileTargetStep, hep, hkept, hdry, hw]
          · exfalso
            have hfs1 : (FNode.dir st.fs).mkdirp path.dropLast
                = some (.dir fs1) := FDir.mkdirp_some_iff.mp hmk
            obtain ⟨pd, hpd⟩ :=
              mkdirp_prefix_dir hfs1 (List.prefix_refl _)
            have hfresh : (FNode.dir fs1).lookupPath
                (path.dropLast ++ [path.getLast hnil]) = none :=
              mkdirp_fresh hmiss hfs1
            rw [List.dropLast_append_getLast hnil] at hfresh
            have htgt : ∀ x : FDir,
                (FNode.dir fs1).lookupPath path ≠ some (.dir x) := by
              intro x hx
              rw [hfresh] at hx
              simp at hx
            obtain ⟨nd2, hnd2⟩ := writeText_total hpd htgt content hnil
            obtain ⟨d2, hd2⟩ := writeText_dir_shape hnd2
            subst hd2
            rw [FDir.writeText_none_iff] at hw
            rw [hw] at hnd2
            simp at hnd2

theorem ensureParent_target_still_absent {st : FDir} {path : List String}
    {fs1 : FDir} (habs : st.pathLookup path = none)
    (hep : st.ensureParent path = some fs1) :
    fs1.pathLookup path = none := by
  rcases ensureParent_cases hep with he | ⟨hnil, hmiss, hmk⟩
  · subst he
    exact habs
  · have hfs1 : (FNode.dir st).mkdirp path.dropLast = some (.dir fs1) :=
      FDir.mkdirp_some_iff.mp hmk
    have hfresh := @mkdirp_fresh path.dropLast (FNode.dir st)
      (FNode.dir fs1) (path.getLast hnil) hmiss hfs1
    rw [List.dropLast_append_getLast hnil] at hfresh
    exact hfresh

theorem fileTargetStep_write_spec {force dry : Bool} {path : List String}
    {content : String} {st : St} {fs1 : FDir}
    (hep : st.fs.ensureParent path = some fs1)
    (hcond : ((fs1.pathLookup path).isSome && !force) = false)
    (hdry : dry = false)
    (herr : (fileTargetStep force dry path content st).err = false) :
    (fileTargetStep force dry path content st).fs.pathLookup path
        = some (.file content) ∧
      (fileTargetStep force dry path content st).rep
        = st.rep ++ [pathStr path] := by
  cases hw : fs1.writeText path content with
  | none => simp [fileTargetStep, hep, hcond, hdry, hw] at herr
  | some fs2 =>
    have hn : (FNode.dir fs1).writeText path content = some (.dir fs2) :=
      FDir.writeText_some_iff.mp hw
    have := writeText_lookupPath_self hn
    simp [fileTargetStep, hep, hcond, hdry, hw]
    exact this

theorem fileTargetStep_dry_spec {force : Bool} {path : List String}
    {content : String} {st : St} {fs1 : FDir}
    (hep : st.fs.ensureParent path = some fs1)
    (hcond : ((fs1.pathLookup path).isSome && !force) = false) :
    fileTargetStep force true path content st =
      { st with fs := fs1
              , rep := st.rep ++ [pathStr path ++ " (would create file)"] } := by
  simp [fileTargetStep, hep, hcond]

/-- C1: the claim says a DryRun build leaves the filesystem unchanged.
The code violates this: `build_from_dict` calls `ensure_parent` before the
`dry_run` test, so building the mapping `{"d": {"f": "x"}}` into the empty
root `R` with `dry_run=True` creates the directory `R/d` on disk.  This
theorem evaluates the embedded code at that failing input. -/
theorem claim_C1_dry_run_mutates :
    (build_from_dict ["R"] (.cons "d" (.map (.cons "f" (.str "x") .nil)) .nil)
        false true none ⟨.cons "R" (.dir .nil) .nil, [], false⟩).fs ≠
        (FDir.cons "R" (.dir .nil) .nil) ∧
      (build_from_dict ["R"] (.cons "d" (.map (.cons "f" (.str "x") .nil)) .nil)
        false true none ⟨.cons "R" (.dir .nil) .nil, [], false⟩).fs.pathLookup
        ["R", "d"] = some (.dir .nil) ∧
      (FDir.cons "R" (.dir .nil) .nil).pathLookup ["R", "d"] = none := by
  refine ⟨?_, by decide, by decide⟩
  decide

/-- C7: building the tree text `["Project", "src/", "src/main.txt",
"README.md"]` against the empty root `R` in Apply mode produces exactly
the directory `R/src`, the empty file `R/src/main.txt` and the empty file
`R/README.md`, and no entry named `R/Project` (the banner line is
skipped). -/
theorem claim_C7_example_build :
    build_from_tree ["Project", "src/", "src/main.txt", "README.md"] ["R"]
        false false none ⟨.cons "R" (.dir .nil) .nil, [], false⟩ =
      ⟨.cons "R" (.dir (.cons "src" (.dir (.cons "main.txt" (.file "") .nil))
          (.cons "README.md" (.file "") .nil))) .nil,
        ["R/src/", "R/src/main.txt", "R/README.md"], false⟩ ∧
      (build_from_tree ["Project", "src/", "src/main.txt", "README.md"] ["R"]
        false false none ⟨.cons "R" (.dir .nil) .nil, [], false⟩).fs.pathLookup
        ["R", "Project"] = none := by
  refine ⟨?_, by decide⟩
  decide

/-- C8: any raw line whose lowercased (right-stripped) text starts with
`project` is skipped by the tree builder before glyph stripping, wherever
it occurs: the line loop leaves the state untouched — no filesystem entry
and no report line — and deleting such a line from the input does not
change the result of `build_from_tree` at all. -/
theorem claim_C8_project_lines_skipped (root : List String)
    (force dry : Bool) (st : St) (raw : String)
    (h : pyStartsWith (pyLower (pyRstrip raw)) "project" = true) :
    treeLineStep root force dry st raw = st ∧
      ∀ (l1 l2 : List String) (tm : Option (List String)),
        build_from_tree (l1 ++ raw :: l2) root force dry tm st =
          build_from_tree (l1 ++ l2) root force dry tm st := by
  have hstep : ∀ s : St, treeLineStep root force dry s raw = s := by
    intro s
    by_cases he : s.err
    · simp [treeLineStep, he]
    · simp [treeLineStep, he, h]
  refine ⟨hstep st, ?_⟩
  intro l1 l2 tm
  have : buildTreeLines (l1 ++ raw :: l2) root force dry st =
      buildTreeLines (l1 ++ l2) root force dry st := by
    rw [buildTreeLines, buildTreeLines, List.foldl_append, List.foldl_append,
      List.foldl_cons, hstep]
  rw [build_from_tree.eq_def, build_from_tree.eq_def, this]

/-- C8 witness: the line `projects/` (a path that begins with the banner
prefix) is skipped by a concrete build. -/
theorem claim_C8_witness :
    pyStartsWith (pyLower (pyRstrip "projects/")) "project" = true ∧
      treeLineStep ["R"] false false ⟨.cons "R" (.dir .nil) .nil, [], false⟩
        "projects/" = ⟨.cons "R" (.dir .nil) .nil, [], false⟩ :=
  ⟨by decide,
    (claim_C8_project_lines_skipped ["R"] false false
      ⟨.cons "R" (.dir .nil) .nil, [], false⟩ "projects/" (by decide)).1⟩

/-- C3: the shared file-target branch of `build_from_tree` and
`build_from_dict` follows the decision table: an absent target is created
in Apply mode and reported `would create file` under DryRun; an existing
target is overwritten and reported created under `force` in Apply mode,
reported `would create file` under `force` in DryRun, and reported
`exists, kept` without any mutation when `force` is off, in either
mode. -/
theorem claim_C3_decision_table (force dry : Bool) (path : List String)
    (content : String) (st : St) :
    (st.fs.pathLookup path = none → dry = false →
      (fileTargetStep force dry path content st).err = false →
      (fileTargetStep force dry path content st).fs.pathLookup path
          = some (.file content) ∧
        (fileTargetStep force dry path content st).rep
          = st.rep ++ [pathStr path]) ∧
    (st.fs.pathLookup path = none → dry = true →
      (fileTargetStep force dry path content st).err = false →
      (fileTargetStep force dry path content st).rep
        = st.rep ++ [pathStr path ++ " (would create file)"]) ∧
    ((st.fs.pathLookup path).isSome → force = true → dry = false →
      (fileTargetStep force dry path content st).err = false →
      (fileTargetStep force dry path content st).fs.pathLookup path
          = some (.file content) ∧
        (fileTargetStep force dry path content st).rep
          = st.rep ++ [pathStr path]) ∧
    ((st.fs.pathLookup path).isSome → force = true → dry = true →
      fileTargetStep force dry path content st =
        { st with rep := st.rep ++ [pathStr path ++ " (would create file)"] }) ∧
    ((st.fs.pathLookup path).isSome → force = false →
      fileTargetStep force dry path content st =
        { st with rep := st.rep ++ [pathStr path ++ " (exists, kept)"] }) := by
  refine ⟨?_, ?_, ?_, ?_, ?_⟩
  · intro habs hdry herr
    cases hep : st.fs.ensureParent path with
    | none => simp [fileTargetStep, hep] at herr
    | some fs1 =>
      have hstill := ensureParent_target_still_absent habs hep
      exact fileTargetStep_write_spec hep (by simp [hstill]) hdry herr
  · intro habs hdry herr
    cases hep : st.fs.ensureParent path with
    | none => simp [fileTargetStep, hep] at herr
    | some fs1 =>
      have hstill := ensureParent_target_still_absent habs hep
      subst hdry
      rw [fileTargetStep_dry_spec hep (by simp [hstill])]
  · intro hex hforce hdry herr
    have hep := ensureParent_of_target_exists hex
    exact fileTargetStep_write_spec hep (by simp [hforce]) hdry herr
  · intro hex hforce hdry
    have hep := ensureParent_of_target_exists hex
    subst hdry
    rw [fileTargetStep_dry_spec hep (by simp [hforce])]
  · intro hex hforce
    exact fileTargetStep_kept hex hforce

/-- C3 witness: the decision table evaluated at a concrete state: an
existing file `R/a` is kept (with the `exists, kept` report) when `force`
is off. -/
theorem claim_C3_witness :
    ((FDir.cons "R" (.dir (.cons "a" (.file "old") .nil)) .nil).pathLookup
        ["R", "a"]).isSome = true ∧
      fileTargetStep false false ["R", "a"] "new"
          ⟨.cons "R" (.dir (.cons "a" (.file "old") .nil)) .nil, [], false⟩ =
        ⟨.cons "R" (.dir (.cons "a" (.file "old") .nil)) .nil,
          ["R/a (exists, kept)"], false⟩ :=
  ⟨by decide,
    by
      have h := (claim_C3_decision_table false false ["R", "a"] "new"
        ⟨.cons "R" (.dir (.cons "a" (.file "old") .nil)) .nil, [], false⟩).2.2.2.2
        (by decide) rfl
      simpa using h⟩

/-- C5 counterexample: the claim as stated is false on both arms.  With a
`.yaml` input and PyYAML unavailable the run does abort, but only after
`root.mkdir` (treefs.py:326) has already created the missing target root
`r`; and with an unknown extension `.xyz` the run does not abort at all —
the input is treated as tree text and the build mutates the filesystem
(`r/a` is created). -/
theorem claim_C5_counterexample :
    (mainBuild ".yaml" .nil [] "r" none false false false false .nil).err
        = true ∧
      (mainBuild ".yaml" .nil [] "r" none false false false false
        .nil).fs.pathLookup ["r"] = some (.dir .nil) ∧
      FDir.nil.pathLookup ["r"] = none ∧
      (mainBuild ".xyz" .nil ["a/"] "r" none false false false false .nil).err
        = false ∧
      (mainBuild ".xyz" .nil ["a/"] "r" none false false false false
        .nil).fs.pathLookup ["r", "a"] = some (.dir .nil) := by
  refine ⟨by decide, by decide, by decide, by decide, by decide⟩

/-- C5 amended: when a build is requested for a structured-config input
(extension `.yaml`/`.yml`/`.toml`) whose format library is unavailable,
the run aborts after ensuring the target root directory exists
(`root.mkdir` runs before `load_config`) and performs no other
filesystem mutation: the final state is exactly the result of the root
`mkdir`, and every path that is not a prefix of the root path is
unchanged.  (Unknown extensions do not abort: they select the tree-text
builder.) -/
theorem claim_C5_amended_fail_fast (suffix : String) (doc : SMap)
    (treeLines : List String) (rootArg : String)
    (templatesArg : Option String) (force dryRun : Bool)
    (yamlAvail tomlAvail : Bool) (fs0 : FDir)
    (hyp : ((pyLower suffix = ".yaml" ∨ pyLower suffix = ".yml") ∧
        yamlAvail = false) ∨
      (pyLower suffix = ".toml" ∧ tomlAvail = false)) :
    (mainBuild suffix doc treeLines rootArg templatesArg force dryRun
        yamlAvail tomlAvail fs0).err = true ∧
      (∀ fs1, fs0.mkdirp (toSegs rootArg) = some fs1 →
        (mainBuild suffix doc treeLines rootArg templatesArg force dryRun
          yamlAvail tomlAvail fs0).fs = fs1) ∧
      (fs0.mkdirp (toSegs rootArg) = none →
        (mainBuild suffix doc treeLines rootArg templatesArg force dryRun
          yamlAvail tomlAvail fs0).fs = fs0) ∧
      (∀ q, ¬ q <+: toSegs rootArg →
        (mainBuild suffix doc treeLines rootArg templatesArg force dryRun
          yamlAvail tomlAvail fs0).fs.pathLookup q = fs0.pathLookup q) := by
  have hload : ∃ msg, load_config suffix yamlAvail tomlAvail doc
      = .error msg := by
    rcases hyp with ⟨hext, hav⟩ | ⟨hext, hav⟩
    · refine ⟨"PyYAML required for YAML support. pip install pyyaml", ?_⟩
      rcases hext with hext | hext <;> simp [load_config, hext, hav]
    · refine ⟨"toml required for TOML support. pip install toml", ?_⟩
      simp [load_config, hext, hav]
  have hexttest : (pyLower suffix = ".yaml" || pyLower suffix = ".yml" ||
      pyLower suffix = ".json" || pyLower suffix = ".toml") = true := by
    rcases hyp with ⟨hext, _⟩ | ⟨hext, _⟩
    · rcases hext with hext | hext <;> simp [hext]
    · simp [hext]
  obtain ⟨msg, hmsg⟩ := hload
  cases hm : fs0.mkdirp (toSegs rootArg) with
  | none =>
    refine ⟨?_, ?_, ?_, ?_⟩
    · simp [mainBuild, hm]
    · intro fs1 h1
      simp at h1
    · intro _
      simp [mainBuild, hm]
    · intro q hq
      simp [mainBuild, hm]
  | some fs1 =>
    have hr : mainBuild suffix doc treeLines rootArg templatesArg force
        dryRun yamlAvail tomlAvail fs0 = ⟨fs1, [], true⟩ := by
      simp only [mainBuild]
      rw [hm]
      simp [hexttest, hmsg]
    refine ⟨by rw [hr], ?_, ?_, ?_⟩
    · intro fs2 h2
      simp at h2
      rw [hr, h2]
    · intro h2
      simp at h2
    · intro q hq
      rw [hr]
      exact mkdirp_lookupPath_other (FDir.mkdirp_some_iff.mp hm) hq

/-- C5 witness: the amended claim evaluated concretely: a `.yml` build
without PyYAML into a missing root `r` aborts with only `r` created. -/
theorem claim_C5_witness :
    (pyLower ".yml" = ".yaml" ∨ pyLower ".yml" = ".yml") ∧
      (mainBuild ".yml" .nil [] "r" none false false false false .nil).err
        = true :=
  ⟨Or.inr (by decide),
    (claim_C5_amended_fail_fast ".yml" .nil [] "r" none false false false
      false .nil (Or.inl ⟨Or.inr (by decide), rfl⟩)).1⟩

theorem mem_of_mem_pyRstrip {c : Char} {s : String}
    (h : c ∈ (pyRstrip s).data) : c ∈ s.data := by
  rw [pyRstrip] at h
  simp only [] at h
  rw [List.mem_reverse] at h
  have := (List.dropWhile_sublist pyIsSpace).mem h
  rwa [List.mem_reverse] at this

theorem mem_of_mem_pyStrip {c : Char} {s : String}
    (h : c ∈ (pyStrip s).data) : c ∈ s.data := by
  rw [pyStrip] at h
  simp only [] at h
  rw [List.mem_reverse] at h
  have h2 := (List.dropWhile_sublist pyIsSpace).mem h
  rw [List.mem_reverse] at h2
  exact (List.dropWhile_sublist pyIsSpace).mem h2

theorem mem_of_mem_strip_tree_chars {c : Char} {s : String}
    (h : c ∈ (strip_tree_chars s).data) : c ∈ s.data := by
  rw [strip_tree_chars] at h
  have := mem_of_mem_pyStrip h
  simp only [] at this
  exact (List.mem_filter.mp this).1

theorem validNameB_no_slash {n : String} (h : validNameB n = true) :
    ('/' : Char) ∉ n.data := by
  rw [validNameB] at h
  simp at h
  exact h.2

theorem pyEndsWith_slash_false {s : String} (h : ('/' : Char) ∉ s.data) :
    pyEndsWith s "/" = false := by
  cases he : pyEndsWith s "/" with
  | false => rfl
  | true =>
    exfalso
    rw [pyEndsWith] at he
    have hsuf := List.isSuffixOf_iff_suffix.mp he
    exact h (hsuf.sublist.mem (by simp))

theorem validD_name_mem {d : FDir} (h : d.validD = true) {n : String}
    (hn : n ∈ d.namesOf) : validNameB n = true := by
  match d with
  | .nil => simp [FDir.namesOf, FDir.childList] at hn
  | .cons m nd rest =>
    rw [FDir.validD] at h
    simp at h
    rw [FDir.namesOf, FDir.childList] at hn
    simp at hn
    rcases hn with hn | hn
    · subst hn
      exact h.1.1
    · exact validD_name_mem h.2 (by simpa [FDir.namesOf] using hn)

theorem validD_lookup {d : FDir} (h : d.validD = true) {n : String}
    {nd : FNode} (hl : d.lookupName n = some nd) : nd.validN = true := by
  match d with
  | .nil => simp [FDir.lookupName] at hl
  | .cons m nd0 rest =>
    rw [FDir.validD] at h
    simp at h
    rw [FDir.lookupName] at hl
    by_cases hm : m = n
    · rw [if_pos hm] at hl
      simp at hl
      subst hl
      exact h.1.2
    · rw [if_neg hm] at hl
      exact validD_lookup h.2 hl

theorem exportTreeF_line_shape {fuel : Nat} :
    ∀ {d : FDir} {pre : String}, d.validD = true → ('/' : Char) ∉ pre.data →
    ∀ l ∈ exportTreeF fuel d pre,
      (∃ p n, l = p ++ "└── " ++ n ∨ l = p ++ "├── " ++ n) ∧
        ('/' : Char) ∉ l.data := by
  induction fuel with
  | zero => intro d pre _ _ l hl; simp [exportTreeF] at hl
  | succ fuel ih =>
    intro d pre hd hpre l hl
    rw [exportTreeF] at hl
    simp only [List.mem_flatMap] at hl
    obtain ⟨e, he, hle⟩ := hl
    have hname : e.2 ∈ d.namesOf := by
      have h2 := List.snd_mem_of_mem_enum he
      have hperm := List.perm_insertionSort
        (fun a b : String => pyStrLe a b = true) d.namesOf
      rw [pySorted] at h2
      exact hperm.mem_iff.mp h2
    have hvn : validNameB e.2 = true := validD_name_mem hd hname
    have hslashn : ('/' : Char) ∉ e.2.data := validNameB_no_slash hvn
    simp only [List.mem_cons] at hle
    rcases hle with hle | hle
    · subst hle
      by_cases hlast : e.1 = (pySorted d.namesOf).length - 1
      · refine ⟨⟨pre, e.2, Or.inl (by simp [hlast])⟩, ?_⟩
        simp only [hlast, if_pos rfl, String.data_append]
        intro hc
        rcases List.mem_append.mp hc with hc | hc
        · rcases List.mem_append.mp hc with hc | hc
          · exact hpre hc
          · revert hc; decide
        · exact hslashn hc
      · refine ⟨⟨pre, e.2, Or.inr (by simp [hlast])⟩, ?_⟩
        simp only [hlast, if_neg hlast, String.data_append]
        intro hc
        rcases List.mem_append.mp hc with hc | hc
        · rcases List.mem_append.mp hc with hc | hc
          · exact hpre hc
          · revert hc; decide
        · exact hslashn hc
    · cases hlk : d.lookupName e.2 with
      | none => rw [hlk] at hle; simp at hle
      | some nd =>
        cases nd with
        | file c => rw [hlk] at hle; simp at hle
        | dir s =>
          rw [hlk] at hle
          simp only [] at hle
          have hsv : s.validD = true := validD_lookup hd hlk
          have hpre2 : ('/' : Char) ∉
              (pre ++ (if e.1 = (pySorted d.namesOf).length - 1
                then "    " else "│   ")).data := by
            rw [String.data_append]
            intro hc
            rcases List.mem_append.mp hc with hc | hc
            · exact hpre hc
            · by_cases hlast : e.1 = (pySorted d.namesOf).length - 1 <;>
                revert hc <;> simp [hlast]
          exact ih hsv hpre2 l hle

/-- C10: every line of `export_tree` after the first root line has the
form `prefix + connector + entry name` with no trailing path separator,
even for directories; consequently the tree builder, fed this text back,
never takes its directory branch: the stripped form of every line also
does not end with a separator, so every surviving entry is classified as
a file. -/
theorem claim_C10_export_lines_are_files (rootName : String) (d : FDir)
    (h : d.validD = true) :
    ∀ l ∈ (export_tree rootName d).drop 1,
      (∃ p n, l = p ++ "└── " ++ n ∨ l = p ++ "├── " ++ n) ∧
        pyEndsWith l "/" = false ∧
        pyEndsWith (strip_tree_chars (pyRstrip l)) "/" = false := by
  intro l hl
  rw [export_tree] at hl
  simp only [List.drop_succ_cons, List.drop_zero] at hl
  obtain ⟨hshape, hslash⟩ :=
    exportTreeF_line_shape h (by decide) l hl
  refine ⟨hshape, pyEndsWith_slash_false hslash, ?_⟩
  refine pyEndsWith_slash_false ?_
  intro hc
  exact hslash (mem_of_mem_pyRstrip (mem_of_mem_strip_tree_chars hc))

/-- C10 witness: the exported line `├── a` of a concrete tree has the
connector shape and is classified as a file by the builder. -/
theorem claim_C10_witness :
    (FDir.cons "a" (.dir (.cons "z" (.file "Z") .nil))
        (.cons "b" (.file "B") .nil)).validD = true ∧
      pyEndsWith "├── a" "/" = false ∧
      pyEndsWith (strip_tree_chars (pyRstrip "├── a")) "/" = false := by
  refine ⟨by decide, ?_, ?_⟩
  · exact (claim_C10_export_lines_are_files "R"
      (FDir.cons "a" (.dir (.cons "z" (.file "Z") .nil))
        (.cons "b" (.file "B") .nil)) (by decide) "├── a" (by decide)).2.1
  · exact (claim_C10_export_lines_are_files "R"
      (FDir.cons "a" (.dir (.cons "z" (.file "Z") .nil))
        (.cons "b" (.file "B") .nil)) (by decide) "├── a" (by decide)).2.2

theorem strLeB_cons (a b : Char) (as bs : List Char) :
    strLeB (a :: as) (b :: bs) =
      if a.toNat < b.toNat then true
      else if b.toNat < a.toNat then false
      else strLeB as bs := rfl

theorem strLeB_total : ∀ a b : List Char,
    strLeB a b = true ∨ strLeB b a = true
  | [], _ => Or.inl rfl
  | _ :: _, [] => Or.inr rfl
  | a :: as, b :: bs => by
    rcases Nat.lt_trichotomy a.toNat b.toNat with h | h | h
    · left
      simp [strLeB_cons, h]
    · rcases strLeB_total as bs with ih | ih
      · left
        simp [strLeB_cons, h, ih]
      · right
        simp [strLeB_cons, h.symm, ih]
    · right
      simp [strLeB_cons, h]

theorem strLeB_trans : ∀ {a b c : List Char},
    strLeB a b = true → strLeB b c = true → strLeB a c = true
  | [], _, _, _, _ => rfl
  | _ :: _, [], _, hab, _ => by simp [strLeB] at hab
  | _ :: _, _ :: _, [], _, hbc => by simp [strLeB] at hbc
  | a :: as, b :: bs, c :: cs, hab, hbc => by
    rw [strLeB_cons] at hab hbc ⊢
    rcases Nat.lt_trichotomy a.toNat b.toNat with h1 | h1 | h1
    · rcases Nat.lt_trichotomy b.toNat c.toNat with h2 | h2 | h2
      · simp [Nat.lt_trans h1 h2]
      · simp [h2 ▸ h1]
      · rw [if_pos h1] at hab
        rw [if_neg (by omega), if_pos h2] at hbc
        simp at hbc
    · rcases Nat.lt_trichotomy b.toNat c.toNat with h2 | h2 | h2
      · simp [h1 ▸ h2]
      · rw [if_neg (by omega), if_neg (by omega)] at hab hbc ⊢
        exact strLeB_trans hab hbc
      · rw [if_neg (by omega), if_pos h2] at hbc
        simp at hbc
    · rw [if_neg (by omega), if_pos h1] at hab
      simp at hab

theorem strLeB_antisymm : ∀ {a b : List Char},
    strLeB a b = true → strLeB b a = true → a = b
  | [], [], _, _ => rfl
  | [], _ :: _, _, hba => by simp [strLeB] at hba
  | _ :: _, [], hab, _ => by simp [strLeB] at hab
  | a :: as, b :: bs, hab, hba => by
    rw [strLeB_cons] at hab hba
    rcases Nat.lt_trichotomy a.toNat b.toNat with h1 | h1 | h1
    · rw [if_neg (by omega), if_pos h1] at hba
      simp at hba
    · rw [if_neg (by omega), if_neg (by omega)] at hab hba
      have heq : a = b := Char.ext (UInt32.ext h1)
      rw [heq, strLeB_antisymm hab hba]
    · rw [if_pos h1] at hba
      rw [if_neg (by omega), if_pos h1] at hab
      simp at hab

instance : IsTotal String (fun a b => pyStrLe a b = true) :=
  ⟨fun a b => strLeB_total a.data b.data⟩

instance : IsTrans String (fun a b => pyStrLe a b = true) :=
  ⟨fun _ _ _ hab hbc => strLeB_trans hab hbc⟩

instance : IsAntisymm String (fun a b => pyStrLe a b = true) :=
  ⟨fun _ _ hab hba => String.ext (strLeB_antisymm hab hba)⟩

instance : IsTotal (String × FNode) (fun a b => pyStrLe a.1 b.1 = true) :=
  ⟨fun a b => strLeB_total a.1.data b.1.data⟩

instance : IsTrans (String × FNode) (fun a b => pyStrLe a.1 b.1 = true) :=
  ⟨fun _ _ _ hab hbc => strLeB_trans hab hbc⟩

theorem sorted_pySorted (l : List String) :
    List.Sorted (fun a b => pyStrLe a b = true) (pySorted l) :=
  List.sorted_insertionSort _ l

theorem perm_pySorted (l : List String) : List.Perm (pySorted l) l :=
  List.perm_insertionSort _ l

theorem sorted_pySortedByName (l : List (String × FNode)) :
    List.Sorted (fun a b => pyStrLe a.1 b.1 = true) (pySortedByName l) :=
  List.sorted_insertionSort _ l

theorem perm_pySortedByName (l : List (String × FNode)) :
    List.Perm (pySortedByName l) l :=
  List.perm_insertionSort _ l

theorem keysSorted_listToSMap :
    ∀ l : List (String × SVal),
      List.Chain' (fun a b => pyStrLe a.1 b.1 = true) l →
      (∀ e ∈ l, SVal.keysSorted e.2 = true) →
      (listToSMap l).keysSorted = true
  | [], _, _ => rfl
  | e :: rest, hch, hv => by
    have hrest := keysSorted_listToSMap rest hch.tail
      (fun x hx => hv x (List.mem_cons_of_mem e hx))
    have hve := hv e (List.mem_cons_self e rest)
    match rest, hch with
    | [], _ => simp [listToSMap, SMap.keysSorted, hve]
    | e2 :: rest2, hch =>
      have hle : pyStrLe e.1 e2.1 = true := (List.chain'_cons.mp hch).1
      have hrest2 := hrest
      simp [listToSMap, SMap.keysSorted, hve, hle] at hrest2 ⊢
      exact hrest2

theorem exportDictF_keysSorted : ∀ (fuel : Nat) (d : FDir),
    (exportDictF fuel d).keysSorted = true := by
  intro fuel
  induction fuel with
  | zero => intro d; rfl
  | succ fuel ih =>
    intro d
    rw [exportDictF]
    apply keysSorted_listToSMap
    · refine List.Pairwise.chain' ?_
      refine List.Pairwise.map _ ?_ (sorted_pySortedByName d.childList)
      intro a b hab
      exact hab
    · intro e he
      obtain ⟨x, hx, hex⟩ := List.mem_map.mp he
      cases x with
      | mk n nd =>
        cases nd with
        | dir sub =>
          rw [← hex]
          simpa [SVal.keysSorted] using ih sub
        | file c =>
          rw [← hex]
          simp [SVal.keysSorted]

theorem FDir.sizeD_pos (d : FDir) : 1 ≤ d.sizeD := by
  match d with
  | .nil => simp [FDir.sizeD]
  | .cons n nd rest =>
    rw [FDir.sizeD]
    have := rest.sizeD_pos
    omega

theorem FNode.sizeN_pos (nd : FNode) : 1 ≤ nd.sizeN := by
  match nd with
  | .file c => simp [FNode.sizeN]
  | .dir d => rw [FNode.sizeN]; omega

theorem lookupName_mem_childList {d : FDir} {n : String} {nd : FNode}
    (h : d.lookupName n = some nd) : (n, nd) ∈ d.childList := by
  match d with
  | .nil => simp [FDir.lookupName] at h
  | .cons m nd0 rest =>
    rw [FDir.lookupName] at h
    rw [FDir.childList]
    by_cases hm : m = n
    · rw [if_pos hm] at h
      simp at h
      subst hm
      subst h
      exact List.mem_cons_self _ _
    · rw [if_neg hm] at h
      exact List.mem_cons_of_mem _ (lookupName_mem_childList h)

theorem mem_childList_sizeN {d : FDir} {n : String} {nd : FNode}
    (h : (n, nd) ∈ d.childList) : nd.sizeN < d.sizeD := by
  match d with
  | .nil => simp [FDir.childList] at h
  | .cons m nd0 rest =>
    rw [FDir.childList] at h
    rw [FDir.sizeD]
    rcases List.mem_cons.mp h with h | h
    · have := rest.sizeD_pos
      simp at h
      rw [h.2]
      omega
    · have := mem_childList_sizeN h
      have := nd0.sizeN_pos
      omega

theorem lookup_dir_sizeD {d : FDir} {n : String} {s : FDir}
    (h : d.lookupName n = some (.dir s)) : s.sizeD + 1 ≤ d.sizeD := by
  have := mem_childList_sizeN (lookupName_mem_childList h)
  rw [FNode.sizeN] at this
  omega

theorem namesOf_listToFDir (l : List (String × FNode)) :
    (listToFDir l).namesOf = l.map Prod.fst := by
  induction l with
  | nil => rfl
  | cons e rest ih =>
    rw [listToFDir]
    simp [FDir.namesOf, FDir.childList] at ih ⊢
    exact ih

theorem childList_listToFDir (l : List (String × FNode)) :
    (listToFDir l).childList = l := by
  induction l with
  | nil => rfl
  | cons e rest ih =>
    rw [listToFDir, FDir.childList, ih]

theorem lookupName_listToFDir_map (ns : List String) (g : String → FNode)
    (m : String) :
    (listToFDir (ns.map (fun n => (n, g n)))).lookupName m =
      if m ∈ ns then some (g m) else none := by
  induction ns with
  | nil => simp [listToFDir, FDir.lookupName]
  | cons n rest ih =>
    simp only [List.map_cons, listToFDir, FDir.lookupName]
    by_cases hm : n = m
    · subst hm
      simp
    · rw [if_neg hm, ih]
      simp [Ne.symm hm]

theorem mem_namesOf_lookupName {d : FDir} {n : String}
    (h : n ∈ d.namesOf) : ∃ nd, d.lookupName n = some nd := by
  match d with
  | .nil => simp [FDir.namesOf, FDir.childList] at h
  | .cons m nd0 rest =>
    rw [FDir.lookupName]
    by_cases hm : m = n
    · rw [if_pos hm]
      exact ⟨nd0, rfl⟩
    · rw [if_neg hm]
      rw [FDir.namesOf, FDir.childList] at h
      simp at h
      rcases h with h | h
      · exact absurd h.symm hm
      · exact mem_namesOf_lookupName (by simpa [FDir.namesOf] using h)

theorem nodupD_namesOf {d : FDir} (h : d.nodupD = true) :
    d.namesOf.Nodup := by
  match d with
  | .nil => simp [FDir.namesOf, FDir.childList]
  | .cons m nd0 rest =>
    rw [FDir.nodupD] at h
    simp at h
    rw [FDir.namesOf, FDir.childList]
    simp only [List.map_cons, List.nodup_cons]
    constructor
    · intro hmem
      exact h.1.1 (by simpa [FDir.namesOf] using hmem)
    · exact nodupD_namesOf h.2

theorem nodupD_lookup {d : FDir} (h : d.nodupD = true) {n : String}
    {nd : FNode} (hl : d.lookupName n = some nd) : nd.nodupN = true := by
  match d with
  | .nil => simp [FDir.lookupName] at hl
  | .cons m nd0 rest =>
    rw [FDir.nodupD] at h
    simp at h
    rw [FDir.lookupName] at hl
    by_cases hm : m = n
    · rw [if_pos hm] at hl
      simp at hl
      subst hl
      exact h.1.2
    · rw [if_neg hm] at hl
      exact nodupD_lookup h.2 hl

theorem map_lookup_self {d : FDir} (h : d.namesOf.Nodup) :
    d.namesOf.map (fun n => (n, (d.lookupName n).getD (.file ""))) =
      d.childList := by
  match d with
  | .nil => rfl
  | .cons m nd0 rest =>
    rw [FDir.namesOf, FDir.childList] at h ⊢
    simp only [List.map_cons, List.nodup_cons] at h
    simp only [List.map_cons]
    have hhead : ((FDir.cons m nd0 rest).lookupName m).getD (.file "")
        = nd0 := by
      rw [FDir.lookupName, if_pos rfl]
      rfl
    have htail : List.map
        (fun n => (n, ((FDir.cons m nd0 rest).lookupName n).getD (.file "")))
        (List.map Prod.fst rest.childList) = rest.childList := by
      have hstep : List.map
          (fun n => (n, ((FDir.cons m nd0 rest).lookupName n).getD (.file "")))
          (List.map Prod.fst rest.childList) =
          List.map (fun n => (n, (rest.lookupName n).getD (.file "")))
          (List.map Prod.fst rest.childList) := by
        refine List.map_congr_left ?_
        intro n hn
        have hne : (FDir.cons m nd0 rest).lookupName n = rest.lookupName n := by
          rw [FDir.lookupName, if_neg]
          intro hmn
          exact h.1 (hmn ▸ hn)
        rw [hne]
      rw [hstep]
      have ih := map_lookup_self (d := rest) h.2
      rw [FDir.namesOf] at ih
      exact ih
    rw [hhead, htail]

theorem pySorted_idem (l : List String) :
    pySorted (pySorted l) = pySorted l :=
  List.eq_of_perm_of_sorted (perm_pySorted (pySorted l))
    (sorted_pySorted _) (sorted_pySorted l)

theorem namesOf_canonF (g : Nat) (d : FDir) :
    (canonF (g + 1) d).namesOf = pySorted d.namesOf := by
  rw [canonF, namesOf_listToFDir, List.map_map]
  exact List.map_id _

theorem lookupName_canonF (g : Nat) (d : FDir) (m : String) :
    (canonF (g + 1) d).lookupName m =
      if m ∈ pySorted d.namesOf then
        some (match d.lookupName m with
          | some (.dir s) => FNode.dir (canonF g s)
          | some x => x
          | none => .file "")
      else none := by
  rw [canonF]
  exact lookupName_listToFDir_map _ _ _

theorem exportTreeF_canonF : ∀ (fuel : Nat) {g : Nat} {d : FDir}
    {pre : String}, d.nodupD = true → d.sizeD ≤ g →
    exportTreeF fuel (canonF g d) pre = exportTreeF fuel d pre := by
  intro fuel
  induction fuel with
  | zero => intro g d pre _ _; rfl
  | succ fuel ih =>
    intro g d pre hnd hsz
    match g with
    | 0 => exact absurd hsz (by have := d.sizeD_pos; omega)
    | g + 1 =>
      rw [exportTreeF, exportTreeF]
      have hns : pySorted (canonF (g + 1) d).namesOf = pySorted d.namesOf := by
        rw [namesOf_canonF, pySorted_idem]
      rw [hns]
      refine List.flatMap_congr ?_
      intro e he
      have hmem : e.2 ∈ pySorted d.namesOf := by
        have := List.snd_mem_of_mem_enum he
        exact this
      rw [lookupName_canonF, if_pos hmem]
      have hmem2 : e.2 ∈ d.namesOf := (perm_pySorted d.namesOf).mem_iff.mp hmem
      obtain ⟨nd, hnd2⟩ := mem_namesOf_lookupName hmem2
      cases nd with
      | file c => rw [hnd2]
      | dir s =>
        rw [hnd2]
        simp only []
        have hsub : s.nodupD = true := by
          have := nodupD_lookup hnd hnd2
          rwa [FNode.nodupN] at this
        have hszs : s.sizeD ≤ g := by
          have := lookup_dir_sizeD hnd2
          omega
        rw [ih hsub hszs]

instance : IsAntisymm (String × FNode)
    (fun a b => pyStrLe a.1 b.1 = true ∧ a.1 ≠ b.1) :=
  ⟨fun a b h1 h2 => absurd (String.ext (strLeB_antisymm h1.1 h2.1)) h1.2⟩

theorem sortedPairs_eq_map_names {d : FDir} (h : d.namesOf.Nodup) :
    pySortedByName d.childList =
      (pySorted d.namesOf).map
        (fun n => (n, (d.lookupName n).getD (.file ""))) := by
  have hperm1 := perm_pySortedByName d.childList
  have hmapid := map_lookup_self h
  have hperm2 : List.Perm
      ((pySorted d.namesOf).map
        (fun n => (n, (d.lookupName n).getD (.file "")))) d.childList := by
    rw [← hmapid]
    exact (perm_pySorted d.namesOf).map _
  refine List.eq_of_perm_of_sorted
    (r := fun a b => pyStrLe a.1 b.1 = true ∧ a.1 ≠ b.1)
    (hperm1.trans hperm2.symm) ?_ ?_
  · have hs := sorted_pySortedByName d.childList
    have hnd : ((pySortedByName d.childList).map Prod.fst).Nodup := by
      have hp : List.Perm ((pySortedByName d.childList).map Prod.fst)
          (d.childList.map Prod.fst) := hperm1.map _
      exact hp.nodup_iff.mpr h
    have hne : List.Pairwise (fun a b : String × FNode => a.1 ≠ b.1)
        (pySortedByName d.childList) := List.pairwise_map.mp hnd
    exact hs.and hne
  · have hsn := sorted_pySorted d.namesOf
    have hndn : (pySorted d.namesOf).Nodup :=
      (perm_pySorted d.namesOf).nodup_iff.mpr h
    have hcomb : List.Pairwise
        (fun a b : String => pyStrLe a b = true ∧ a ≠ b)
        (pySorted d.namesOf) := hsn.and hndn
    exact List.Pairwise.map _ (fun _ _ hab => hab) hcomb

theorem exportDictF_canonF : ∀ (fuel : Nat) {g : Nat} {d : FDir},
    d.nodupD = true → d.sizeD ≤ g →
    exportDictF fuel (canonF g d) = exportDictF fuel d := by
  intro fuel
  induction fuel with
  | zero => intro g d _ _; rfl
  | succ fuel ih =>
    intro g d hnd hsz
    match g with
    | 0 => exact absurd hsz (by have := d.sizeD_pos; omega)
    | g + 1 =>
      rw [exportDictF, exportDictF]
      have hnn : d.namesOf.Nodup := nodupD_namesOf hnd
      have hcn : (canonF (g + 1) d).namesOf.Nodup := by
        rw [namesOf_canonF]
        exact (perm_pySorted d.namesOf).nodup_iff.mpr hnn
      rw [sortedPairs_eq_map_names hcn, sortedPairs_eq_map_names hnn]
      rw [namesOf_canonF, pySorted_idem]
      rw [List.map_map, List.map_map]
      refine congrArg listToSMap ?_
      refine List.map_congr_left ?_
      intro n hn
      have hmem2 : n ∈ d.namesOf := (perm_pySorted d.namesOf).mem_iff.mp hn
      obtain ⟨nd, hnd2⟩ := mem_namesOf_lookupName hmem2
      simp only [Function.comp_apply]
      rw [lookupName_canonF, if_pos hn, hnd2]
      cases nd with
      | file c => rfl
      | dir s =>
        simp only [Option.getD_some]
        have hsub : s.nodupD = true := by
          have := nodupD_lookup hnd hnd2
          rwa [FNode.nodupN] at this
        have hszs : s.sizeD ≤ g := by
          have := lookup_dir_sizeD hnd2
          omega
        rw [ih hsub hszs]

theorem sizeD_listToFDir (l : List (String × FNode)) :
    (listToFDir l).sizeD = (l.map (fun e => e.2.sizeN)).sum + 1 := by
  induction l with
  | nil => rfl
  | cons e rest ih =>
    rw [listToFDir, FDir.sizeD, ih]
    simp
    omega

theorem sizeD_eq_sum (d : FDir) :
    d.sizeD = (d.childList.map (fun e => e.2.sizeN)).sum + 1 := by
  match d with
  | .nil => rfl
  | .cons n nd rest =>
    rw [FDir.sizeD, FDir.childList, sizeD_eq_sum rest]
    simp
    omega

theorem sizeD_canonF : ∀ (g : Nat) {d : FDir}, d.nodupD = true →
    d.sizeD ≤ g → (canonF g d).sizeD = d.sizeD := by
  intro g
  induction g with
  | zero => intro d _ hsz; exact absurd hsz (by have := d.sizeD_pos; omega)
  | succ g ih =>
    intro d hnd hsz
    rw [canonF, sizeD_listToFDir]
    simp only [List.map_map, Function.comp_def]
    have hnn : d.namesOf.Nodup := nodupD_namesOf hnd
    have hperm : List.Perm
        ((pySorted d.namesOf).map (fun n =>
          (match d.lookupName n with
            | some (.dir s) => FNode.dir (canonF g s)
            | some x => x
            | none => FNode.file "").sizeN))
        (d.namesOf.map (fun n =>
          (match d.lookupName n with
            | some (.dir s) => FNode.dir (canonF g s)
            | some x => x
            | none => FNode.file "").sizeN)) :=
      (perm_pySorted d.namesOf).map _
    rw [hperm.sum_eq]
    have hpoint : d.namesOf.map (fun n =>
        (match d.lookupName n with
          | some (.dir s) => FNode.dir (canonF g s)
          | some x => x
          | none => FNode.file "").sizeN) =
        d.namesOf.map (fun n =>
          ((d.lookupName n).getD (.file "")).sizeN) := by
      refine List.map_congr_left ?_
      intro n hn
      obtain ⟨nd, hnd2⟩ := mem_namesOf_lookupName hn
      rw [hnd2]
      cases nd with
      | file c => rfl
      | dir s =>
        simp only [Option.getD_some]
        rw [FNode.sizeN, FNode.sizeN]
        have hsub : s.nodupD = true := by
          have := nodupD_lookup hnd hnd2
          rwa [FNode.nodupN] at this
        have hszs : s.sizeD ≤ g := by
          have := lookup_dir_sizeD hnd2
          omega
        rw [ih hsub hszs]
    rw [hpoint]
    have hch : d.namesOf.map (fun n =>
        ((d.lookupName n).getD (.file "")).sizeN) =
        d.childList.map (fun e => e.2.sizeN) := by
      have hml := map_lookup_self hnn
      calc d.namesOf.map (fun n => ((d.lookupName n).getD (.file "")).sizeN)
          = (d.namesOf.map (fun n =>
              (n, (d.lookupName n).getD (.file "")))).map
              (fun e => e.2.sizeN) := by
            rw [List.map_map]
            simp only [Function.comp_def]
        _ = d.childList.map (fun e => e.2.sizeN) := by rw [hml]
    rw [hch, ← sizeD_eq_sum]

/-- C6: both export forms list siblings in ascending code-point
lexicographic order by name, independently of the order in which the
filesystem reports directory entries: the keys of every mapping produced
by `export_dict` are sorted, and (for real directories, with distinct
sibling names) both `export_tree` and `export_dict` are invariant under
replacing the directory by its canonically reordered copy — the output
depends only on the sorted listing, not on the reported order. -/
theorem claim_C6_export_sorted (rootName : String) (d : FDir) :
    (export_dict rootName d).keysSorted = true ∧
      (d.nodupD = true →
        export_tree rootName d = export_tree rootName (canonFs d) ∧
          export_dict rootName d = export_dict rootName (canonFs d)) := by
  constructor
  · rw [export_dict]
    have hk := exportDictF_keysSorted d.sizeD d
    simp [SMap.keysSorted, SVal.keysSorted, hk]
  · intro hnd
    have hsz : (canonF d.sizeD d).sizeD = d.sizeD :=
      sizeD_canonF d.sizeD hnd le_rfl
    constructor
    · rw [export_tree, export_tree, canonFs, hsz,
        exportTreeF_canonF d.sizeD hnd le_rfl]
    · rw [export_dict, export_dict, canonFs, hsz,
        exportDictF_canonF d.sizeD hnd le_rfl]

/-- C6 witness: a concrete directory reported out of order exports the
same text as its sorted copy, and its `export_dict` keys are sorted. -/
theorem claim_C6_witness :
    (export_dict "R"
        (FDir.cons "b" (.file "B")
          (.cons "a" (.dir .nil) .nil))).keysSorted = true ∧
      (FDir.cons "b" (.file "B") (.cons "a" (.dir .nil) .nil)).nodupD
        = true ∧
      export_tree "R" (FDir.cons "b" (.file "B")
          (.cons "a" (.dir .nil) .nil)) =
        export_tree "R" (canonFs (FDir.cons "b" (.file "B")
          (.cons "a" (.dir .nil) .nil))) :=
  ⟨(claim_C6_export_sorted "R" _).1, by decide,
    ((claim_C6_export_sorted "R"
      (FDir.cons "b" (.file "B") (.cons "a" (.dir .nil) .nil))).2
      (by decide)).1⟩

theorem prefix_snoc_cases {q xs : List String} {a : String}
    (h : q <+: xs ++ [a]) : q <+: xs ∨ q = xs ++ [a] := by
  rcases h with ⟨t, ht⟩
  cases t using List.reverseRecOn with
  | nil => right; simpa using ht
  | append_singleton t b =>
    left
    have h1 : (q ++ t) ++ [b] = xs ++ [a] := by
      rw [List.append_assoc]; exact ht
    exact ⟨t, (List.append_inj' h1 (by simp)).1⟩

theorem snoc_prefix_snoc {xs : List String} {a b : String}
    (h : xs ++ [a] <+: xs ++ [b]) : a = b := by
  rw [List.prefix_append_right_inj] at h
  rcases h with ⟨t, ht⟩
  cases t with
  | nil => simpa using ht
  | cons c cs => simp at ht

theorem lookupPath_append (p q : List String) (nd : FNode) :
    nd.lookupPath (p ++ q) =
      (nd.lookupPath p).bind (fun nd2 => nd2.lookupPath q) := by
  induction p generalizing nd with
  | nil => simp [FNode.lookupPath]
  | cons n rest ih =>
    cases nd with
    | file c => simp [FNode.lookupPath]
    | dir d =>
      rw [List.cons_append, FNode.lookupPath, FNode.lookupPath]
      cases hl : d.lookupName n with
      | none => simp
      | some nd2 => simpa using ih nd2

theorem mkdirp_create_fresh : ∀ {base : List String} {n : String}
    {nd : FNode} {cur : FDir},
    nd.lookupPath base = some (.dir cur) →
    nd.lookupPath (base ++ [n]) = none →
    ∃ nd2, nd.mkdirp (base ++ [n]) = some nd2 ∧
      nd2.lookupPath (base ++ [n]) = some (.dir .nil) := by
  intro base
  induction base with
  | nil =>
    intro n nd cur hb habs
    simp [FNode.lookupPath] at hb
    subst hb
    rw [List.nil_append] at habs ⊢
    rw [FNode.lookupPath] at habs
    cases hl : cur.lookupName n with
    | some x => rw [hl] at habs; simp only [] at habs; cases x <;> simp [FNode.lookupPath] at habs ⊢ <;> try exact habs
    | none =>
      refine ⟨.dir (cur.setName n (.dir .nil)), ?_, ?_⟩
      · simp [FNode.mkdirp, hl]
      · simp [FNode.lookupPath, lookupName_setName_self]
  | cons m brest ih =>
    intro n nd cur hb habs
    cases nd with
    | file c => simp [FNode.lookupPath] at hb
    | dir d =>
      rw [FNode.lookupPath] at hb
      cases hl : d.lookupName m with
      | none => rw [hl] at hb; simp at hb
      | some sub =>
        rw [hl] at hb
        simp only [] at hb
        rw [List.cons_append, FNode.lookupPath, hl] at habs
        simp only [] at habs
        obtain ⟨sub2, hsub2, hlk2⟩ := ih hb habs
        refine ⟨.dir (d.setName m sub2), ?_, ?_⟩
        · simp [FNode.mkdirp, hl, hsub2]
        · rw [List.cons_append, FNode.lookupPath,
            lookupName_setName_self]
          exact hlk2

theorem mem_childList_valid {d : FDir} {n : String} {nd : FNode}
    (h : d.validD = true) (hm : (n, nd) ∈ d.childList) :
    validNameB n = true ∧ nd.validN = true := by
  match d with
  | .nil => simp [FDir.childList] at hm
  | .cons m nd0 rest =>
    rw [FDir.validD] at h
    simp at h
    rw [FDir.childList] at hm
    rcases List.mem_cons.mp hm with hm | hm
    · simp at hm
      rw [hm.1, hm.2]
      exact ⟨h.1.1, h.1.2⟩
    · exact mem_childList_valid h.2 hm

theorem mem_childList_nodup {d : FDir} {n : String} {nd : FNode}
    (h : d.nodupD = true) (hm : (n, nd) ∈ d.childList) :
    nd.nodupN = true := by
  match d with
  | .nil => simp [FDir.childList] at hm
  | .cons m nd0 rest =>
    rw [FDir.nodupD] at h
    simp at h
    rw [FDir.childList] at hm
    rcases List.mem_cons.mp hm with hm | hm
    · simp at hm
      rw [hm.2]
      exact h.1.2
    · exact mem_childList_nodup h.2 hm

theorem noTmplD_cons_elim {m : String} {nd0 : FNode} {rest : FDir}
    (h : FDir.noTmplD (.cons m nd0 rest) = true) :
    (∀ c, nd0 = .file c → m ≠ "__template__") ∧ nd0.noTmplN = true ∧
      rest.noTmplD = true := by
  cases nd0 with
  | file c0 =>
    simp [FDir.noTmplD] at h
    refine ⟨?_, ?_, h.2⟩
    · intro c hc
      exact h.1.1
    · exact h.1.2
  | dir dd =>
    simp [FDir.noTmplD] at h
    exact ⟨fun c hc => by simp at hc, h.1, h.2⟩

theorem mem_childList_noTmpl {d : FDir} {n : String} {nd : FNode}
    (h : d.noTmplD = true) (hm : (n, nd) ∈ d.childList) :
    nd.noTmplN = true ∧ ∀ c, nd = .file c → n ≠ "__template__" := by
  match d with
  | .nil => simp [FDir.childList] at hm
  | .cons m nd0 rest =>
    obtain ⟨h1, h2, h3⟩ := noTmplD_cons_elim h
    rw [FDir.childList] at hm
    rcases List.mem_cons.mp hm with hm | hm
    · simp at hm
      obtain ⟨hm1, hm2⟩ := hm
      subst hm1
      subst hm2
      exact ⟨h2, h1⟩
    · exact mem_childList_noTmpl h3 hm

theorem splitSlash_no_slash : ∀ {l : List Char}, ('/' : Char) ∉ l →
    splitSlash l = [l] := by
  intro l
  induction l with
  | nil => intro _; rfl
  | cons c rest ih =>
    intro h
    have hcne : ¬ c = '/' := fun hc => h (hc ▸ List.mem_cons_self c rest)
    rw [splitSlash, ih (fun hc => h (List.mem_cons_of_mem c hc))]
    simp [hcne]

theorem pyJoin_valid {base : List String} {n : String}
    (h : validNameB n = true) : pyJoin base n = base ++ [n] := by
  rw [validNameB] at h
  simp at h
  obtain ⟨⟨⟨hne, hdot⟩, hddot⟩, hslash⟩ := h
  have hpre : ¬ pyStartsWith n "/" = true := by
    intro hpre
    rw [pyStartsWith] at hpre
    have := List.isPrefixOf_iff_prefix.mp hpre
    exact hslash (this.sublist.mem (by simp))
  rw [pyJoin, if_neg hpre, toSegs, splitSlash_no_slash hslash]
  have hmk : ((⟨n.data⟩ : String)) = n := rfl
  simp [hmk, hne, hdot]

theorem snoc_not_prefix_snoc_ne {base : List String} {a b : String}
    (h : a ≠ b) : ¬ (base ++ [a] <+: base ++ [b]) :=
  fun hp => h (snoc_prefix_snoc hp)

theorem cons_path_not_prefix_snoc {base : List String} {n : String}
    {rel : List String} {a : String} (h : n ≠ a) :
    ¬ ((base ++ n :: rel) <+: base ++ [a]) := by
  intro hp
  rw [List.prefix_append_right_inj] at hp
  exact h (List.cons_prefix_cons.mp hp).1

theorem snoc_not_prefix_cons_path {base : List String} {a n : String}
    {rel : List String} (h : a ≠ n) :
    ¬ ((base ++ [a]) <+: base ++ n :: rel) := by
  intro hp
  rw [List.prefix_append_right_inj] at hp
  exact h (List.cons_prefix_cons.mp hp).1

theorem not_prefix_snoc_of_ne {base : List String} {n : String}
    {rel : List String} {a : String} (hne : n ≠ a)
    (hq2 : ¬ (base ++ n :: rel) <+: base) :
    ¬ ((base ++ n :: rel) <+: base ++ [a]) := by
  intro hp
  rcases prefix_snoc_cases hp with hp | hp
  · exact hq2 hp
  · have := congrArg (fun l => List.length l) hp
    simp at this
    have h2 : (n :: rel) <+: [a] := by
      rw [← List.prefix_append_right_inj (l := base)]
      rw [hp]
    exact hne (List.cons_prefix_cons.mp h2).1

theorem lookupName_none_of_not_mem_namesOf {d : FDir} {n : String}
    (h : n ∉ d.namesOf) : d.lookupName n = none := by
  cases hl : d.lookupName n with
  | none => rfl
  | some nd =>
    exfalso
    have := lookupName_mem_childList hl
    exact h (List.mem_map_of_mem Prod.fst this)

theorem length_not_prefix {l1 l2 : List String}
    (h : l2.length < l1.length) : ¬ (l1 <+: l2) :=
  fun hp => absurd hp.length_le (by omega)



/-- Simulation lemma for the `export_dict` → `build_from_dict` round trip:
materializing the exported form of a list of well-formed children (plain
names, distinct siblings, no file named `__template__`) under a base
directory that exists and contains none of them succeeds, reproduces the
shape of every child subtree at every relative path, and touches nothing
outside the base. -/
theorem buildDict_export_sim : ∀ (fuel : Nat)
    (entries : List (String × FNode)) (base : List String) (st : St)
    (force : Bool),
    st.err = false →
    (∃ cur, st.fs.pathLookup base = some (.dir cur)) →
    (∀ e ∈ entries, st.fs.pathLookup (base ++ [e.1]) = none) →
    (∀ e ∈ entries, validNameB e.1 = true ∧ e.2.validN = true ∧
      e.2.nodupN = true ∧ e.2.noTmplN = true ∧ e.2.sizeN ≤ fuel ∧
      (∀ c, e.2 = .file c → e.1 ≠ "__template__")) →
    (entries.map Prod.fst).Nodup →
    ∀ r, r = dictRecurse none force false base
      (listToSMap (entries.map (fun e =>
        (e.1, match e.2 with
          | .dir sub => SVal.map (exportDictF fuel sub)
          | .file c => SVal.str c)))) st →
    r.err = false ∧
    (∀ q, ¬ base <+: q → ¬ q <+: base →
      r.fs.pathLookup q = st.fs.pathLookup q) ∧
    (∀ e ∈ entries, ∀ rel,
      nodeShape (r.fs.pathLookup (base ++ e.1 :: rel)) =
        nodeShape (e.2.lookupPath rel)) ∧
    (∀ n rel, n ∉ entries.map Prod.fst →
      r.fs.pathLookup (base ++ n :: rel) =
        st.fs.pathLookup (base ++ n :: rel)) ∧
    (∀ q x, st.fs.pathLookup q = some (.dir x) →
      ∃ y, r.fs.pathLookup q = some (.dir y)) := by
  intro fuel
  induction fuel with
  | zero =>
    intro entries base st force h1 h2 h3 h4 h5 r hr
    cases entries with
    | nil =>
      have hrst : r = st := by
        rw [hr]
        simp [listToSMap, dictRecurse]
      subst hrst
      exact ⟨h1, fun q _ _ => rfl, by simp, fun n rel _ => rfl,
        fun q x hx => ⟨x, hx⟩⟩
    | cons e rest =>
      exfalso
      have hs0 := (h4 e (List.mem_cons_self e rest)).2.2.2.2.1
      have hs1 := e.2.sizeN_pos
      omega
  | succ F ihF =>
    intro entries
    induction entries with
    | nil =>
      intro base st force h1 h2 h3 h4 h5 r hr
      have hrst : r = st := by
        rw [hr]
        simp [listToSMap, dictRecurse]
      subst hrst
      exact ⟨h1, fun q _ _ => rfl, by simp, fun n rel _ => rfl,
        fun q x hx => ⟨x, hx⟩⟩
    | cons e rest ihrest =>
      intro base st force h1 h2 h3 h4 h5 r hr
      obtain ⟨hv, hvn, hnn, hnt, hsz, htm⟩ := h4 e (List.mem_cons_self e rest)
      have hnodup_rest : (rest.map Prod.fst).Nodup := (List.nodup_cons.mp h5).2
      have hnotin : e.1 ∉ rest.map Prod.fst := (List.nodup_cons.mp h5).1
      obtain ⟨cur, hcur⟩ := h2
      have habs : st.fs.pathLookup (base ++ [e.1]) = none :=
        h3 e (List.mem_cons_self e rest)
      have hjoin : pyJoin base e.1 = base ++ [e.1] := pyJoin_valid hv
      cases e2 : e.2 with
      | file c =>
        have htmplne : ¬ (e.1 = "__template__") := htm c e2
        have hstep0 : dictStepVal none force false base e.1 (SVal.str c) st
            = fileTargetStep force false (base ++ [e.1]) c st := by
          simp only [dictStepVal, h1]
          simp [htmplne, hjoin]
        have hparent : st.fs.ensureParent (base ++ [e.1]) = some st.fs := by
          rw [FDir.ensureParent, if_pos]
          rw [List.dropLast_concat]
          simp [FDir.pathExists, hcur]
        have hwt : ∃ nd2, (FNode.dir st.fs).writeText (base ++ [e.1]) c
            = some nd2 := by
          refine @writeText_total _ _ cur ?_ ?_ c (by simp)
          · rw [List.dropLast_concat]
            exact hcur
          · intro x hx
            have habsN : (FNode.dir st.fs).lookupPath (base ++ [e.1])
                = none := habs
            rw [habsN] at hx
            simp at hx
        obtain ⟨nd2, hnd2⟩ := hwt
        obtain ⟨fs2, hfs2⟩ := writeText_dir_shape hnd2
        subst hfs2
        have hw : st.fs.writeText (base ++ [e.1]) c = some fs2 :=
          FDir.writeText_some_iff.mpr hnd2
        have hstep1 : fileTargetStep force false (base ++ [e.1]) c st =
            ⟨fs2, st.rep ++ [pathStr (base ++ [e.1])], false⟩ := by
          rw [fileTargetStep, hparent]
          simp only []
          rw [if_neg (by simp [habs])]
          rw [if_neg (by simp)]
          rw [hw]
          simp [h1]
        have hA1 : fs2.pathLookup (base ++ [e.1]) = some (.file c) :=
          writeText_lookupPath_self hnd2
        have hA2 : ∀ q, ¬ q <+: base ++ [e.1] →
            fs2.pathLookup q = st.fs.pathLookup q :=
          fun q hq => writeText_lookupPath_other hnd2 hq
        have hA3 : ∀ q x, st.fs.pathLookup q = some (.dir x) →
            ∃ y, fs2.pathLookup q = some (.dir y) :=
          fun q x hx => writeText_mono_dir hnd2 hx
        have hr3 : r = dictRecurse none force false base
            (listToSMap (rest.map (fun e =>
              (e.1, match e.2 with
                | .dir sub => SVal.map (exportDictF (F + 1) sub)
                | .file c => SVal.str c))))
            ⟨fs2, st.rep ++ [pathStr (base ++ [e.1])], false⟩ := by
          rw [hr]
          simp only [List.map_cons, listToSMap, e2]
          rw [dictRecurse, hstep0, hstep1]
        have hne_rest : ∀ e2m ∈ rest, e2m.1 ≠ e.1 := by
          intro e2m hm hc
          exact hnotin (hc ▸ List.mem_map_of_mem Prod.fst hm)
        obtain ⟨rc1, rc2, rc3, rc4, rc5⟩ := ihrest base
          ⟨fs2, st.rep ++ [pathStr (base ++ [e.1])], false⟩ force rfl
          ⟨(hA3 base cur hcur).choose, (hA3 base cur hcur).choose_spec⟩
          (by
            intro e2m hm
            have hq := hA2 (base ++ [e2m.1])
              (snoc_not_prefix_snoc_ne (hne_rest e2m hm))
            rw [show (⟨fs2, st.rep ++ [pathStr (base ++ [e.1])],
              false⟩ : St).fs = fs2 from rfl, hq]
            exact h3 e2m (List.mem_cons_of_mem e hm))
          (fun e2m hm => h4 e2m (List.mem_cons_of_mem e hm))
          hnodup_rest r hr3
        refine ⟨rc1, ?_, ?_, ?_, ?_⟩
        · intro q hq1 hq2
          have hnp : ¬ q <+: base ++ [e.1] := by
            intro hp
            rcases prefix_snoc_cases hp with hp | hp
            · exact hq2 hp
            · subst hp
              exact hq1 ⟨[e.1], rfl⟩
          rw [rc2 q hq1 hq2]
          exact hA2 q hnp
        · intro e3 he3 rel
          rcases List.mem_cons.mp he3 with he3 | he3
          · rw [he3]
            rw [e2]
            rw [rc4 e.1 rel hnotin]
            have hsplit : base ++ e.1 :: rel = (base ++ [e.1]) ++ rel := by
              simp
            rw [hsplit]
            have : (⟨fs2, st.rep ++ [pathStr (base ++ [e.1])],
                false⟩ : St).fs.pathLookup ((base ++ [e.1]) ++ rel) =
                (FNode.file c).lookupPath rel := by
              rw [show (⟨fs2, st.rep ++ [pathStr (base ++ [e.1])],
                false⟩ : St).fs = fs2 from rfl]
              rw [FDir.pathLookup, lookupPath_append]
              have hA1N : (FNode.dir fs2).lookupPath (base ++ [e.1])
                  = some (.file c) := hA1
              rw [hA1N]
              rfl
            rw [this]
          · exact rc3 e3 he3 rel
        · intro n rel hn
          simp at hn
          rw [rc4 n rel (by
            intro hc
            obtain ⟨x, hx⟩ : ∃ x, (n, x) ∈ rest := by simpa using hc
            exact hn.2 x hx)]
          exact hA2 _ (cons_path_not_prefix_snoc hn.1)
        · intro q x hx
          obtain ⟨y, hy⟩ := hA3 q x hx
          exact rc5 q y hy
      | dir sub =>
        have hvald : sub.validD = true := by
          have h0 := hvn; rw [e2, FNode.validN] at h0; exact h0
        have hnodd : sub.nodupD = true := by
          have h0 := hnn; rw [e2, FNode.nodupN] at h0; exact h0
        have hntd : sub.noTmplD = true := by
          have h0 := hnt; rw [e2, FNode.noTmplN] at h0; exact h0
        have hszd : sub.sizeD ≤ F := by
          have h0 := hsz; rw [e2, FNode.sizeN] at h0; omega
        have hcurN : (FNode.dir st.fs).lookupPath base = some (.dir cur) :=
          hcur
        have habsN : (FNode.dir st.fs).lookupPath (base ++ [e.1]) = none :=
          habs
        obtain ⟨nd2, hmk, hlknd2⟩ := mkdirp_create_fresh hcurN habsN
        obtain ⟨fs1, hfs1⟩ := mkdirp_dir_shape hmk
        subst hfs1
        have hmkF : st.fs.mkdirp (base ++ [e.1]) = some fs1 :=
          FDir.mkdirp_some_iff.mpr hmk
        have hlk1 : fs1.pathLookup (base ++ [e.1]) = some (.dir .nil) :=
          hlknd2
        have hB2 : ∀ q, ¬ q <+: base ++ [e.1] →
            fs1.pathLookup q = st.fs.pathLookup q :=
          fun q hq => mkdirp_lookupPath_other hmk hq
        have hB3 : ∀ q x, st.fs.pathLookup q = some (.dir x) →
            ∃ y, fs1.pathLookup q = some (.dir y) :=
          fun q x hx => mkdirp_mono_dir hmk hx
        have hstep0 : dictStepVal none force false base e.1
            (SVal.map (exportDictF (F + 1) sub)) st
            = dictRecurse none force false (base ++ [e.1])
              (exportDictF (F + 1) sub)
              ⟨fs1, st.rep ++ [pathStr (base ++ [e.1]) ++ "/"], false⟩ := by
          simp only [dictStepVal, h1]
          simp only [hjoin]
          rw [hmkF]
          simp [h1]
        have hstruct : exportDictF (F + 1) sub =
            listToSMap ((pySortedByName sub.childList).map (fun e =>
              (e.1, match e.2 with
                | .dir sub2 => SVal.map (exportDictF F sub2)
                | .file c2 => SVal.str c2))) := by
          rw [exportDictF]
        obtain ⟨sc1, sc2, sc3, sc4, sc5⟩ := ihF (pySortedByName sub.childList)
          (base ++ [e.1])
          ⟨fs1, st.rep ++ [pathStr (base ++ [e.1]) ++ "/"], false⟩ force rfl
          ⟨.nil, hlk1⟩
          (by
            intro e3 _
            rw [show (⟨fs1, st.rep ++ [pathStr (base ++ [e.1]) ++ "/"],
              false⟩ : St).fs = fs1 from rfl]
            rw [FDir.pathLookup, lookupPath_append]
            have hlk1N : (FNode.dir fs1).lookupPath (base ++ [e.1])
                = some (.dir .nil) := hlk1
            rw [hlk1N]
            simp [FNode.lookupPath, FDir.lookupName])
          (by
            intro e3 he3
            have hmem : e3 ∈ sub.childList :=
              (perm_pySortedByName sub.childList).mem_iff.mp he3
            obtain ⟨hv3, hvn3⟩ := mem_childList_valid hvald hmem
            have hnn3 := mem_childList_nodup hnodd hmem
            obtain ⟨hnt3, htm3⟩ := mem_childList_noTmpl hntd hmem
            have hsz3 := mem_childList_sizeN hmem
            exact ⟨hv3, hvn3, hnn3, hnt3, by omega, htm3⟩)
          (by
            have hp : List.Perm
                ((pySortedByName sub.childList).map Prod.fst)
                (sub.childList.map Prod.fst) :=
              (perm_pySortedByName _).map _
            refine hp.nodup_iff.mpr ?_
            have := nodupD_namesOf hnodd
            rwa [FDir.namesOf] at this)
          (dictRecurse none force false (base ++ [e.1])
            (exportDictF (F + 1) sub)
            ⟨fs1, st.rep ++ [pathStr (base ++ [e.1]) ++ "/"], false⟩)
          (by rw [hstruct])
        have hr3 : r = dictRecurse none force false base
            (listToSMap (rest.map (fun e =>
              (e.1, match e.2 with
                | .dir sub => SVal.map (exportDictF (F + 1) sub)
                | .file c => SVal.str c))))
            (dictRecurse none force false (base ++ [e.1])
              (exportDictF (F + 1) sub)
              ⟨fs1, st.rep ++ [pathStr (base ++ [e.1]) ++ "/"], false⟩) := by
          rw [hr]
          simp only [List.map_cons, listToSMap, e2]
          rw [dictRecurse, hstep0]
        have hne_rest : ∀ e2m ∈ rest, e2m.1 ≠ e.1 := by
          intro e2m hm hc
          exact hnotin (hc ▸ List.mem_map_of_mem Prod.fst hm)
        obtain ⟨rc1, rc2, rc3, rc4, rc5⟩ := ihrest base
          (dictRecurse none force false (base ++ [e.1])
            (exportDictF (F + 1) sub)
            ⟨fs1, st.rep ++ [pathStr (base ++ [e.1]) ++ "/"], false⟩) force
          sc1
          (by
            obtain ⟨y, hy⟩ := hB3 base cur hcur
            obtain ⟨z, hz⟩ := sc5 base y hy
            exact ⟨z, hz⟩)
          (by
            intro e2m hm
            rw [sc2 (base ++ [e2m.1])
              (snoc_not_prefix_snoc_ne (Ne.symm (hne_rest e2m hm)))
              (snoc_not_prefix_snoc_ne (hne_rest e2m hm))]
            rw [show (⟨fs1, st.rep ++ [pathStr (base ++ [e.1]) ++ "/"],
              false⟩ : St).fs = fs1 from rfl]
            rw [hB2 (base ++ [e2m.1])
              (snoc_not_prefix_snoc_ne (hne_rest e2m hm))]
            exact h3 e2m (List.mem_cons_of_mem e hm))
          (fun e2m hm => h4 e2m (List.mem_cons_of_mem e hm))
          hnodup_rest r hr3
        refine ⟨rc1, ?_, ?_, ?_, ?_⟩
        · intro q hq1 hq2
          have hq2' : ¬ q <+: base ++ [e.1] := by
            intro hp
            rcases prefix_snoc_cases hp with hp | hp
            · exact hq2 hp
            · subst hp
              exact hq1 ⟨[e.1], rfl⟩
          have hq1' : ¬ (base ++ [e.1]) <+: q := by
            intro hp
            exact hq1 (List.IsPrefix.trans ⟨[e.1], rfl⟩ hp)
          rw [rc2 q hq1 hq2, sc2 q hq1' hq2']
          rw [show (⟨fs1, st.rep ++ [pathStr (base ++ [e.1]) ++ "/"],
            false⟩ : St).fs = fs1 from rfl]
          exact hB2 q hq2'
        · intro e3 he3 rel
          rcases List.mem_cons.mp he3 with he3 | he3
          · rw [he3]
            rw [e2]
            rw [rc4 e.1 rel hnotin]
            cases rel with
            | nil =>
              have hsplit : base ++ [e.1] = base ++ e.1 :: ([] : List String) := by
                simp
              obtain ⟨y, hy⟩ := sc5 (base ++ [e.1]) .nil (by
                rw [show (⟨fs1, st.rep ++ [pathStr (base ++ [e.1]) ++ "/"],
                  false⟩ : St).fs = fs1 from rfl]
                exact hlk1)
              rw [← hsplit, hy]
              rfl
            | cons m rel2 =>
              have hsplit : base ++ e.1 :: m :: rel2 =
                  (base ++ [e.1]) ++ m :: rel2 := by simp
              rw [hsplit]
              by_cases hm : m ∈ sub.namesOf
              · obtain ⟨nd3, hnd3⟩ := mem_namesOf_lookupName hm
                have hmemc : (m, nd3) ∈ sub.childList :=
                  lookupName_mem_childList hnd3
                have hmems : (m, nd3) ∈ pySortedByName sub.childList :=
                  (perm_pySortedByName _).mem_iff.mpr hmemc
                have hshape := sc3 (m, nd3) hmems rel2
                rw [hshape]
                rw [show (FNode.dir sub).lookupPath (m :: rel2)
                  = nd3.lookupPath rel2 from by
                    rw [FNode.lookupPath, hnd3]]
              · have hnmem : m ∉ (pySortedByName sub.childList).map Prod.fst := by
                  intro hc
                  refine hm ?_
                  have hp : List.Perm
                      ((pySortedByName sub.childList).map Prod.fst)
                      (sub.childList.map Prod.fst) :=
                    (perm_pySortedByName _).map _
                  have := hp.mem_iff.mp hc
                  rwa [FDir.namesOf]
                rw [sc4 m rel2 hnmem]
                rw [show (⟨fs1, st.rep ++ [pathStr (base ++ [e.1]) ++ "/"],
                  false⟩ : St).fs = fs1 from rfl]
                rw [FDir.pathLookup, lookupPath_append]
                have hlk1N : (FNode.dir fs1).lookupPath (base ++ [e.1])
                    = some (.dir .nil) := hlk1
                rw [hlk1N]
                have hrhs : (FNode.dir sub).lookupPath (m :: rel2) = none := by
                  rw [FNode.lookupPath, lookupName_none_of_not_mem_namesOf hm]
                rw [hrhs]
                simp [FNode.lookupPath, FDir.lookupName]
          · exact rc3 e3 he3 rel
        · intro n rel hn
          simp at hn
          have hq2' : ¬ (base ++ n :: rel) <+: base ++ [e.1] :=
            cons_path_not_prefix_snoc hn.1
          have hq1' : ¬ (base ++ [e.1]) <+: base ++ n :: rel :=
            snoc_not_prefix_cons_path (Ne.symm hn.1)
          rw [rc4 n rel (by
            intro hc
            obtain ⟨x, hx⟩ : ∃ x, (n, x) ∈ rest := by simpa using hc
            exact hn.2 x hx)]
          rw [sc2 _ hq1' hq2']
          rw [show (⟨fs1, st.rep ++ [pathStr (base ++ [e.1]) ++ "/"],
            false⟩ : St).fs = fs1 from rfl]
          exact hB2 _ hq2'
        · intro q x hx
          obtain ⟨y, hy⟩ := hB3 q x hx
          obtain ⟨z, hz⟩ := sc5 q y (by
            rw [show (⟨fs1, st.rep ++ [pathStr (base ++ [e.1]) ++ "/"],
              false⟩ : St).fs = fs1 from rfl]
            exact hy)
          exact rc5 q z hz

/-- C2 counterexample: the claim quantifies over every tree of directories
and text-content files, but a tree holding a text file named
`__template__` is not reproduced: `export_dict` emits it as the key
`__template__` with a string value, which `build_from_dict`
(treefs.py:120-149) interprets as a template directive rather than a file
entry, so the round trip into an empty root drops the file (the build
still reports success). -/
theorem claim_C2_counterexample :
    (FDir.cons "__template__" (.file "x") .nil).validD = true ∧
    (FDir.cons "__template__" (.file "x") .nil).pathLookup ["__template__"] =
      some (.file "x") ∧
    (build_from_dict ["R"]
        (export_dict "proj" (.cons "__template__" (.file "x") .nil))
        false false none ⟨.cons "R" (.dir .nil) .nil, [], false⟩).err =
      false ∧
    (build_from_dict ["R"]
        (export_dict "proj" (.cons "__template__" (.file "x") .nil))
        false false none
        ⟨.cons "R" (.dir .nil) .nil, [], false⟩).fs.pathLookup
      ["R", "proj", "__template__"] = none := by
  refine ⟨by decide, by decide, by decide, by decide⟩

/-- C2 (amended): for every directory tree of directories and text-content
files in which no *file* is named `__template__` (names being plain
filesystem names), `export_dict` followed by `build_from_dict` into an
empty root succeeds and reproduces the tree under `root/rootName`:
at every relative path the result has the same shape — same files with
byte-identical contents, same directories, same absences. -/
theorem claim_C2_round_trip (d : FDir) (rootName : String) (R : List String)
    (fs0 : FDir) (force : Bool)
    (hv : d.validD = true) (hn : d.nodupD = true) (ht : d.noTmplD = true)
    (hrn : validNameB rootName = true)
    (hfs : fs0.pathLookup R = some (.dir .nil)) :
    (build_from_dict R (export_dict rootName d) force false none
      ⟨fs0, [], false⟩).err = false ∧
    ∀ rel, nodeShape ((build_from_dict R (export_dict rootName d) force false
      none ⟨fs0, [], false⟩).fs.pathLookup (R ++ rootName :: rel)) =
        nodeShape ((FNode.dir d).lookupPath rel) := by
  obtain ⟨F, hF⟩ : ∃ F, d.sizeD = F + 1 := by
    have := d.sizeD_pos
    exact ⟨d.sizeD - 1, by omega⟩
  rw [FDir.pathLookup] at hfs
  have habsN : (FNode.dir fs0).lookupPath (R ++ [rootName]) = none := by
    rw [lookupPath_append, hfs]
    simp [FNode.lookupPath, FDir.lookupName]
  obtain ⟨nd2, hmk, hlknd2⟩ := mkdirp_create_fresh hfs habsN
  obtain ⟨fs1, hfs1⟩ := mkdirp_dir_shape hmk
  subst hfs1
  have hmkF : fs0.mkdirp (R ++ [rootName]) = some fs1 :=
    FDir.mkdirp_some_iff.mpr hmk
  have hlk1 : fs1.pathLookup (R ++ [rootName]) = some (.dir .nil) := hlknd2
  have hjoin : pyJoin R rootName = R ++ [rootName] := pyJoin_valid hrn
  have hr0 : build_from_dict R (export_dict rootName d) force false none
      ⟨fs0, [], false⟩ =
      dictRecurse none force false (R ++ [rootName]) (exportDictF d.sizeD d)
        ⟨fs1, [pathStr (R ++ [rootName]) ++ "/"], false⟩ := by
    rw [build_from_dict, export_dict, dictRecurse, dictRecurse]
    simp only [dictStepVal]
    simp only [hjoin]
    rw [hmkF]
    simp
  have hstruct : exportDictF d.sizeD d =
      listToSMap ((pySortedByName d.childList).map (fun e =>
        (e.1, match e.2 with
          | .dir sub2 => SVal.map (exportDictF F sub2)
          | .file c2 => SVal.str c2))) := by
    rw [hF, exportDictF]
  obtain ⟨sc1, sc2, sc3, sc4, sc5⟩ := buildDict_export_sim F
    (pySortedByName d.childList) (R ++ [rootName])
    ⟨fs1, [pathStr (R ++ [rootName]) ++ "/"], false⟩ force rfl
    ⟨.nil, hlk1⟩
    (by
      intro e3 _
      rw [show (⟨fs1, [pathStr (R ++ [rootName]) ++ "/"],
        false⟩ : St).fs = fs1 from rfl]
      rw [FDir.pathLookup, lookupPath_append]
      have hlk1N : (FNode.dir fs1).lookupPath (R ++ [rootName])
          = some (.dir .nil) := hlk1
      rw [hlk1N]
      simp [FNode.lookupPath, FDir.lookupName])
    (by
      intro e3 he3
      have hmem : e3 ∈ d.childList :=
        (perm_pySortedByName d.childList).mem_iff.mp he3
      obtain ⟨hv3, hvn3⟩ := mem_childList_valid hv hmem
      have hnn3 := mem_childList_nodup hn hmem
      obtain ⟨hnt3, htm3⟩ := mem_childList_noTmpl ht hmem
      have hsz3 := mem_childList_sizeN hmem
      exact ⟨hv3, hvn3, hnn3, hnt3, by omega, htm3⟩)
    (by
      have hp : List.Perm
          ((pySortedByName d.childList).map Prod.fst)
          (d.childList.map Prod.fst) :=
        (perm_pySortedByName _).map _
      refine hp.nodup_iff.mpr ?_
      have := nodupD_namesOf hn
      rwa [FDir.namesOf] at this)
    (dictRecurse none force false (R ++ [rootName]) (exportDictF d.sizeD d)
      ⟨fs1, [pathStr (R ++ [rootName]) ++ "/"], false⟩)
    (by rw [hstruct])
  rw [hr0]
  refine ⟨sc1, ?_⟩
  intro rel
  cases rel with
  | nil =>
    obtain ⟨y, hy⟩ := sc5 (R ++ [rootName]) .nil (by
      rw [show (⟨fs1, [pathStr (R ++ [rootName]) ++ "/"],
        false⟩ : St).fs = fs1 from rfl]
      exact hlk1)
    rw [show R ++ rootName :: ([] : List String) = R ++ [rootName] from by
      simp]
    rw [hy]
    rfl
  | cons m rel2 =>
    have hsplit : R ++ rootName :: m :: rel2 =
        (R ++ [rootName]) ++ m :: rel2 := by simp
    rw [hsplit]
    by_cases hm : m ∈ d.namesOf
    · obtain ⟨nd3, hnd3⟩ := mem_namesOf_lookupName hm
      have hmemc : (m, nd3) ∈ d.childList :=
        lookupName_mem_childList hnd3
      have hmems : (m, nd3) ∈ pySortedByName d.childList :=
        (perm_pySortedByName _).mem_iff.mpr hmemc
      have hshape := sc3 (m, nd3) hmems rel2
      rw [hshape]
      rw [show (FNode.dir d).lookupPath (m :: rel2)
        = nd3.lookupPath rel2 from by
          rw [FNode.lookupPath, hnd3]]
    · have hnmem : m ∉ (pySortedByName d.childList).map Prod.fst := by
        intro hc
        refine hm ?_
        have hp : List.Perm
            ((pySortedByName d.childList).map Prod.fst)
            (d.childList.map Prod.fst) :=
          (perm_pySortedByName _).map _
        have := hp.mem_iff.mp hc
        rwa [FDir.namesOf]
      rw [sc4 m rel2 hnmem]
      rw [show (⟨fs1, [pathStr (R ++ [rootName]) ++ "/"],
        false⟩ : St).fs = fs1 from rfl]
      rw [FDir.pathLookup, lookupPath_append]
      have hlk1N : (FNode.dir fs1).lookupPath (R ++ [rootName])
          = some (.dir .nil) := hlk1
      rw [hlk1N]
      have hrhs : (FNode.dir d).lookupPath (m :: rel2) = none := by
        rw [FNode.lookupPath, lookupName_none_of_not_mem_namesOf hm]
      rw [hrhs]
      simp [FNode.lookupPath, FDir.lookupName]

/-- C2 witness: the amended round trip evaluated at the concrete tree
`{a: {b.txt: "hi"}}` exported as `proj` and rebuilt under the empty
root `R`. -/
theorem claim_C2_witness :
    (FDir.cons "a" (.dir (.cons "b.txt" (.file "hi") .nil)) .nil).validD
        = true ∧
    (FDir.cons "a" (.dir (.cons "b.txt" (.file "hi") .nil)) .nil).nodupD
        = true ∧
    (FDir.cons "a" (.dir (.cons "b.txt" (.file "hi") .nil)) .nil).noTmplD
        = true ∧
    validNameB "proj" = true ∧
    (FDir.cons "R" (.dir .nil) .nil).pathLookup ["R"] = some (.dir .nil) ∧
    nodeShape ((build_from_dict ["R"]
        (export_dict "proj"
          (.cons "a" (.dir (.cons "b.txt" (.file "hi") .nil)) .nil))
        false false none
        ⟨.cons "R" (.dir .nil) .nil, [], false⟩).fs.pathLookup
      (["R"] ++ "proj" :: ["a", "b.txt"])) =
      nodeShape ((FNode.dir
        (.cons "a" (.dir (.cons "b.txt" (.file "hi") .nil)) .nil)).lookupPath
        ["a", "b.txt"]) :=
  ⟨by decide, by decide, by decide, by decide, by decide,
    (claim_C2_round_trip
      (.cons "a" (.dir (.cons "b.txt" (.file "hi") .nil)) .nil) "proj" ["R"]
      (.cons "R" (.dir .nil) .nil) false (by decide) (by decide) (by decide)
      (by decide) (by decide)).2 ["a", "b.txt"]⟩

theorem rglobF_ne_nil {fuel : Nat} {d : FDir} {p : List String} {x : FNode}
    (h : (p, x) ∈ rglobF fuel d) : p ≠ [] := by
  match fuel with
  | 0 => simp [rglobF] at h
  | fuel + 1 =>
    rw [rglobF] at h
    rcases List.mem_append.mp h with h | h
    · obtain ⟨e, _, he⟩ := List.mem_map.mp h
      intro hc
      rw [← hc] at he
      simp at he
    · obtain ⟨e, _, he⟩ := List.mem_flatMap.mp h
      rcases e with ⟨n, nd⟩
      cases nd with
      | file c => simp at he
      | dir sub =>
        simp only [List.mem_map] at he
        obtain ⟨pr, _, hpr⟩ := he
        intro hc
        subst hc
        simp at hpr

theorem ensureParent_lookup_target {d d2 : FDir} {p : List String}
    (h : d.ensureParent p = some d2) : d2.pathLookup p = d.pathLookup p := by
  rcases ensureParent_cases h with he | ⟨hne, _, hmk⟩
  · subst he; rfl
  · have hmkN : (FNode.dir d).mkdirp p.dropLast = some (.dir d2) :=
      FDir.mkdirp_some_iff.mp hmk
    have hlen : p.dropLast.length < p.length := by
      have : p.length ≠ 0 := fun hc => hne (List.eq_nil_of_length_eq_zero hc)
      rw [List.length_dropLast]
      omega
    have hnp := length_not_prefix hlen
    exact mkdirp_lookupPath_other hmkN hnp

theorem ensureParent_locality {d d2 : FDir} {p q : List String}
    (h : d.ensureParent p = some d2) (hq : ¬ q <+: p) :
    d2.pathLookup q = d.pathLookup q := by
  rcases ensureParent_cases h with he | ⟨hne, _, hmk⟩
  · subst he; rfl
  · have hmkN : (FNode.dir d).mkdirp p.dropLast = some (.dir d2) :=
      FDir.mkdirp_some_iff.mp hmk
    refine mkdirp_lookupPath_other hmkN ?_
    intro hc
    have hdl := List.dropLast_prefix p
    exact hq (hc.trans hdl)

theorem tmplStepTree_err {root : List String} {force dry : Bool} {st : St}
    {a : List String × FNode} (h : st.err = true) :
    tmplStepTree root force dry st a = st := by
  simp [tmplStepTree, h]

theorem tmplFold_err_sticky {root : List String} {force dry : Bool} :
    ∀ (items : List (List String × FNode)) (st : St), st.err = true →
    items.foldl (tmplStepTree root force dry) st = st := by
  intro items
  induction items with
  | nil => intro st _; rfl
  | cons a rest ih =>
    intro st h
    rw [List.foldl_cons, tmplStepTree_err h]
    exact ih st h

theorem tmplStepTree_dir_eq {root : List String} {force : Bool} {st : St}
    {p : List String} {sub : FDir} {fs1 : FDir}
    (he : st.err = false)
    (hmk : st.fs.mkdirp (root ++ p) = some fs1) :
    tmplStepTree root force false st (p, FNode.dir sub) =
      ⟨fs1, st.rep ++ [pathStr (root ++ p) ++ "/"], false⟩ := by
  simp [tmplStepTree, he, hmk]

theorem tmplStepTree_dir_fail {root : List String} {force : Bool} {st : St}
    {p : List String} {sub : FDir}
    (he : st.err = false)
    (hmk : st.fs.mkdirp (root ++ p) = none) :
    tmplStepTree root force false st (p, FNode.dir sub) =
      ⟨st.fs, st.rep, true⟩ := by
  simp [tmplStepTree, he, hmk]

theorem tmplStepTree_file_ep_fail {root : List String} {force : Bool}
    {st : St} {p : List String} {c : String}
    (he : st.err = false)
    (hep : st.fs.ensureParent (root ++ p) = none) :
    tmplStepTree root force false st (p, FNode.file c) =
      ⟨st.fs, st.rep, true⟩ := by
  simp [tmplStepTree, he, hep]

theorem tmplStepTree_file_kept {root : List String} {force : Bool} {st : St}
    {p : List String} {c : String} {fs1 : FDir}
    (he : st.err = false)
    (hep : st.fs.ensureParent (root ++ p) = some fs1)
    (hk : ((fs1.pathLookup (root ++ p)).isSome && !force) = true) :
    tmplStepTree root force false st (p, FNode.file c) =
      ⟨fs1, st.rep ++ [pathStr (root ++ p) ++ " (template exists, kept)"],
        false⟩ := by
  simp [tmplStepTree, he, hep, hk]

theorem tmplStepTree_file_write {root : List String} {force : Bool} {st : St}
    {p : List String} {c : String} {fs1 fs2 : FDir}
    (he : st.err = false)
    (hep : st.fs.ensureParent (root ++ p) = some fs1)
    (hk : ((fs1.pathLookup (root ++ p)).isSome && !force) = false)
    (hw : fs1.writeText (root ++ p) c = some fs2) :
    tmplStepTree root force false st (p, FNode.file c) =
      ⟨fs2, st.rep ++ [pathStr (root ++ p)], false⟩ := by
  simp [tmplStepTree, he, hep, hk, hw]

theorem tmplStepTree_file_write_fail {root : List String} {force : Bool}
    {st : St} {p : List String} {c : String} {fs1 : FDir}
    (he : st.err = false)
    (hep : st.fs.ensureParent (root ++ p) = some fs1)
    (hk : ((fs1.pathLookup (root ++ p)).isSome && !force) = false)
    (hw : fs1.writeText (root ++ p) c = none) :
    tmplStepTree root force false st (p, FNode.file c) =
      ⟨fs1, st.rep, true⟩ := by
  simp [tmplStepTree, he, hep, hk, hw]

theorem tmplStepTree_locality {root : List String} {force : Bool} {st : St}
    {a : List String × FNode} {q : List String}
    (hq : ¬ q <+: root ++ a.1) :
    (tmplStepTree root force false st a).fs.pathLookup q =
      st.fs.pathLookup q := by
  by_cases he : st.err = true
  · rw [tmplStepTree_err he]
  · have he' : st.err = false := by simpa using he
    rcases a with ⟨p, nd⟩
    cases nd with
    | dir sub =>
      cases hmk : st.fs.mkdirp (root ++ p) with
      | none => rw [tmplStepTree_dir_fail he' hmk]
      | some fs1 =>
        rw [tmplStepTree_dir_eq he' hmk]
        exact mkdirp_lookupPath_other (FDir.mkdirp_some_iff.mp hmk) hq
    | file c =>
      cases hep : st.fs.ensureParent (root ++ p) with
      | none => rw [tmplStepTree_file_ep_fail he' hep]
      | some fs1 =>
        have hloc : fs1.pathLookup q = st.fs.pathLookup q :=
          ensureParent_locality hep hq
        cases hk : ((fs1.pathLookup (root ++ p)).isSome && !force) with
        | true =>
          rw [tmplStepTree_file_kept he' hep hk]
          exact hloc
        | false =>
          cases hw : fs1.writeText (root ++ p) c with
          | none =>
            rw [tmplStepTree_file_write_fail he' hep hk hw]
            exact hloc
          | some fs2 =>
            rw [tmplStepTree_file_write he' hep hk hw]
            rw [show (⟨fs2, st.rep ++ [pathStr (root ++ p)],
              false⟩ : St).fs.pathLookup q =
              (FNode.dir fs2).lookupPath q from rfl]
            rw [writeText_lookupPath_other (FDir.writeText_some_iff.mp hw) hq]
            exact hloc

theorem tmplStepTree_mono_dir {root : List String} {force : Bool} {st : St}
    {a : List String × FNode} {q : List String} {x : FDir}
    (hq : st.fs.pathLookup q = some (.dir x)) :
    ∃ y, (tmplStepTree root force false st a).fs.pathLookup q =
      some (.dir y) := by
  by_cases he : st.err = true
  · rw [tmplStepTree_err he]
    exact ⟨x, hq⟩
  · have he' : st.err = false := by simpa using he
    rcases a with ⟨p, nd⟩
    cases nd with
    | dir sub =>
      cases hmk : st.fs.mkdirp (root ++ p) with
      | none =>
        rw [tmplStepTree_dir_fail he' hmk]
        exact ⟨x, hq⟩
      | some fs1 =>
        rw [tmplStepTree_dir_eq he' hmk]
        exact mkdirp_mono_dir (FDir.mkdirp_some_iff.mp hmk) hq
    | file c =>
      cases hep : st.fs.ensureParent (root ++ p) with
      | none =>
        rw [tmplStepTree_file_ep_fail he' hep]
        exact ⟨x, hq⟩
      | some fs1 =>
        have hep1 : ∃ y, fs1.pathLookup q = some (.dir y) := by
          rcases ensureParent_cases hep with he1 | ⟨_, _, hmk⟩
          · subst he1
            exact ⟨x, hq⟩
          · exact mkdirp_mono_dir (FDir.mkdirp_some_iff.mp hmk) hq
        obtain ⟨y, hy⟩ := hep1
        cases hk : ((fs1.pathLookup (root ++ p)).isSome && !force) with
        | true =>
          rw [tmplStepTree_file_kept he' hep hk]
          exact ⟨y, hy⟩
        | false =>
          cases hw : fs1.writeText (root ++ p) c with
          | none =>
            rw [tmplStepTree_file_write_fail he' hep hk hw]
            exact ⟨y, hy⟩
          | some fs2 =>
            rw [tmplStepTree_file_write he' hep hk hw]
            exact writeText_mono_dir (FDir.writeText_some_iff.mp hw) hy

theorem tmplStepTree_rep_mono {root : List String} {force : Bool}
    {st : St} {a : List String × FNode} :
    ∃ ex, (tmplStepTree root force false st a).rep = st.rep ++ ex := by
  by_cases he : st.err = true
  · rw [tmplStepTree_err he]
    exact ⟨[], by simp⟩
  · have he' : st.err = false := by simpa using he
    rcases a with ⟨p, nd⟩
    cases nd with
    | dir sub =>
      cases hmk : st.fs.mkdirp (root ++ p) with
      | none =>
        rw [tmplStepTree_dir_fail he' hmk]
        exact ⟨[], by simp⟩
      | some fs1 =>
        rw [tmplStepTree_dir_eq he' hmk]
        exact ⟨_, rfl⟩
    | file c =>
      cases hep : st.fs.ensureParent (root ++ p) with
      | none =>
        rw [tmplStepTree_file_ep_fail he' hep]
        exact ⟨[], by simp⟩
      | some fs1 =>
        cases hk : ((fs1.pathLookup (root ++ p)).isSome && !force) with
        | true =>
          rw [tmplStepTree_file_kept he' hep hk]
          exact ⟨_, rfl⟩
        | false =>
          cases hw : fs1.writeText (root ++ p) c with
          | none =>
            rw [tmplStepTree_file_write_fail he' hep hk hw]
            exact ⟨[], by simp⟩
          | some fs2 =>
            rw [tmplStepTree_file_write he' hep hk hw]
            exact ⟨_, rfl⟩

theorem tmplFold_locality {root : List String} {force : Bool}
    {q : List String} :
    ∀ (items : List (List String × FNode)) (st : St),
    (∀ b ∈ items, ¬ q <+: root ++ b.1) →
    (items.foldl (tmplStepTree root force false) st).fs.pathLookup q =
      st.fs.pathLookup q := by
  intro items
  induction items with
  | nil => intro st _; rfl
  | cons a rest ih =>
    intro st h
    rw [List.foldl_cons]
    rw [ih (tmplStepTree root force false st a)
      (fun b hb => h b (List.mem_cons_of_mem a hb))]
    exact tmplStepTree_locality (h a (List.mem_cons_self a rest))

theorem tmplFold_mono_dir {root : List String} {force : Bool}
    {q : List String} :
    ∀ (items : List (List String × FNode)) (st : St) (x : FDir),
    st.fs.pathLookup q = some (.dir x) →
    ∃ y, (items.foldl (tmplStepTree root force false) st).fs.pathLookup q =
      some (.dir y) := by
  intro items
  induction items with
  | nil => intro st x hx; exact ⟨x, hx⟩
  | cons a rest ih =>
    intro st x hx
    rw [List.foldl_cons]
    obtain ⟨y, hy⟩ := @tmplStepTree_mono_dir root force st a q x hx
    exact ih (tmplStepTree root force false st a) y hy

theorem tmplFold_rep_mono {root : List String} {force : Bool} :
    ∀ (items : List (List String × FNode)) (st : St),
    ∃ ex, (items.foldl (tmplStepTree root force false) st).rep =
      st.rep ++ ex := by
  intro items
  induction items with
  | nil => intro st; exact ⟨[], by simp⟩
  | cons a rest ih =>
    intro st
    rw [List.foldl_cons]
    obtain ⟨ex1, hex1⟩ := @tmplStepTree_rep_mono root force st a
    obtain ⟨ex2, hex2⟩ := ih (tmplStepTree root force false st a)
    exact ⟨ex1 ++ ex2, by rw [hex2, hex1, List.append_assoc]⟩

theorem rglobF_pr_ne_nil {fuel : Nat} {d : FDir}
    {pr : List String × FNode} (h : pr ∈ rglobF fuel d) : pr.1 ≠ [] := by
  rcases pr with ⟨p, x⟩
  exact rglobF_ne_nil h

/-- An `rglob` listing of a directory with distinct sibling names is
pairwise separated: no later path is a prefix of an earlier one, and no
file's path is a prefix of any later path. -/
theorem rglobF_pairwise : ∀ (fuel : Nat) (d : FDir), d.nodupD = true →
    List.Pairwise rglobSep (rglobF fuel d) := by
  intro fuel
  induction fuel with
  | zero => intro d _; simp [rglobF]
  | succ fuel ihF =>
    intro d hnd
    rw [rglobF]
    have hnames : (d.childList.map Prod.fst).Nodup := by
      have := nodupD_namesOf hnd
      rwa [FDir.namesOf] at this
    have hsubnodup : ∀ e ∈ d.childList, e.2.nodupN = true :=
      fun e he => mem_childList_nodup hnd he
    have hA : List.Pairwise rglobSep
        (d.childList.map (fun e => ([e.1], e.2))) := by
      rw [List.pairwise_map]
      have hp : List.Pairwise (fun e1 e2 : String × FNode => ¬ e1.1 = e2.1)
          d.childList := List.pairwise_map.mp hnames
      refine hp.imp ?_
      intro e1 e2 hne
      constructor
      · intro hpre
        have hpre' : [e2.1] <+: [e1.1] := hpre
        rw [List.cons_prefix_cons] at hpre'
        exact hne hpre'.1.symm
      · intro c _ hpre
        have hpre' : [e1.1] <+: [e2.1] := hpre
        rw [List.cons_prefix_cons] at hpre'
        exact hne hpre'.1
    have hB : ∀ l : List (String × FNode), (l.map Prod.fst).Nodup →
        (∀ e ∈ l, e.2.nodupN = true) →
        List.Pairwise rglobSep (l.flatMap (fun e =>
          match e.2 with
          | FNode.dir sub =>
            (rglobF fuel sub).map (fun pr => (e.1 :: pr.1, pr.2))
          | FNode.file _ => [])) := by
      intro l
      induction l with
      | nil => intro _ _; simp
      | cons e rest ihl =>
        intro hnd2 hsub
        rw [List.flatMap_cons, List.pairwise_append]
        refine ⟨?_, ?_, ?_⟩
        · rcases e with ⟨n, nd⟩
          cases nd with
          | file c => exact List.Pairwise.nil
          | dir sub =>
            show List.Pairwise rglobSep
              ((rglobF fuel sub).map (fun pr => (n :: pr.1, pr.2)))
            rw [List.pairwise_map]
            have hnds : sub.nodupD = true := by
              have h0 := hsub (n, FNode.dir sub) (List.mem_cons_self _ _)
              have h1 : (FNode.dir sub).nodupN = true := h0
              rwa [FNode.nodupN] at h1
            refine (ihF sub hnds).imp ?_
            intro a b hab
            constructor
            · intro hpre
              have hpre' : n :: b.1 <+: n :: a.1 := hpre
              rw [List.cons_prefix_cons] at hpre'
              exact hab.1 hpre'.2
            · intro c hc hpre
              have hc' : a.2 = FNode.file c := hc
              have hpre' : n :: a.1 <+: n :: b.1 := hpre
              rw [List.cons_prefix_cons] at hpre'
              exact hab.2 c hc' hpre'.2
        · refine ihl ?_ (fun e2 he2 => hsub e2 (List.mem_cons_of_mem _ he2))
          rw [List.map_cons] at hnd2
          exact (List.nodup_cons.mp hnd2).2
        · intro a ha b hb
          rcases e with ⟨n, nd⟩
          cases nd with
          | file c =>
            have ha' : a ∈ ([] : List (List String × FNode)) := ha
            simp at ha'
          | dir sub =>
            have ha' : a ∈ (rglobF fuel sub).map
              (fun pr => (n :: pr.1, pr.2)) := ha
            obtain ⟨pr, hprm, hpr⟩ := List.mem_map.mp ha'
            obtain ⟨e2, he2m, hbe⟩ := List.mem_flatMap.mp hb
            have hne : ¬ n = e2.1 := by
              intro hc
              have hmem : e2.1 ∈ rest.map Prod.fst :=
                List.mem_map_of_mem Prod.fst he2m
              rw [← hc] at hmem
              rw [List.map_cons] at hnd2
              exact (List.nodup_cons.mp hnd2).1 hmem
            rcases e2 with ⟨n2, nd2⟩
            cases nd2 with
            | file c2 =>
              have hbe' : b ∈ ([] : List (List String × FNode)) := hbe
              simp at hbe'
            | dir sub2 =>
              have hbe' : b ∈ (rglobF fuel sub2).map
                (fun pr => (n2 :: pr.1, pr.2)) := hbe
              obtain ⟨pb, hpbm, hpb⟩ := List.mem_map.mp hbe'
              subst hpr
              subst hpb
              constructor
              · intro hpre
                have hpre' : n2 :: pb.1 <+: n :: pr.1 := hpre
                rw [List.cons_prefix_cons] at hpre'
                exact hne hpre'.1.symm
              · intro c hc hpre
                have hpre' : n :: pr.1 <+: n2 :: pb.1 := hpre
                rw [List.cons_prefix_cons] at hpre'
                exact hne hpre'.1
    have hC : ∀ a ∈ d.childList.map (fun e => ([e.1], e.2)),
        ∀ b ∈ d.childList.flatMap (fun e =>
          match e.2 with
          | FNode.dir sub =>
            (rglobF fuel sub).map (fun pr => (e.1 :: pr.1, pr.2))
          | FNode.file _ => []), rglobSep a b := by
      intro a ha b hb
      obtain ⟨ea, heam, hea⟩ := List.mem_map.mp ha
      obtain ⟨eb, hebm, hbe⟩ := List.mem_flatMap.mp hb
      rcases eb with ⟨nb, ndb⟩
      cases ndb with
      | file c =>
        have hbe' : b ∈ ([] : List (List String × FNode)) := hbe
        simp at hbe'
      | dir subb =>
        have hbe' : b ∈ (rglobF fuel subb).map
          (fun pr => (nb :: pr.1, pr.2)) := hbe
        obtain ⟨pb, hpbm, hpb⟩ := List.mem_map.mp hbe'
        subst hea
        subst hpb
        constructor
        · intro hpre
          have hpre' : nb :: pb.1 <+: [ea.1] := hpre
          rw [List.cons_prefix_cons] at hpre'
          exact absurd (List.prefix_nil.mp hpre'.2) (rglobF_pr_ne_nil hpbm)
        · intro c hc hpre
          have hc' : ea.2 = FNode.file c := hc
          have hpre' : [ea.1] <+: nb :: pb.1 := hpre
          rw [List.cons_prefix_cons] at hpre'
          have heq : ea = (nb, FNode.dir subb) :=
            List.inj_on_of_nodup_map hnames heam hebm (by rw [hpre'.1])
          rw [heq] at hc'
          simp at hc'
    rw [List.pairwise_append]
    exact ⟨hA, hB d.childList hnames hsubnodup, hC⟩

/-- Behaviour of the template copy loop of `build_from_tree` on a list of
`rglob` items (ancestors before descendants, pairwise separated): when
the fold ends without error, every directory item exists as a directory
at `root ++ rel`, and every file item was either kept (when its
destination existed beforehand and `force` is off) or byte-copied. -/
theorem tmplFold_spec : ∀ (items : List (List String × FNode))
    (root : List String) (force : Bool) (st : St),
    List.Pairwise rglobSep items →
    (items.foldl (tmplStepTree root force false) st).err = false →
    ∀ item ∈ items,
      (∀ sub, item.2 = FNode.dir sub →
        ∃ y, (items.foldl (tmplStepTree root force false) st).fs.pathLookup
          (root ++ item.1) = some (.dir y)) ∧
      (∀ c, item.2 = FNode.file c →
        if ((st.fs.pathLookup (root ++ item.1)).isSome && !force) = true then
          (items.foldl (tmplStepTree root force false) st).fs.pathLookup
              (root ++ item.1) = st.fs.pathLookup (root ++ item.1) ∧
            pathStr (root ++ item.1) ++ " (template exists, kept)" ∈
              (items.foldl (tmplStepTree root force false) st).rep
        else
          (items.foldl (tmplStepTree root force false) st).fs.pathLookup
              (root ++ item.1) = some (.file c) ∧
            pathStr (root ++ item.1) ∈
              (items.foldl (tmplStepTree root force false) st).rep) := by
  intro items
  induction items with
  | nil =>
    intro root force st _ _ item hmem
    simp at hmem
  | cons a rest ih =>
    intro root force st hpw hr item hmem
    rcases a with ⟨p, nd⟩
    rw [List.foldl_cons] at hr ⊢
    obtain ⟨st1, hst1⟩ : ∃ s, tmplStepTree root force false st (p, nd) = s :=
      ⟨_, rfl⟩
    rw [hst1] at hr ⊢
    have hcr : ∀ b ∈ rest, rglobSep (p, nd) b := (List.pairwise_cons.mp hpw).1
    have hpwr : List.Pairwise rglobSep rest := (List.pairwise_cons.mp hpw).2
    have hstE : st.err = false := by
      cases hse : st.err with
      | false => rfl
      | true =>
        exfalso
        rw [tmplStepTree_err hse] at hst1
        rw [← hst1] at hr
        rw [tmplFold_err_sticky rest st hse] at hr
        rw [hse] at hr
        simp at hr
    have hst1E : st1.err = false := by
      cases hse : st1.err with
      | false => rfl
      | true =>
        exfalso
        rw [tmplFold_err_sticky rest st1 hse] at hr
        rw [hse] at hr
        simp at hr
    rcases List.mem_cons.mp hmem with hitem | hitem
    case _ =>
      -- item is the head (p, nd)
      obtain ⟨hi1, hi2⟩ : item.1 = p ∧ item.2 = nd := by
        rw [hitem]; exact ⟨rfl, rfl⟩
      rw [hi1, hi2]
      cases nd with
      | dir sub =>
        cases hmk : st.fs.mkdirp (root ++ p) with
        | none =>
          exfalso
          rw [tmplStepTree_dir_fail hstE hmk] at hst1
          rw [← hst1] at hst1E
          simp at hst1E
        | some fs1 =>
          have hst1' : st1 = ⟨fs1, st.rep ++ [pathStr (root ++ p) ++ "/"],
              false⟩ := by
            rw [← hst1, tmplStepTree_dir_eq hstE hmk]
          have hdir1 : ∃ y0, st1.fs.pathLookup (root ++ p)
              = some (.dir y0) := by
            rw [hst1']
            exact mkdirp_prefix_dir (FDir.mkdirp_some_iff.mp hmk)
              (List.prefix_refl _)
          refine ⟨?_, ?_⟩
          · intro sub2 _
            obtain ⟨y0, hy0⟩ := hdir1
            exact tmplFold_mono_dir rest st1 y0 hy0
          · intro c hc
            exact absurd hc (by simp)
      | file c0 =>
        cases hep : st.fs.ensureParent (root ++ p) with
        | none =>
          exfalso
          rw [tmplStepTree_file_ep_fail hstE hep] at hst1
          rw [← hst1] at hst1E
          simp at hst1E
        | some fs1 =>
          have htgt : fs1.pathLookup (root ++ p)
              = st.fs.pathLookup (root ++ p) := ensureParent_lookup_target hep
          have hqf : ∀ b ∈ rest, ¬ (root ++ p) <+: (root ++ b.1) := by
            intro b hb hpre
            exact (hcr b hb).2 c0 rfl
              ((List.prefix_append_right_inj root).mp hpre)
          cases hk : ((fs1.pathLookup (root ++ p)).isSome && !force) with
          | true =>
            have hst1' : st1 = ⟨fs1, st.rep ++
                [pathStr (root ++ p) ++ " (template exists, kept)"],
                false⟩ := by
              rw [← hst1, tmplStepTree_file_kept hstE hep hk]
            have hkS : ((st.fs.pathLookup (root ++ p)).isSome && !force)
                = true := by rw [← htgt]; exact hk
            refine ⟨?_, ?_⟩
            · intro sub2 hs2
              exact absurd hs2 (by simp)
            · intro c hc
              rw [if_pos hkS]
              constructor
              · rw [tmplFold_locality rest st1 hqf, hst1']
                exact htgt
              · obtain ⟨ex, hex⟩ := tmplFold_rep_mono rest st1
                rw [hex, hst1']
                rw [show (⟨fs1, st.rep ++
                  [pathStr (root ++ p) ++ " (template exists, kept)"],
                  false⟩ : St).rep = st.rep ++
                  [pathStr (root ++ p) ++ " (template exists, kept)"]
                  from rfl]
                simp
          | false =>
            cases hw : fs1.writeText (root ++ p) c0 with
            | none =>
              exfalso
              rw [tmplStepTree_file_write_fail hstE hep hk hw] at hst1
              rw [← hst1] at hst1E
              simp at hst1E
            | some fs2 =>
              have hst1' : st1 = ⟨fs2, st.rep ++ [pathStr (root ++ p)],
                  false⟩ := by
                rw [← hst1, tmplStepTree_file_write hstE hep hk hw]
              have hkS : ((st.fs.pathLookup (root ++ p)).isSome && !force)
                  = false := by rw [← htgt]; exact hk
              refine ⟨?_, ?_⟩
              · intro sub2 hs2
                exact absurd hs2 (by simp)
              · intro c hc
                have hc' : FNode.file c0 = FNode.file c := hc
                injection hc' with hcc
                subst hcc
                rw [if_neg (by simp [hkS])]
                constructor
                · rw [tmplFold_locality rest st1 hqf, hst1']
                  rw [show (⟨fs2, st.rep ++ [pathStr (root ++ p)],
                    false⟩ : St).fs.pathLookup (root ++ p) =
                    (FNode.dir fs2).lookupPath (root ++ p) from rfl]
                  exact writeText_lookupPath_self
                    (FDir.writeText_some_iff.mp hw)
                · obtain ⟨ex, hex⟩ := tmplFold_rep_mono rest st1
                  rw [hex, hst1']
                  rw [show (⟨fs2, st.rep ++ [pathStr (root ++ p)],
                    false⟩ : St).rep = st.rep ++ [pathStr (root ++ p)]
                    from rfl]
                  simp
    case _ =>
      -- item is in the tail
      have hX : ¬ (root ++ item.1) <+: (root ++ p) := by
        intro hpre
        exact (hcr item hitem).1 ((List.prefix_append_right_inj root).mp hpre)
      have hconv : st1.fs.pathLookup (root ++ item.1) =
          st.fs.pathLookup (root ++ item.1) := by
        cases nd with
        | dir sub =>
          cases hmk : st.fs.mkdirp (root ++ p) with
          | none =>
            exfalso
            rw [tmplStepTree_dir_fail hstE hmk] at hst1
            rw [← hst1] at hst1E
            simp at hst1E
          | some fs1 =>
            have hst1' : st1 = ⟨fs1,
                st.rep ++ [pathStr (root ++ p) ++ "/"], false⟩ := by
              rw [← hst1, tmplStepTree_dir_eq hstE hmk]
            rw [hst1']
            exact mkdirp_lookupPath_other (FDir.mkdirp_some_iff.mp hmk) hX
        | file c0 =>
          cases hep : st.fs.ensureParent (root ++ p) with
          | none =>
            exfalso
            rw [tmplStepTree_file_ep_fail hstE hep] at hst1
            rw [← hst1] at hst1E
            simp at hst1E
          | some fs1 =>
            have heploc : fs1.pathLookup (root ++ item.1)
                = st.fs.pathLookup (root ++ item.1) :=
              ensureParent_locality hep hX
            cases hk : ((fs1.pathLookup (root ++ p)).isSome && !force) with
            | true =>
              have hst1' : st1 = ⟨fs1, st.rep ++
                  [pathStr (root ++ p) ++ " (template exists, kept)"],
                  false⟩ := by
                rw [← hst1, tmplStepTree_file_kept hstE hep hk]
              rw [hst1']
              exact heploc
            | false =>
              cases hw : fs1.writeText (root ++ p) c0 with
              | none =>
                exfalso
                rw [tmplStepTree_file_write_fail hstE hep hk hw] at hst1
                rw [← hst1] at hst1E
                simp at hst1E
              | some fs2 =>
                have hst1' : st1 = ⟨fs2,
                    st.rep ++ [pathStr (root ++ p)], false⟩ := by
                  rw [← hst1, tmplStepTree_file_write hstE hep hk hw]
                rw [hst1']
                rw [show (⟨fs2, st.rep ++ [pathStr (root ++ p)],
                  false⟩ : St).fs.pathLookup (root ++ item.1) =
                  (FNode.dir fs2).lookupPath (root ++ item.1) from rfl]
                rw [writeText_lookupPath_other
                  (FDir.writeText_some_iff.mp hw) hX]
                exact heploc
      obtain ⟨ihd, ihf⟩ := ih root force st1 hpwr hr item hitem
      refine ⟨ihd, ?_⟩
      intro c hc
      have hres := ihf c hc
      rw [hconv] at hres
      exact hres

/-- C9: for tree-text input with a supplied templates directory that
exists on disk after the line phase, a successful Apply-mode run copies
every entry under the templates directory into the target root at its
relative path — independent of what the tree text declares (`lines`,
`root` and the starting state are arbitrary): template directories become
directories, template files follow the KeepExisting/Overwrite policy
(kept with a `(template exists, kept)` record when the destination
already existed and `force` is off, byte-copied with a record
otherwise). -/
theorem claim_C9_templates_copied (lines : List String)
    (root tdir : List String) (force : Bool) (st0 : St) (tsub : FDir)
    (htd : (buildTreeLines lines root force false st0).fs.pathLookup tdir =
      some (.dir tsub))
    (hnodup : tsub.nodupD = true)
    (hr : (build_from_tree lines root force false (some tdir) st0).err =
      false) :
    ∀ item ∈ tsub.rglob,
      (∀ sub, item.2 = FNode.dir sub →
        ∃ y, (build_from_tree lines root force false (some tdir)
          st0).fs.pathLookup (root ++ item.1) = some (.dir y)) ∧
      (∀ c, item.2 = FNode.file c →
        if (((buildTreeLines lines root force false st0).fs.pathLookup
            (root ++ item.1)).isSome && !force) = true then
          (build_from_tree lines root force false (some tdir)
              st0).fs.pathLookup (root ++ item.1) =
            (buildTreeLines lines root force false st0).fs.pathLookup
              (root ++ item.1) ∧
          pathStr (root ++ item.1) ++ " (template exists, kept)" ∈
            (build_from_tree lines root force false (some tdir) st0).rep
        else
          (build_from_tree lines root force false (some tdir)
              st0).fs.pathLookup (root ++ item.1) = some (.file c) ∧
          pathStr (root ++ item.1) ∈
            (build_from_tree lines root force false (some tdir) st0).rep) := by
  have hs1E : (buildTreeLines lines root force false st0).err = false := by
    cases hse : (buildTreeLines lines root force false st0).err with
    | false => rfl
    | true =>
      exfalso
      have hbt : build_from_tree lines root force false (some tdir) st0 =
          buildTreeLines lines root force false st0 := by
        simp [build_from_tree, hse]
      rw [hbt, hse] at hr
      simp at hr
  have hbt : build_from_tree lines root force false (some tdir) st0 =
      tsub.rglob.foldl (tmplStepTree root force false)
        (buildTreeLines lines root force false st0) := by
    simp [build_from_tree, hs1E, htd]
  rw [hbt] at hr ⊢
  exact tmplFold_spec tsub.rglob root force
    (buildTreeLines lines root force false st0)
    (by rw [FDir.rglob]; exact rglobF_pairwise tsub.sizeD tsub hnodup) hr

/-- C9 witness: a concrete run with empty tree text and a templates
directory `T` holding `d/f.txt`; the file is copied to `R/d/f.txt`. -/
theorem claim_C9_witness :
    (buildTreeLines [] ["R"] false false
        ⟨.cons "T" (.dir (.cons "d" (.dir (.cons "f.txt" (.file "hello")
          .nil)) .nil)) (.cons "R" (.dir .nil) .nil), [],
          false⟩).fs.pathLookup ["T"] =
      some (.dir (.cons "d" (.dir (.cons "f.txt" (.file "hello") .nil))
        .nil)) ∧
    (FDir.cons "d" (.dir (.cons "f.txt" (.file "hello") .nil))
      .nil).nodupD = true ∧
    (build_from_tree [] ["R"] false false (some ["T"])
      ⟨.cons "T" (.dir (.cons "d" (.dir (.cons "f.txt" (.file "hello")
        .nil)) .nil)) (.cons "R" (.dir .nil) .nil), [], false⟩).err =
      false ∧
    (if (((buildTreeLines [] ["R"] false false
        ⟨.cons "T" (.dir (.cons "d" (.dir (.cons "f.txt" (.file "hello")
          .nil)) .nil)) (.cons "R" (.dir .nil) .nil), [],
          false⟩).fs.pathLookup (["R"] ++ ["d", "f.txt"])).isSome &&
        !false) = true then
      (build_from_tree [] ["R"] false false (some ["T"])
          ⟨.cons "T" (.dir (.cons "d" (.dir (.cons "f.txt" (.file "hello")
            .nil)) .nil)) (.cons "R" (.dir .nil) .nil), [],
            false⟩).fs.pathLookup (["R"] ++ ["d", "f.txt"]) =
        (buildTreeLines [] ["R"] false false
          ⟨.cons "T" (.dir (.cons "d" (.dir (.cons "f.txt" (.file "hello")
            .nil)) .nil)) (.cons "R" (.dir .nil) .nil), [],
            false⟩).fs.pathLookup (["R"] ++ ["d", "f.txt"]) ∧
      pathStr (["R"] ++ ["d", "f.txt"]) ++ " (template exists, kept)" ∈
        (build_from_tree [] ["R"] false false (some ["T"])
          ⟨.cons "T" (.dir (.cons "d" (.dir (.cons "f.txt" (.file "hello")
            .nil)) .nil)) (.cons "R" (.dir .nil) .nil), [], false⟩).rep
    else
      (build_from_tree [] ["R"] false false (some ["T"])
          ⟨.cons "T" (.dir (.cons "d" (.dir (.cons "f.txt" (.file "hello")
            .nil)) .nil)) (.cons "R" (.dir .nil) .nil), [],
            false⟩).fs.pathLookup (["R"] ++ ["d", "f.txt"]) =
        some (.file "hello") ∧
      pathStr (["R"] ++ ["d", "f.txt"]) ∈
        (build_from_tree [] ["R"] false false (some ["T"])
          ⟨.cons "T" (.dir (.cons "d" (.dir (.cons "f.txt" (.file "hello")
            .nil)) .nil)) (.cons "R" (.dir .nil) .nil), [], false⟩).rep) :=
  ⟨by decide, by decide, by decide,
    (claim_C9_templates_copied [] ["R"] ["T"] false
      ⟨.cons "T" (.dir (.cons "d" (.dir (.cons "f.txt" (.file "hello")
        .nil)) .nil)) (.cons "R" (.dir .nil) .nil), [], false⟩
      (.cons "d" (.dir (.cons "f.txt" (.file "hello") .nil)) .nil)
      (by decide) (by decide) (by decide)
      (["d", "f.txt"], FNode.file "hello") (by decide)).2 "hello" rfl⟩

theorem pyEndsWith_append_self {a b : String} :
    pyEndsWith (a ++ b) b = true := by
  rw [pyEndsWith, String.data_append]
  exact List.isSuffixOf_iff_suffix.mpr ⟨a.data, rfl⟩

theorem repIsDirOrKept_slash {x : String} :
    repIsDirOrKept (x ++ "/") = true := by
  rw [repIsDirOrKept, pyEndsWith_append_self]
  rfl

theorem repIsDirOrKept_kept {x : String} :
    repIsDirOrKept (x ++ " (exists, kept)") = true := by
  rw [repIsDirOrKept, pyEndsWith_append_self]
  simp

theorem fileTargetStep_ep_fail {force dry : Bool} {path : List String}
    {content : String} {st : St}
    (hep : st.fs.ensureParent path = none) :
    fileTargetStep force dry path content st = ⟨st.fs, st.rep, true⟩ := by
  simp [fileTargetStep, hep]

theorem fileTargetStep_keptB {force dry : Bool} {path : List String}
    {content : String} {st : St} {fs1 : FDir}
    (hep : st.fs.ensureParent path = some fs1)
    (hk : ((fs1.pathLookup path).isSome && !force) = true) :
    fileTargetStep force dry path content st =
      ⟨fs1, st.rep ++ [pathStr path ++ " (exists, kept)"], st.err⟩ := by
  simp [fileTargetStep, hep, hk]

theorem fileTargetStep_writeB {force : Bool} {path : List String}
    {content : String} {st : St} {fs1 fs2 : FDir}
    (hep : st.fs.ensureParent path = some fs1)
    (hk : ((fs1.pathLookup path).isSome && !force) = false)
    (hw : fs1.writeText path content = some fs2) :
    fileTargetStep force false path content st =
      ⟨fs2, st.rep ++ [pathStr path], st.err⟩ := by
  simp [fileTargetStep, hep, hk, hw]

theorem fileTargetStep_writeB_fail {force : Bool} {path : List String}
    {content : String} {st : St} {fs1 : FDir}
    (hep : st.fs.ensureParent path = some fs1)
    (hk : ((fs1.pathLookup path).isSome && !force) = false)
    (hw : fs1.writeText path content = none) :
    fileTargetStep force false path content st = ⟨fs1, st.rep, true⟩ := by
  simp [fileTargetStep, hep, hk, hw]

theorem fileTargetStep_dryB {force : Bool} {path : List String}
    {content : String} {st : St} {fs1 : FDir}
    (hep : st.fs.ensureParent path = some fs1)
    (hk : ((fs1.pathLookup path).isSome && !force) = false) :
    fileTargetStep force true path content st =
      ⟨fs1, st.rep ++ [pathStr path ++ " (would create file)"],
        st.err⟩ := by
  simp [fileTargetStep, hep, hk]

theorem ensureParent_mono_exists {st : St} {path q : List String}
    {fs1 : FDir} (hep : st.fs.ensureParent path = some fs1)
    (h : (st.fs.pathLookup q).isSome = true) :
    (fs1.pathLookup q).isSome = true := by
  rcases ensureParent_cases hep with he1 | ⟨_, _, hmk⟩
  · subst he1; exact h
  · obtain ⟨w, hw⟩ := Option.isSome_iff_exists.mp h
    exact mkdirp_mono_exists (FDir.mkdirp_some_iff.mp hmk)
      (by rw [show st.fs.pathLookup q = (FNode.dir st.fs).lookupPath q
        from rfl] at hw; simp [hw])

theorem ensureParent_mono_dir {st : St} {path q : List String}
    {fs1 x : FDir} (hep : st.fs.ensureParent path = some fs1)
    (h : st.fs.pathLookup q = some (.dir x)) :
    ∃ y, fs1.pathLookup q = some (.dir y) := by
  rcases ensureParent_cases hep with he1 | ⟨_, _, hmk⟩
  · subst he1; exact ⟨x, h⟩
  · exact mkdirp_mono_dir (FDir.mkdirp_some_iff.mp hmk) h

theorem fileTargetStep_mono_exists {force dry : Bool} {path : List String}
    {content : String} {st : St} {q : List String}
    (h : ((st.fs.pathLookup q).isSome) = true) :
    ((fileTargetStep force dry path content st).fs.pathLookup q).isSome
      = true := by
  cases hep : st.fs.ensureParent path with
  | none =>
    rw [fileTargetStep_ep_fail hep]
    exact h
  | some fs1 =>
    have h1 := ensureParent_mono_exists hep h
    by_cases hk : ((fs1.pathLookup path).isSome && !force) = true
    · rw [fileTargetStep_keptB hep hk]
      exact h1
    · have hk' : ((fs1.pathLookup path).isSome && !force) = false := by
        simpa using hk
      cases hd : dry with
      | true =>
        rw [fileTargetStep_dryB hep hk']
        exact h1
      | false =>
        cases hw : fs1.writeText path content with
        | none =>
          rw [fileTargetStep_writeB_fail hep hk' hw]
          exact h1
        | some fs2 =>
          rw [fileTargetStep_writeB hep hk' hw]
          obtain ⟨w, hw1⟩ := Option.isSome_iff_exists.mp h1
          exact writeText_mono_exists (FDir.writeText_some_iff.mp hw)
            (by rw [show fs1.pathLookup q = (FNode.dir fs1).lookupPath q
              from rfl] at hw1; simp [hw1])

theorem fileTargetStep_mono_dir {force dry : Bool} {path : List String}
    {content : String} {st : St} {q : List String} {x : FDir}
    (h : st.fs.pathLookup q = some (.dir x)) :
    ∃ y, (fileTargetStep force dry path content st).fs.pathLookup q
      = some (.dir y) := by
  cases hep : st.fs.ensureParent path with
  | none =>
    rw [fileTargetStep_ep_fail hep]
    exact ⟨x, h⟩
  | some fs1 =>
    obtain ⟨y, hy⟩ := ensureParent_mono_dir hep h
    by_cases hk : ((fs1.pathLookup path).isSome && !force) = true
    · rw [fileTargetStep_keptB hep hk]
      exact ⟨y, hy⟩
    · have hk' : ((fs1.pathLookup path).isSome && !force) = false := by
        simpa using hk
      cases hd : dry with
      | true =>
        rw [fileTargetStep_dryB hep hk']
        exact ⟨y, hy⟩
      | false =>
        cases hw : fs1.writeText path content with
        | none =>
          rw [fileTargetStep_writeB_fail hep hk' hw]
          exact ⟨y, hy⟩
        | some fs2 =>
          rw [fileTargetStep_writeB hep hk' hw]
          exact writeText_mono_dir (FDir.writeText_some_iff.mp hw) hy

theorem fileTargetStep_target_exists {force : Bool} {path : List String}
    {content : String} {st : St}
    (herr : (fileTargetStep force false path content st).err = false) :
    ((fileTargetStep force false path content st).fs.pathLookup path).isSome
      = true := by
  cases hep : st.fs.ensureParent path with
  | none =>
    rw [fileTargetStep_ep_fail hep] at herr
    simp at herr
  | some fs1 =>
    by_cases hk : ((fs1.pathLookup path).isSome && !force) = true
    · rw [fileTargetStep_keptB hep hk]
      exact Bool.and_elim_left hk
    · have hk' : ((fs1.pathLookup path).isSome && !force) = false := by
        simpa using hk
      cases hw : fs1.writeText path content with
      | none =>
        rw [fileTargetStep_writeB_fail hep hk' hw] at herr
        simp at herr
      | some fs2 =>
        rw [fileTargetStep_writeB hep hk' hw]
        have hself := writeText_lookupPath_self (FDir.writeText_some_iff.mp hw)
        rw [show (⟨fs2, st.rep ++ [pathStr path], st.err⟩ : St).fs.pathLookup
          path = (FNode.dir fs2).lookupPath path from rfl]
        rw [hself]
        rfl

theorem treeLineStep_err {root : List String} {force dry : Bool} {st : St}
    {raw : String} (h : st.err = true) :
    treeLineStep root force dry st raw = st := by
  simp [treeLineStep, h]

theorem treeLineStep_skipA {root : List String} {force dry : Bool} {st : St}
    {raw : String} (h : pyRstrip raw = "") :
    treeLineStep root force dry st raw = st := by
  by_cases he : st.err = true
  · simp [treeLineStep, he]
  · have he' : st.err = false := by simpa using he
    simp [treeLineStep, he', h]

theorem treeLineStep_skipB {root : List String} {force dry : Bool} {st : St}
    {raw : String}
    (h : pyStartsWith (pyLower (pyRstrip raw)) "project" = true) :
    treeLineStep root force dry st raw = st := by
  by_cases he : st.err = true
  · simp [treeLineStep, he]
  · have he' : st.err = false := by simpa using he
    simp [treeLineStep, he', h]

theorem treeLineStep_skipC {root : List String} {force dry : Bool} {st : St}
    {raw : String} (h : strip_tree_chars (pyRstrip raw) = "") :
    treeLineStep root force dry st raw = st := by
  by_cases he : st.err = true
  · simp [treeLineStep, he]
  · have he' : st.err = false := by simpa using he
    simp [treeLineStep, he', h]

theorem treeLineStep_dirB {root : List String} {force : Bool} {st : St}
    {raw : String} {fs1 : FDir} (he : st.err = false)
    (h1 : ¬ pyRstrip raw = "")
    (h2 : pyStartsWith (pyLower (pyRstrip raw)) "project" = false)
    (h3 : ¬ strip_tree_chars (pyRstrip raw) = "")
    (h4 : pyEndsWith (strip_tree_chars (pyRstrip raw)) "/" = true)
    (hmk : st.fs.mkdirp (pyJoin root (strip_tree_chars (pyRstrip raw)))
      = some fs1) :
    treeLineStep root force false st raw =
      ⟨fs1, st.rep ++
        [pathStr (pyJoin root (strip_tree_chars (pyRstrip raw))) ++ "/"],
        false⟩ := by
  simp [treeLineStep, he, h1, h2, h3, h4, hmk]

theorem treeLineStep_dir_failB {root : List String} {force : Bool} {st : St}
    {raw : String} (he : st.err = false)
    (h1 : ¬ pyRstrip raw = "")
    (h2 : pyStartsWith (pyLower (pyRstrip raw)) "project" = false)
    (h3 : ¬ strip_tree_chars (pyRstrip raw) = "")
    (h4 : pyEndsWith (strip_tree_chars (pyRstrip raw)) "/" = true)
    (hmk : st.fs.mkdirp (pyJoin root (strip_tree_chars (pyRstrip raw)))
      = none) :
    treeLineStep root force false st raw = ⟨st.fs, st.rep, true⟩ := by
  simp [treeLineStep, he, h1, h2, h3, h4, hmk]

theorem treeLineStep_fileB {root : List String} {force dry : Bool} {st : St}
    {raw : String} (he : st.err = false)
    (h1 : ¬ pyRstrip raw = "")
    (h2 : pyStartsWith (pyLower (pyRstrip raw)) "project" = false)
    (h3 : ¬ strip_tree_chars (pyRstrip raw) = "")
    (h4 : pyEndsWith (strip_tree_chars (pyRstrip raw)) "/" = false) :
    treeLineStep root force dry st raw =
      fileTargetStep force dry
        (pyJoin root (strip_tree_chars (pyRstrip raw))) "" st := by
  simp [treeLineStep, he, h1, h2, h3, h4]

theorem buildTreeLines_err_sticky {root : List String} {force dry : Bool} :
    ∀ (lines : List String) (st : St), st.err = true →
    buildTreeLines lines root force dry st = st := by
  intro lines
  induction lines with
  | nil => intro st _; rfl
  | cons raw rest ih =>
    intro st h
    rw [buildTreeLines, List.foldl_cons, treeLineStep_err h]
    exact ih st h

theorem treeLineStep_mono_exists {root : List String} {force : Bool}
    {st : St} {raw : String} {q : List String}
    (h : (st.fs.pathLookup q).isSome = true) :
    ((treeLineStep root force false st raw).fs.pathLookup q).isSome
      = true := by
  by_cases he : st.err = true
  · rw [treeLineStep_err he]; exact h
  · have he' : st.err = false := by simpa using he
    by_cases h1 : pyRstrip raw = ""
    · rw [treeLineStep_skipA h1]; exact h
    · by_cases h2 : pyStartsWith (pyLower (pyRstrip raw)) "project" = true
      · rw [treeLineStep_skipB h2]; exact h
      · have h2' : pyStartsWith (pyLower (pyRstrip raw)) "project"
            = false := by simpa using h2
        by_cases h3 : strip_tree_chars (pyRstrip raw) = ""
        · rw [treeLineStep_skipC h3]; exact h
        · by_cases h4 : pyEndsWith (strip_tree_chars (pyRstrip raw)) "/"
              = true
          · cases hmk : st.fs.mkdirp
                (pyJoin root (strip_tree_chars (pyRstrip raw))) with
            | none =>
              rw [treeLineStep_dir_failB he' h1 h2' h3 h4 hmk]
              exact h
            | some fs1 =>
              rw [treeLineStep_dirB he' h1 h2' h3 h4 hmk]
              obtain ⟨w, hw⟩ := Option.isSome_iff_exists.mp h
              exact mkdirp_mono_exists (FDir.mkdirp_some_iff.mp hmk)
                (by rw [show st.fs.pathLookup q = (FNode.dir st.fs).lookupPath q from rfl] at hw; simp [hw])
          · have h4' : pyEndsWith (strip_tree_chars (pyRstrip raw)) "/"
                = false := by simpa using h4
            rw [treeLineStep_fileB he' h1 h2' h3 h4']
            exact fileTargetStep_mono_exists h

theorem treeLineStep_mono_dir {root : List String} {force : Bool}
    {st : St} {raw : String} {q : List String} {x : FDir}
    (h : st.fs.pathLookup q = some (.dir x)) :
    ∃ y, (treeLineStep root force false st raw).fs.pathLookup q
      = some (.dir y) := by
  by_cases he : st.err = true
  · rw [treeLineStep_err he]; exact ⟨x, h⟩
  · have he' : st.err = false := by simpa using he
    by_cases h1 : pyRstrip raw = ""
    · rw [treeLineStep_skipA h1]; exact ⟨x, h⟩
    · by_cases h2 : pyStartsWith (pyLower (pyRstrip raw)) "project" = true
      · rw [treeLineStep_skipB h2]; exact ⟨x, h⟩
      · have h2' : pyStartsWith (pyLower (pyRstrip raw)) "project"
            = false := by simpa using h2
        by_cases h3 : strip_tree_chars (pyRstrip raw) = ""
        · rw [treeLineStep_skipC h3]; exact ⟨x, h⟩
        · by_cases h4 : pyEndsWith (strip_tree_chars (pyRstrip raw)) "/"
              = true
          · cases hmk : st.fs.mkdirp
                (pyJoin root (strip_tree_chars (pyRstrip raw))) with
            | none =>
              rw [treeLineStep_dir_failB he' h1 h2' h3 h4 hmk]
              exact ⟨x, h⟩
            | some fs1 =>
              rw [treeLineStep_dirB he' h1 h2' h3 h4 hmk]
              exact mkdirp_mono_dir (FDir.mkdirp_some_iff.mp hmk) h
          · have h4' : pyEndsWith (strip_tree_chars (pyRstrip raw)) "/"
                = false := by simpa using h4
            rw [treeLineStep_fileB he' h1 h2' h3 h4']
            exact fileTargetStep_mono_dir h

theorem buildTreeLines_mono_exists {root : List String} {force : Bool}
    {q : List String} :
    ∀ (lines : List String) (st : St),
    (st.fs.pathLookup q).isSome = true →
    ((buildTreeLines lines root force false st).fs.pathLookup q).isSome
      = true := by
  intro lines
  induction lines with
  | nil => intro st h; exact h
  | cons raw rest ih =>
    intro st h
    rw [buildTreeLines, List.foldl_cons]
    exact ih (treeLineStep root force false st raw)
      (treeLineStep_mono_exists h)

theorem buildTreeLines_mono_dir {root : List String} {force : Bool}
    {q : List String} :
    ∀ (lines : List String) (st : St) (x : FDir),
    st.fs.pathLookup q = some (.dir x) →
    ∃ y, ((buildTreeLines lines root force false st).fs.pathLookup q)
      = some (.dir y) := by
  intro lines
  induction lines with
  | nil => intro st x h; exact ⟨x, h⟩
  | cons raw rest ih =>
    intro st x h
    rw [buildTreeLines, List.foldl_cons]
    obtain ⟨y, hy⟩ := @treeLineStep_mono_dir root force st raw q x h
    exact ih (treeLineStep root force false st raw) y hy

/-- After a successful tree-text line phase, every input line is
materialized in the resulting filesystem. -/
theorem buildTreeLines_establishes {root : List String} :
    ∀ (lines : List String) (st : St), st.err = false →
    (buildTreeLines lines root false false st).err = false →
    ∀ raw ∈ lines,
      lineEstablished root raw (buildTreeLines lines root false false st).fs := by
  intro lines
  induction lines with
  | nil =>
    intro st _ _ raw hmem
    simp at hmem
  | cons raw0 rest ih =>
    intro st hstE hfinE raw hmem
    rw [buildTreeLines, List.foldl_cons] at hfinE ⊢
    obtain ⟨st1, hst1⟩ : ∃ s, treeLineStep root false false st raw0 = s :=
      ⟨_, rfl⟩
    rw [hst1] at hfinE ⊢
    have hrest : ∀ s2 : St, List.foldl (treeLineStep root false false) s2 rest
        = buildTreeLines rest root false false s2 := fun s2 => rfl
    rw [hrest] at hfinE ⊢
    have hst1E : st1.err = false := by
      cases hse : st1.err with
      | false => rfl
      | true =>
        exfalso
        rw [buildTreeLines_err_sticky rest st1 hse, hse] at hfinE
        simp at hfinE
    rcases List.mem_cons.mp hmem with hr | hr
    · subst hr
      by_cases h1 : pyRstrip raw = ""
      · simp only [lineEstablished]
        rw [if_pos (Or.inl h1)]
        trivial
      · by_cases h2 : pyStartsWith (pyLower (pyRstrip raw)) "project" = true
        · simp only [lineEstablished]
          rw [if_pos (Or.inr h2)]
          trivial
        · have h2' : pyStartsWith (pyLower (pyRstrip raw)) "project"
              = false := by simpa using h2
          have hnc1 : ¬ (pyRstrip raw = "" ∨
              pyStartsWith (pyLower (pyRstrip raw)) "project" = true) := by
            rintro (hc | hc)
            · exact h1 hc
            · exact h2 hc
          by_cases h3 : strip_tree_chars (pyRstrip raw) = ""
          · simp only [lineEstablished]
            rw [if_neg hnc1, if_pos h3]
            trivial
          · by_cases h4 : pyEndsWith (strip_tree_chars (pyRstrip raw)) "/"
                = true
            · cases hmk : st.fs.mkdirp
                  (pyJoin root (strip_tree_chars (pyRstrip raw))) with
              | none =>
                exfalso
                rw [treeLineStep_dir_failB hstE h1 h2' h3 h4 hmk] at hst1
                rw [← hst1] at hst1E
                simp at hst1E
              | some fs1 =>
                have hst1' : st1 = ⟨fs1, st.rep ++
                    [pathStr (pyJoin root
                      (strip_tree_chars (pyRstrip raw))) ++ "/"],
                    false⟩ := by
                  rw [← hst1, treeLineStep_dirB hstE h1 h2' h3 h4 hmk]
                have hdir : ∃ y0, st1.fs.pathLookup
                    (pyJoin root (strip_tree_chars (pyRstrip raw)))
                    = some (.dir y0) := by
                  rw [hst1']
                  exact mkdirp_prefix_dir (FDir.mkdirp_some_iff.mp hmk)
                    (List.prefix_refl _)
                obtain ⟨y0, hy0⟩ := hdir
                obtain ⟨y, hy⟩ := buildTreeLines_mono_dir rest st1 y0 hy0
                simp only [lineEstablished]
                rw [if_neg hnc1, if_neg h3, if_pos h4]
                exact ⟨y, hy⟩
            · have h4' : pyEndsWith (strip_tree_chars (pyRstrip raw)) "/"
                  = false := by simpa using h4
              have hst1' : st1 = fileTargetStep false false
                  (pyJoin root (strip_tree_chars (pyRstrip raw))) "" st := by
                rw [← hst1, treeLineStep_fileB hstE h1 h2' h3 h4']
              have hsome : (st1.fs.pathLookup
                  (pyJoin root (strip_tree_chars (pyRstrip raw)))).isSome
                  = true := by
                rw [hst1']
                refine fileTargetStep_target_exists ?_
                rw [← hst1']
                exact hst1E
              simp only [lineEstablished]
              rw [if_neg hnc1, if_neg h3, if_neg (by simp [h4'])]
              exact buildTreeLines_mono_exists rest st1 hsome
    · exact ih st1 hst1E hfinE raw hr

/-- Re-running the tree-text line phase (KeepExisting, Apply) over a
filesystem in which every line is already materialized changes nothing:
the filesystem is returned unchanged, no error occurs, and only directory
and KeptExisting lines are recorded. -/
theorem buildTreeLines_established_noop {root : List String} :
    ∀ (lines : List String) (st2 : St), st2.err = false →
    (∀ raw ∈ lines, lineEstablished root raw st2.fs) →
    (buildTreeLines lines root false false st2).fs = st2.fs ∧
    (buildTreeLines lines root false false st2).err = false ∧
    (∀ s ∈ (buildTreeLines lines root false false st2).rep,
      s ∈ st2.rep ∨ repIsDirOrKept s = true) := by
  intro lines
  induction lines with
  | nil =>
    intro st2 h0 _
    exact ⟨rfl, h0, fun s hs => Or.inl hs⟩
  | cons raw0 rest ih =>
    intro st2 h0 hE
    have hE0 := hE raw0 (List.mem_cons_self raw0 rest)
    rw [buildTreeLines, List.foldl_cons]
    have hrest : ∀ s2 : St, List.foldl (treeLineStep root false false) s2 rest
        = buildTreeLines rest root false false s2 := fun s2 => rfl
    rw [hrest]
    by_cases h1 : pyRstrip raw0 = ""
    · rw [treeLineStep_skipA h1]
      exact ih st2 h0 (fun raw hr => hE raw (List.mem_cons_of_mem raw0 hr))
    · by_cases h2 : pyStartsWith (pyLower (pyRstrip raw0)) "project" = true
      · rw [treeLineStep_skipB h2]
        exact ih st2 h0 (fun raw hr => hE raw (List.mem_cons_of_mem raw0 hr))
      · have h2' : pyStartsWith (pyLower (pyRstrip raw0)) "project"
            = false := by simpa using h2
        have hnc1 : ¬ (pyRstrip raw0 = "" ∨
            pyStartsWith (pyLower (pyRstrip raw0)) "project" = true) := by
          rintro (hc | hc)
          · exact h1 hc
          · exact h2 hc
        by_cases h3 : strip_tree_chars (pyRstrip raw0) = ""
        · rw [treeLineStep_skipC h3]
          exact ih st2 h0 (fun raw hr => hE raw (List.mem_cons_of_mem raw0 hr))
        · by_cases h4 : pyEndsWith (strip_tree_chars (pyRstrip raw0)) "/"
              = true
          · simp only [lineEstablished] at hE0
            rw [if_neg hnc1, if_neg h3, if_pos h4] at hE0
            obtain ⟨y, hy⟩ := hE0
            have hmk : st2.fs.mkdirp
                (pyJoin root (strip_tree_chars (pyRstrip raw0)))
                = some st2.fs := by
              refine FDir.mkdirp_some_iff.mpr ?_
              exact mkdirp_noop hy
            rw [treeLineStep_dirB h0 h1 h2' h3 h4 hmk]
            obtain ⟨hf, he, hrep⟩ := ih
              ⟨st2.fs, st2.rep ++ [pathStr (pyJoin root
                (strip_tree_chars (pyRstrip raw0))) ++ "/"], false⟩
              rfl
              (fun raw hr => hE raw (List.mem_cons_of_mem raw0 hr))
            refine ⟨hf, he, ?_⟩
            intro s hs
            rcases hrep s hs with hs2 | hs2
            · rcases List.mem_append.mp hs2 with hs3 | hs3
              · exact Or.inl hs3
              · right
                rw [List.mem_singleton.mp hs3]
                exact repIsDirOrKept_slash
            · exact Or.inr hs2
          · have h4' : pyEndsWith (strip_tree_chars (pyRstrip raw0)) "/"
                = false := by simpa using h4
            simp only [lineEstablished] at hE0
            rw [if_neg hnc1, if_neg h3, if_neg (by simp [h4'])] at hE0
            rw [treeLineStep_fileB h0 h1 h2' h3 h4']
            rw [fileTargetStep_kept hE0 rfl]
            obtain ⟨hf, he, hrep⟩ := ih
              { st2 with rep := st2.rep ++ [pathStr (pyJoin root
                (strip_tree_chars (pyRstrip raw0))) ++ " (exists, kept)"] }
              h0
              (fun raw hr => hE raw (List.mem_cons_of_mem raw0 hr))
            refine ⟨hf, he, ?_⟩
            intro s hs
            rcases hrep s hs with hs2 | hs2
            · rcases List.mem_append.mp hs2 with hs3 | hs3
              · exact Or.inl hs3
              · right
                rw [List.mem_singleton.mp hs3]
                exact repIsDirOrKept_kept
            · exact Or.inr hs2

theorem dictStepVal_err {tdir : Option (List String)} {force dry : Bool}
    {base : List String} {n : String} {v : SVal} {st : St}
    (h : st.err = true) :
    dictStepVal tdir force dry base n v st = st := by
  rw [dictStepVal.eq_def]
  simp [h]

theorem dictStepVal_tmpl {force dry : Bool} {base : List String}
    {s : String} {st : St} (he : st.err = false) :
    dictStepVal none force dry base "__template__" (.str s) st = st := by
  simp [dictStepVal, he]

theorem dictStepVal_str {force dry : Bool} {base : List String}
    {n s : String} {st : St} (he : st.err = false)
    (hn : ¬ n = "__template__") :
    dictStepVal none force dry base n (.str s) st =
      fileTargetStep force dry (pyJoin base n) s st := by
  simp [dictStepVal, he, hn]

theorem dictStepVal_noneV {tdir : Option (List String)} {force dry : Bool}
    {base : List String} {n : String} {st : St} (he : st.err = false) :
    dictStepVal tdir force dry base n .noneV st =
      fileTargetStep force dry (pyJoin base n) "" st := by
  simp [dictStepVal, he]

theorem dictStepVal_map {tdir : Option (List String)} {force : Bool}
    {base : List String} {n : String} {mm : SMap} {st : St} {fs1 : FDir}
    (he : st.err = false)
    (hmk : st.fs.mkdirp (pyJoin base n) = some fs1) :
    dictStepVal tdir force false base n (.map mm) st =
      dictRecurse tdir force false (pyJoin base n) mm
        ⟨fs1, st.rep ++ [pathStr (pyJoin base n) ++ "/"], false⟩ := by
  simp [dictStepVal, he, hmk]

theorem dictStepVal_map_fail {tdir : Option (List String)} {force : Bool}
    {base : List String} {n : String} {mm : SMap} {st : St}
    (he : st.err = false)
    (hmk : st.fs.mkdirp (pyJoin base n) = none) :
    dictStepVal tdir force false base n (.map mm) st =
      ⟨st.fs, st.rep, true⟩ := by
  simp [dictStepVal, he, hmk]

theorem dictRecurse_err_sticky {tdir : Option (List String)}
    {force dry : Bool} (m : SMap) : ∀ (base : List String) (st : St),
    st.err = true → dictRecurse tdir force dry base m st = st := by
  match m with
  | .nil => intro base st _; rfl
  | .cons n v rest =>
    intro base st h
    rw [dictRecurse, dictStepVal_err h]
    exact dictRecurse_err_sticky rest base st h

theorem dictRecurse_mono_exists (m : SMap) : ∀ (base : List String)
    (st : St) (q : List String),
    (st.fs.pathLookup q).isSome = true →
    ((dictRecurse none false false base m st).fs.pathLookup q).isSome
      = true := by
  match m with
  | .nil => intro base st q h; exact h
  | .cons n v rest =>
    intro base st q h
    rw [dictRecurse]
    refine dictRecurse_mono_exists rest base _ q ?_
    by_cases he : st.err = true
    · rw [dictStepVal_err he]
      exact h
    · have he' : st.err = false := by simpa using he
      match v with
      | .str s =>
        by_cases hn : n = "__template__"
        · subst hn
          rw [dictStepVal_tmpl he']
          exact h
        · rw [dictStepVal_str he' hn]
          exact fileTargetStep_mono_exists h
      | .noneV =>
        rw [dictStepVal_noneV he']
        exact fileTargetStep_mono_exists h
      | .map mm =>
        cases hmk : st.fs.mkdirp (pyJoin base n) with
        | none =>
          rw [dictStepVal_map_fail he' hmk]
          exact h
        | some fs1 =>
          rw [dictStepVal_map he' hmk]
          refine dictRecurse_mono_exists mm (pyJoin base n) _ q ?_
          obtain ⟨w, hw⟩ := Option.isSome_iff_exists.mp h
          exact mkdirp_mono_exists (FDir.mkdirp_some_iff.mp hmk)
            (by rw [show st.fs.pathLookup q = (FNode.dir st.fs).lookupPath q from rfl] at hw; simp [hw])

theorem dictRecurse_mono_dir (m : SMap) : ∀ (base : List String)
    (st : St) (q : List String) (x : FDir),
    st.fs.pathLookup q = some (.dir x) →
    ∃ y, ((dictRecurse none false false base m st).fs.pathLookup q)
      = some (.dir y) := by
  match m with
  | .nil => intro base st q x h; exact ⟨x, h⟩
  | .cons n v rest =>
    intro base st q x h
    rw [dictRecurse]
    have hstep : ∃ z, ((dictStepVal none false false base n v
        st).fs.pathLookup q) = some (.dir z) := by
      by_cases he : st.err = true
      · rw [dictStepVal_err he]
        exact ⟨x, h⟩
      · have he' : st.err = false := by simpa using he
        match v with
        | .str s =>
          by_cases hn : n = "__template__"
          · subst hn
            rw [dictStepVal_tmpl he']
            exact ⟨x, h⟩
          · rw [dictStepVal_str he' hn]
            exact fileTargetStep_mono_dir h
        | .noneV =>
          rw [dictStepVal_noneV he']
          exact fileTargetStep_mono_dir h
        | .map mm =>
          cases hmk : st.fs.mkdirp (pyJoin base n) with
          | none =>
            rw [dictStepVal_map_fail he' hmk]
            exact ⟨x, h⟩
          | some fs1 =>
            rw [dictStepVal_map he' hmk]
            obtain ⟨z, hz⟩ := mkdirp_mono_dir (FDir.mkdirp_some_iff.mp hmk) h
            exact dictRecurse_mono_dir mm (pyJoin base n) _ q z hz
    obtain ⟨z, hz⟩ := hstep
    exact dictRecurse_mono_dir rest base _ q z hz

theorem establishedAt_mono (m : SMap) : ∀ (base : List String)
    (fs fs2 : FDir),
    (∀ q, (fs.pathLookup q).isSome = true →
      (fs2.pathLookup q).isSome = true) →
    (∀ q x, fs.pathLookup q = some (.dir x) →
      ∃ y, fs2.pathLookup q = some (.dir y)) →
    SMap.establishedAt m base fs → SMap.establishedAt m base fs2 := by
  match m with
  | .nil =>
    intro base fs fs2 _ _ _
    rw [SMap.establishedAt]
    trivial
  | .cons n v rest =>
    intro base fs fs2 hm1 hm2 hest
    rw [SMap.establishedAt] at hest ⊢
    obtain ⟨hv, hrest⟩ := hest
    refine ⟨?_, establishedAt_mono rest base fs fs2 hm1 hm2 hrest⟩
    cases v with
    | str s =>
      rw [SVal.establishedAt] at hv ⊢
      rcases hv with hv | hv
      · exact Or.inl hv
      · exact Or.inr (hm1 _ hv)
    | noneV =>
      rw [SVal.establishedAt] at hv ⊢
      exact hm1 _ hv
    | map mm =>
      rw [SVal.establishedAt] at hv ⊢
      obtain ⟨⟨y, hy⟩, hmm⟩ := hv
      exact ⟨hm2 _ y hy, establishedAt_mono mm (pyJoin base n) fs fs2
        hm1 hm2 hmm⟩

/-- After a successful `build_from_dict` run (no templates), every entry
of the mapping is materialized in the resulting filesystem. -/
theorem dictRun_establishes (m : SMap) : ∀ (base : List String) (st : St),
    st.err = false →
    (dictRecurse none false false base m st).err = false →
    SMap.establishedAt m base
      (dictRecurse none false false base m st).fs := by
  match m with
  | .nil =>
    intro base st _ _
    rw [SMap.establishedAt]
    trivial
  | .cons n v rest =>
    intro base st h0 hfin
    rw [dictRecurse] at hfin ⊢
    obtain ⟨st1, hst1⟩ : ∃ s, dictStepVal none false false base n v st = s :=
      ⟨_, rfl⟩
    rw [hst1] at hfin ⊢
    have hst1E : st1.err = false := by
      cases hse : st1.err with
      | false => rfl
      | true =>
        exfalso
        rw [dictRecurse_err_sticky rest base st1 hse, hse] at hfin
        simp at hfin
    rw [SMap.establishedAt]
    refine ⟨?_, dictRun_establishes rest base st1 hst1E hfin⟩
    cases v with
    | str s =>
      rw [SVal.establishedAt]
      by_cases hn : n = "__template__"
      · exact Or.inl hn
      · refine Or.inr ?_
        rw [dictStepVal_str h0 hn] at hst1
        have hsome : (st1.fs.pathLookup (pyJoin base n)).isSome = true := by
          rw [← hst1]
          refine fileTargetStep_target_exists ?_
          rw [hst1]
          exact hst1E
        exact dictRecurse_mono_exists rest base st1 (pyJoin base n) hsome
    | noneV =>
      rw [SVal.establishedAt]
      rw [dictStepVal_noneV h0] at hst1
      have hsome : (st1.fs.pathLookup (pyJoin base n)).isSome = true := by
        rw [← hst1]
        refine fileTargetStep_target_exists ?_
        rw [hst1]
        exact hst1E
      exact dictRecurse_mono_exists rest base st1 (pyJoin base n) hsome
    | map mm =>
      rw [SVal.establishedAt]
      cases hmk : st.fs.mkdirp (pyJoin base n) with
      | none =>
        exfalso
        rw [dictStepVal_map_fail h0 hmk] at hst1
        rw [← hst1] at hst1E
        simp at hst1E
      | some fs1 =>
        rw [dictStepVal_map h0 hmk] at hst1
        have hdirIn : ∃ y0, (⟨fs1, st.rep ++
            [pathStr (pyJoin base n) ++ "/"],
            false⟩ : St).fs.pathLookup (pyJoin base n) = some (.dir y0) :=
          mkdirp_prefix_dir (FDir.mkdirp_some_iff.mp hmk)
            (List.prefix_refl _)
        obtain ⟨y0, hy0⟩ := hdirIn
        have hst1fin : (dictRecurse none false false (pyJoin base n) mm
            ⟨fs1, st.rep ++ [pathStr (pyJoin base n) ++ "/"], false⟩).err
            = false := by
          rw [hst1]
          exact hst1E
        have hdir1 : ∃ y1, st1.fs.pathLookup (pyJoin base n)
            = some (.dir y1) := by
          rw [← hst1]
          exact dictRecurse_mono_dir mm (pyJoin base n) _ (pyJoin base n)
            y0 hy0
        obtain ⟨y1, hy1⟩ := hdir1
        have hestmm : SMap.establishedAt mm (pyJoin base n) st1.fs := by
          rw [← hst1]
          exact dictRun_establishes mm (pyJoin base n)
            ⟨fs1, st.rep ++ [pathStr (pyJoin base n) ++ "/"], false⟩
            rfl hst1fin
        refine ⟨dictRecurse_mono_dir rest base st1 (pyJoin base n) y1 hy1,
          ?_⟩
        exact establishedAt_mono mm (pyJoin base n) st1.fs _
          (fun q hq => dictRecurse_mono_exists rest base st1 q hq)
          (fun q x hx => dictRecurse_mono_dir rest base st1 q x hx)
          hestmm

/-- Re-running `build_from_dict` (no templates, KeepExisting, Apply) over
a filesystem in which the mapping is already materialized changes
nothing: the filesystem is returned unchanged, no error occurs, and only
directory and KeptExisting lines are recorded. -/
theorem dictRun_established_noop (m : SMap) : ∀ (base : List String)
    (st2 : St), st2.err = false →
    SMap.establishedAt m base st2.fs →
    (dictRecurse none false false base m st2).fs = st2.fs ∧
    (dictRecurse none false false base m st2).err = false ∧
    (∀ s ∈ (dictRecurse none false false base m st2).rep,
      s ∈ st2.rep ∨ repIsDirOrKept s = true) := by
  match m with
  | .nil =>
    intro base st2 h0 _
    exact ⟨rfl, h0, fun s hs => Or.inl hs⟩
  | .cons n v rest =>
    intro base st2 h0 hest
    rw [SMap.establishedAt] at hest
    obtain ⟨hv, hrest⟩ := hest
    rw [dictRecurse]
    cases v with
    | str s =>
      rw [SVal.establishedAt] at hv
      by_cases hn : n = "__template__"
      · subst hn
        rw [dictStepVal_tmpl h0]
        exact dictRun_established_noop rest base st2 h0 hrest
      · rcases hv with hv | hv
        · exact absurd hv hn
        · rw [dictStepVal_str h0 hn, fileTargetStep_kept hv rfl]
          obtain ⟨hf, he, hrep⟩ := dictRun_established_noop rest base
            { st2 with rep := st2.rep ++
              [pathStr (pyJoin base n) ++ " (exists, kept)"] } h0 hrest
          refine ⟨hf, he, ?_⟩
          intro s2 hs
          rcases hrep s2 hs with hs2 | hs2
          · rcases List.mem_append.mp hs2 with hs3 | hs3
            · exact Or.inl hs3
            · right
              rw [List.mem_singleton.mp hs3]
              exact repIsDirOrKept_kept
          · exact Or.inr hs2
    | noneV =>
      rw [SVal.establishedAt] at hv
      rw [dictStepVal_noneV h0, fileTargetStep_kept hv rfl]
      obtain ⟨hf, he, hrep⟩ := dictRun_established_noop rest base
        { st2 with rep := st2.rep ++
          [pathStr (pyJoin base n) ++ " (exists, kept)"] } h0 hrest
      refine ⟨hf, he, ?_⟩
      intro s2 hs
      rcases hrep s2 hs with hs2 | hs2
      · rcases List.mem_append.mp hs2 with hs3 | hs3
        · exact Or.inl hs3
        · right
          rw [List.mem_singleton.mp hs3]
          exact repIsDirOrKept_kept
      · exact Or.inr hs2
    | map mm =>
      rw [SVal.establishedAt] at hv
      obtain ⟨⟨y, hy⟩, hmm⟩ := hv
      have hmk : st2.fs.mkdirp (pyJoin base n) = some st2.fs :=
        FDir.mkdirp_some_iff.mpr (mkdirp_noop hy)
      rw [dictStepVal_map h0 hmk]
      obtain ⟨hfI, heI, hrepI⟩ := dictRun_established_noop mm
        (pyJoin base n)
        ⟨st2.fs, st2.rep ++ [pathStr (pyJoin base n) ++ "/"], false⟩
        rfl hmm
      obtain ⟨hf, he, hrep⟩ := dictRun_established_noop rest base
        (dictRecurse none false false (pyJoin base n) mm
          ⟨st2.fs, st2.rep ++ [pathStr (pyJoin base n) ++ "/"], false⟩)
        heI (by rw [hfI]; exact hrest)
      refine ⟨by rw [hf, hfI], he, ?_⟩
      intro s2 hs
      rcases hrep s2 hs with hs2 | hs2
      · rcases hrepI s2 hs2 with hs3 | hs3
        · rcases List.mem_append.mp hs3 with hs4 | hs4
          · exact Or.inl hs4
          · right
            rw [List.mem_singleton.mp hs4]
            exact repIsDirOrKept_slash
        · exact Or.inr hs3
      · exact Or.inr hs2

/-- C4 counterexample: the claim quantifies over every input structure
and root, but with a templates directory that overlaps the target root
the second run is not a no-op: for the mapping
`{__template__: "t", t: {x: "B"}}` built into root `r` with
`templates=r`, the first run creates `r/t/x` and finds no template
source, while the second run finds `r/t` on disk, splices its contents,
and creates the new file `r/x` with a plain creation record (not
KeptExisting) — both runs succeeding. -/
theorem claim_C4_counterexample :
    (build_from_dict ["r"]
      (.cons "__template__" (.str "t")
        (.cons "t" (.map (.cons "x" (.str "B") .nil)) .nil))
      false false (some ["r"])
      ⟨.cons "r" (.dir .nil) .nil, [], false⟩).err = false ∧
    (build_from_dict ["r"]
      (.cons "__template__" (.str "t")
        (.cons "t" (.map (.cons "x" (.str "B") .nil)) .nil))
      false false (some ["r"])
      ⟨(build_from_dict ["r"]
        (.cons "__template__" (.str "t")
          (.cons "t" (.map (.cons "x" (.str "B") .nil)) .nil))
        false false (some ["r"])
        ⟨.cons "r" (.dir .nil) .nil, [], false⟩).fs, [], false⟩).err =
      false ∧
    (build_from_dict ["r"]
      (.cons "__template__" (.str "t")
        (.cons "t" (.map (.cons "x" (.str "B") .nil)) .nil))
      false false (some ["r"])
      ⟨.cons "r" (.dir .nil) .nil, [], false⟩).fs.pathLookup ["r", "x"] =
      none ∧
    (build_from_dict ["r"]
      (.cons "__template__" (.str "t")
        (.cons "t" (.map (.cons "x" (.str "B") .nil)) .nil))
      false false (some ["r"])
      ⟨(build_from_dict ["r"]
        (.cons "__template__" (.str "t")
          (.cons "t" (.map (.cons "x" (.str "B") .nil)) .nil))
        false false (some ["r"])
        ⟨.cons "r" (.dir .nil) .nil, [], false⟩).fs, [],
        false⟩).fs.pathLookup ["r", "x"] = some (.file "B") ∧
    "r/x" ∈ (build_from_dict ["r"]
      (.cons "__template__" (.str "t")
        (.cons "t" (.map (.cons "x" (.str "B") .nil)) .nil))
      false false (some ["r"])
      ⟨(build_from_dict ["r"]
        (.cons "__template__" (.str "t")
          (.cons "t" (.map (.cons "x" (.str "B") .nil)) .nil))
        false false (some ["r"])
        ⟨.cons "r" (.dir .nil) .nil, [], false⟩).fs, [], false⟩).rep ∧
    repIsDirOrKept "r/x" = false := by
  refine ⟨by decide, by decide, by decide, by decide, by decide, by decide⟩

/-- C4 (amended): without a templates directory, a second
KeepExisting/Apply run (`force=false`, `dry_run=false`) of either builder
over the result of a successful first run leaves the filesystem exactly
as the first run left it, succeeds, and records only directory lines and
KeptExisting lines — no file-creating action. -/
theorem claim_C4_keep_existing_idempotent :
    (∀ (lines : List String) (root : List String) (st0 : St),
      st0.err = false →
      (build_from_tree lines root false false none st0).err = false →
      (build_from_tree lines root false false none
        ⟨(build_from_tree lines root false false none st0).fs, [],
          false⟩).fs =
        (build_from_tree lines root false false none st0).fs ∧
      (build_from_tree lines root false false none
        ⟨(build_from_tree lines root false false none st0).fs, [],
          false⟩).err = false ∧
      (∀ s ∈ (build_from_tree lines root false false none
        ⟨(build_from_tree lines root false false none st0).fs, [],
          false⟩).rep, repIsDirOrKept s = true)) ∧
    (∀ (struct : SMap) (root : List String) (st0 : St),
      st0.err = false →
      (build_from_dict root struct false false none st0).err = false →
      (build_from_dict root struct false false none
        ⟨(build_from_dict root struct false false none st0).fs, [],
          false⟩).fs =
        (build_from_dict root struct false false none st0).fs ∧
      (build_from_dict root struct false false none
        ⟨(build_from_dict root struct false false none st0).fs, [],
          false⟩).err = false ∧
      (∀ s ∈ (build_from_dict root struct false false none
        ⟨(build_from_dict root struct false false none st0).fs, [],
          false⟩).rep, repIsDirOrKept s = true)) := by
  constructor
  · intro lines root st0 h0 h1
    have hbt : ∀ st : St, build_from_tree lines root false false none st =
        buildTreeLines lines root false false st := fun st => rfl
    rw [hbt] at h1
    simp only [hbt]
    have hest := buildTreeLines_establishes lines st0 h0 h1
    obtain ⟨hf, he, hrep⟩ := buildTreeLines_established_noop lines
      ⟨(buildTreeLines lines root false false st0).fs, [], false⟩ rfl
      (fun raw hr => hest raw hr)
    refine ⟨hf, he, ?_⟩
    intro s hs
    rcases hrep s hs with hs2 | hs2
    · simp at hs2
    · exact hs2
  · intro struct root st0 h0 h1
    have hbd : ∀ st : St, build_from_dict root struct false false none st =
        dictRecurse none false false root struct st := fun st => rfl
    rw [hbd] at h1
    simp only [hbd]
    have hest := dictRun_establishes struct root st0 h0 h1
    obtain ⟨hf, he, hrep⟩ := dictRun_established_noop struct root
      ⟨(dictRecurse none false false root struct st0).fs, [], false⟩ rfl
      hest
    refine ⟨hf, he, ?_⟩
    intro s hs
    rcases hrep s hs with hs2 | hs2
    · simp at hs2
    · exact hs2

/-- C4 witness: the amended idempotence evaluated concretely for both
builders: tree text `["a/", "a/f.txt"]` and mapping `{d: {f: "x"}}`
into the empty root `R`. -/
theorem claim_C4_witness :
    (⟨FDir.cons "R" (.dir .nil) .nil, [], false⟩ : St).err = false ∧
    (build_from_tree ["a/", "a/f.txt"] ["R"] false false none
      ⟨.cons "R" (.dir .nil) .nil, [], false⟩).err = false ∧
    (build_from_tree ["a/", "a/f.txt"] ["R"] false false none
      ⟨(build_from_tree ["a/", "a/f.txt"] ["R"] false false none
        ⟨.cons "R" (.dir .nil) .nil, [], false⟩).fs, [], false⟩).fs =
      (build_from_tree ["a/", "a/f.txt"] ["R"] false false none
        ⟨.cons "R" (.dir .nil) .nil, [], false⟩).fs ∧
    (build_from_dict ["R"]
      (.cons "d" (.map (.cons "f" (.str "x") .nil)) .nil)
      false false none ⟨.cons "R" (.dir .nil) .nil, [], false⟩).err =
      false ∧
    (build_from_dict ["R"]
      (.cons "d" (.map (.cons "f" (.str "x") .nil)) .nil)
      false false none
      ⟨(build_from_dict ["R"]
        (.cons "d" (.map (.cons "f" (.str "x") .nil)) .nil)
        false false none
        ⟨.cons "R" (.dir .nil) .nil, [], false⟩).fs, [], false⟩).fs =
      (build_from_dict ["R"]
        (.cons "d" (.map (.cons "f" (.str "x") .nil)) .nil)
        false false none ⟨.cons "R" (.dir .nil) .nil, [], false⟩).fs :=
  ⟨rfl, by decide,
    (claim_C4_keep_existing_idempotent.1 ["a/", "a/f.txt"] ["R"]
      ⟨.cons "R" (.dir .nil) .nil, [], false⟩ rfl (by decide)).1,
    by decide,
    (claim_C4_keep_existing_idempotent.2
      (.cons "d" (.map (.cons "f" (.str "x") .nil)) .nil) ["R"]
      ⟨.cons "R" (.dir .nil) .nil, [], false⟩ rfl (by decide)).1⟩
